import Mathlib

/-!
BVH pipeline of `scene.cc`

A shallow embedding of the bounding-volume-hierarchy code of `src/src/scene.cc`
(`get_centroid`, `get_bbox`, `build_bvh`, `validate_bvh`, `flatten_bvh`,
`validate_flattened_bvh`, `update_structure`, `submit_primitive`) together with theorems
about it.

Modelling conventions

* Values of type `float` are values of the type `float` below: the IEEE 754 binary32
  numbers as exact rationals, the two infinities and NaN.  Every arithmetic operation
  computes the exact result and rounds it to the nearest binary32 number, ties to even,
  with overflow to an infinity, gradual underflow, and the special cases of IEEE 754 for
  infinities and NaN; comparisons with NaN are false.  The two zeros are one value and all
  NaNs are one value (the code never divides by zero and never looks at a sign bit), and
  there is no excess precision and no fused multiply-add.  The default constructor of
  `glm::vec3` gives the zero vector.
* Values of type `int` and `int64` are integers or naturals.  Where the source asserts a
  bound on one (`found_i < 2^31`) the bound is part of the model; pools and trees are
  otherwise taken to be small enough for the counters of the source.
* A `Slice<T>` is a `List T`; `append` adds at the end, `count` is the length and
  indexing outside the slice is reported as `Err.outOfBounds`.
* A `ph_assert` that fails stops the computation with an error naming the assertion.
* `glm::normalize` needs a square root and is an argument of the functions that call it;
  the other operations of `glm::vec3` work coordinate by coordinate on `float`.  The
  header `scene.h` is not among the sources: the enum `SubmitFlags` is the record of the
  two tests that the code makes on it, and the struct `Cube` is the one of `tardis.cc`.
  The `double` products of the grid of `tardis.cc` are rounded to binary64 and then to
  binary32.
* A `BVHTreeNode*` is a value of the inductive type `BVHTreeNode`, whose constructor
  `null` is the `NULL` pointer.  Nodes of a tree are told apart by their position
  (the path from the root), which is what pointer equality does on a tree whose nodes
  are separately allocated.
* The recursion of `build_bvh` is bounded by an explicit budget, because the source
  recurses without a check; the `while` loops over a DFS stack pop one tree node per round
  and get the number of nodes plus one as their number of rounds.
-/

namespace ph.scene

/-! ## The code and the vocabulary of the statements -/

/-- For DFS buffers (`kTreeStackLimit`). -/
def kTreeStackLimit : Nat := 16

/-- The ways in which a run of the code can stop without a result. -/
inductive Err where
  /-- Assertion `ph_assert(count > 0)` in `get_bbox`. -/
  | emptyRange
  /-- Assertion `ph_assert(count(primitives) != 0)` in `build_bvh`. -/
  | emptyInput
  /-- Assertion `ph_assert(v > 0)` in `build_bvh`: no axis has a positive variation. -/
  | degenerate
  /-- Assertion `ph_assert(stack_offset + 2 < kTreeStackLimit)` in `validate_bvh`. -/
  | stackAssert
  /-- Assertion `ph_assert(root->left && root->right)` in `flatten_bvh`. -/
  | rootChildren
  /-- Assertion `ph_assert(found_i >= 0)` in `flatten_bvh`. -/
  | notFound
  /-- Assertion `ph_assert(found_i < int64(1) << 31)` in `flatten_bvh`. -/
  | tooLarge
  /-- An index outside a slice or array (no defined behaviour in the source). -/
  | outOfBounds
  /-- A write past the end of the fixed `stack[kTreeStackLimit]` array. -/
  | stackOverflow
  /-- A `NULL` node pointer is dereferenced. -/
  | nullDeref
  /-- Assertion `ph_assert(count(m_primitives) < PH_MAX_int64)` in `update_structure`. -/
  | poolCount
  /-- Assertion `ph_assert(index <= PH_MAX_int64)` in `submit_primitive`. -/
  | indexRange
  /-- Assertion `ph_assert(flag_params >= 0 && flag_params < count(m_primitives))` in
  `submit_primitive`. -/
  | updateId
  /-- The model ran out of recursion budget (the source would still be running). -/
  | fuel
  deriving DecidableEq, Repr

instance instDecidableEqExcept {ε α : Type} [DecidableEq ε] [DecidableEq α] :
    DecidableEq (Except ε α)
  | .ok a, .ok b =>
    if h : a = b then isTrue (by rw [h]) else isFalse (fun h2 => h (Except.ok.inj h2))
  | .error a, .error b =>
    if h : a = b then isTrue (by rw [h]) else isFalse (fun h2 => h (Except.error.inj h2))
  | .ok _, .error _ => isFalse (fun h => Except.noConfusion h)
  | .error _, .ok _ => isFalse (fun h => Except.noConfusion h)

/-- The power `2 ^ k` of two as a rational number, for an integer exponent. -/
def pow2 (k : Int) : ℚ :=
  if 0 ≤ k then ((2 ^ k.toNat : Nat) : ℚ) else 1 / ((2 ^ (-k).toNat : Nat) : ℚ)

/-- The number of halvings that take `n` below 2, at most `fuel` of them. -/
def log2_steps : Nat → Nat → Nat
  | 0, _ => 0
  | fuel + 1, n => if 2 ≤ n then log2_steps fuel (n / 2) + 1 else 0

/-- The binary exponent of a rational `q` other than zero: the integer `e` with
`2 ^ e <= |q| < 2 ^ (e + 1)`. -/
def exponent (q : ℚ) : Int :=
  let e : Int := (log2_steps q.num.natAbs q.num.natAbs : Int) - (log2_steps q.den q.den : Int)
  if pow2 e ≤ |q| then e else e - 1

/-- Rounding of a rational to the nearest integer, a tie going to the even one. -/
def round_even (x : ℚ) : Int :=
  if x - ⌊x⌋ < 1 / 2 then ⌊x⌋
  else if 1 / 2 < x - ⌊x⌋ then ⌊x⌋ + 1
  else if ⌊x⌋ % 2 = 0 then ⌊x⌋ else ⌊x⌋ + 1

/-- A value of the type `float` (IEEE 754 binary32): a number, an infinity or NaN. -/
inductive float where
  | nan
  | ninf
  | fin (q : ℚ)
  | pinf
  deriving DecidableEq, Repr

/-- Rounding of an exact result to `float`: to the nearest multiple of `2 ^ (e - 23)`, where
`e` is the binary exponent of the result and at least `-126` (24 bits of precision,
subnormal numbers below `2 ^ -126`), a tie going to the even multiple; a rounded result of
`2 ^ 128` or more in magnitude is an infinity. -/
def round32 (q : ℚ) : float :=
  if q = 0 then .fin 0
  else
    let k : Int := max (exponent q) (-126) - 23
    let r : ℚ := (round_even (q / pow2 k) : ℚ) * pow2 k
    if pow2 128 ≤ |r| then (if 0 < q then .pinf else .ninf) else .fin r

/-- Unary minus on `float`. -/
def float.neg : float → float
  | .nan => .nan
  | .ninf => .pinf
  | .fin q => .fin (-q)
  | .pinf => .ninf

/-- Function `fabs`. -/
def fabs : float → float
  | .nan => .nan
  | .ninf => .pinf
  | .fin q => .fin |q|
  | .pinf => .pinf

/-- Addition on `float`. -/
def float.add : float → float → float
  | .nan, _ => .nan
  | _, .nan => .nan
  | .pinf, .ninf => .nan
  | .ninf, .pinf => .nan
  | .pinf, _ => .pinf
  | _, .pinf => .pinf
  | .ninf, _ => .ninf
  | _, .ninf => .ninf
  | .fin a, .fin b => round32 (a + b)

/-- Subtraction on `float`. -/
def float.sub (a b : float) : float := float.add a (float.neg b)

/-- The infinity with the sign of the product of two numbers, of which `q` is not zero.
A zero has the sign plus. -/
def float.signed_inf (q r : ℚ) : float :=
  if (0 < q ∧ 0 ≤ r) ∨ (q < 0 ∧ r < 0) then .pinf else .ninf

/-- Multiplication on `float`. -/
def float.mul : float → float → float
  | .nan, _ => .nan
  | _, .nan => .nan
  | .fin a, .fin b => round32 (a * b)
  | .fin a, .pinf => if a = 0 then .nan else float.signed_inf a 1
  | .fin a, .ninf => if a = 0 then .nan else float.signed_inf a (-1)
  | .pinf, .fin b => if b = 0 then .nan else float.signed_inf b 1
  | .ninf, .fin b => if b = 0 then .nan else float.signed_inf b (-1)
  | .pinf, .pinf => .pinf
  | .ninf, .ninf => .pinf
  | .pinf, .ninf => .ninf
  | .ninf, .pinf => .ninf

/-- Division on `float`.  The divisors of this code are `2` and a count of at least two;
a division by zero is the one by the zero with the sign plus. -/
def float.div : float → float → float
  | .nan, _ => .nan
  | _, .nan => .nan
  | .fin a, .fin b =>
    if b = 0 then (if a = 0 then .nan else float.signed_inf a 0) else round32 (a / b)
  | .fin _, .pinf => .fin 0
  | .fin _, .ninf => .fin 0
  | .pinf, .fin b => float.signed_inf 1 b
  | .ninf, .fin b => float.signed_inf (-1) b
  | .pinf, .pinf => .nan
  | .pinf, .ninf => .nan
  | .ninf, .pinf => .nan
  | .ninf, .ninf => .nan

/-- The comparison `a < b` on `float`: false when either side is NaN. -/
def float.lt : float → float → Prop
  | .fin a, .fin b => a < b
  | .ninf, .fin _ => True
  | .ninf, .pinf => True
  | .fin _, .pinf => True
  | _, _ => False

/-- The comparison `a <= b` on `float`: false when either side is NaN. -/
def float.le : float → float → Prop
  | .fin a, .fin b => a ≤ b
  | .ninf, .ninf => True
  | .ninf, .fin _ => True
  | .ninf, .pinf => True
  | .fin _, .pinf => True
  | .pinf, .pinf => True
  | _, _ => False

instance float.instNeg : Neg float := ⟨float.neg⟩

instance float.instAdd : Add float := ⟨float.add⟩

instance float.instSub : Sub float := ⟨float.sub⟩

instance float.instMul : Mul float := ⟨float.mul⟩

instance float.instDiv : Div float := ⟨float.div⟩

instance float.instLT : LT float := ⟨float.lt⟩

instance float.instLE : LE float := ⟨float.le⟩

/-- A literal stands for its exact value; the literals of this file are binary32 numbers. -/
instance float.instOfNat (n : Nat) : OfNat float n := ⟨.fin n⟩

instance float.decLt : (a b : float) → Decidable (a < b)
  | .fin a, .fin b => inferInstanceAs (Decidable (a < b))
  | .ninf, .fin _ => isTrue trivial
  | .ninf, .pinf => isTrue trivial
  | .fin _, .pinf => isTrue trivial
  | .nan, _ => isFalse (fun h => h)
  | .ninf, .nan => isFalse (fun h => h)
  | .ninf, .ninf => isFalse (fun h => h)
  | .fin _, .nan => isFalse (fun h => h)
  | .fin _, .ninf => isFalse (fun h => h)
  | .pinf, _ => isFalse (fun h => h)

instance float.decLe : (a b : float) → Decidable (a ≤ b)
  | .fin a, .fin b => inferInstanceAs (Decidable (a ≤ b))
  | .ninf, .ninf => isTrue trivial
  | .ninf, .fin _ => isTrue trivial
  | .ninf, .pinf => isTrue trivial
  | .fin _, .pinf => isTrue trivial
  | .pinf, .pinf => isTrue trivial
  | .nan, _ => isFalse (fun h => h)
  | .ninf, .nan => isFalse (fun h => h)
  | .fin _, .nan => isFalse (fun h => h)
  | .fin _, .ninf => isFalse (fun h => h)
  | .pinf, .nan => isFalse (fun h => h)
  | .pinf, .ninf => isFalse (fun h => h)
  | .pinf, .fin _ => isFalse (fun h => h)

/-- The conversion of an integer to `float`, as in `(float)count`. -/
def float.ofInt (i : Int) : float := round32 (i : ℚ)

/-- The three coordinates of `GLvec3` / `glm::vec3` (the padding float is not modelled). -/
structure GLvec3 where
  x : float
  y : float
  z : float
  deriving DecidableEq, Repr

structure GLtriangle where
  p0 : GLvec3
  p1 : GLvec3
  p2 : GLvec3
  normal : GLvec3
  deriving DecidableEq, Repr

structure Primitive where
  offset : Int
  num_triangles : Int
  material : Int
  deriving DecidableEq, Repr

structure AABB where
  xmin : float
  xmax : float
  ymin : float
  ymax : float
  zmin : float
  zmax : float
  deriving DecidableEq, Repr

/-- Plain struct for the flattened tree. -/
structure BVHNode where
  primitive_offset : Int
  right_child_offset : Int
  bbox : AABB
  deriving DecidableEq, Repr

/-- A `BVHTreeNode*`: either `NULL` or a node with its data and two child pointers. -/
inductive BVHTreeNode where
  | null
  | node (data : BVHNode) (left right : BVHTreeNode)
  deriving DecidableEq, Repr

inductive SplitPlane where
  | X
  | Y
  | Z
  deriving DecidableEq, Repr

/-- Slice indexing `s[i]` with a natural index. -/
def index {α : Type} (s : List α) (i : Nat) : Except Err α :=
  match s[i]? with
  | some a => .ok a
  | none => .error .outOfBounds

/-- Slice indexing `s[i]` with a signed index. -/
def indexInt {α : Type} (s : List α) (i : Int) : Except Err α :=
  if i < 0 then .error .outOfBounds else index s i.toNat

def get_centroid (b : AABB) : GLvec3 :=
  ⟨(b.xmax + b.xmin) / 2, (b.ymax + b.ymin) / 2, (b.zmax + b.zmin) / 2⟩

/-- The body of the innermost loop of `get_bbox`: the six statements
`if (p.x < bbox.xmin) bbox.xmin = p.x;` ... `if (p.z > bbox.zmax) bbox.zmax = p.z;`, each of
which reads and writes one field only. -/
def grow (bbox : AABB) (p : GLvec3) : AABB :=
  { xmin := if p.x < bbox.xmin then p.x else bbox.xmin
    xmax := if p.x > bbox.xmax then p.x else bbox.xmax
    ymin := if p.y < bbox.ymin then p.y else bbox.ymin
    ymax := if p.y > bbox.ymax then p.y else bbox.ymax
    zmin := if p.z < bbox.zmin then p.z else bbox.zmin
    zmax := if p.z > bbox.zmax then p.z else bbox.zmax }

/-- The loop over `points[3] = {tri.p0, tri.p1, tri.p2}`. -/
def grow_triangle (bbox : AABB) (tri : GLtriangle) : AABB :=
  grow (grow (grow bbox tri.p0) tri.p1) tri.p2

/-- The loop `for (i = primitive.offset; i < primitive.offset + primitive.num_triangles; ++i)`
of `get_bbox`, entered only when `primitive.offset >= 0`. -/
def bbox_triangles (pool : List GLtriangle) : List Nat → AABB → Except Err AABB
  | [], bbox => .ok bbox
  | i :: is, bbox =>
    match index pool i with
    | .ok tri => bbox_triangles pool is (grow_triangle bbox tri)
    | .error e => .error e

/-- The loop `for (pi = 0; pi < count; ++pi)` of `get_bbox`; the first argument is the
number of iterations left, the list is the memory from `primitives + pi` on. -/
def bbox_primitives (pool : List GLtriangle) : Nat → List Primitive → AABB → Except Err AABB
  | 0, _, bbox => .ok bbox
  | _ + 1, [], _ => .error .outOfBounds
  | n + 1, primitive :: rest, bbox =>
    if primitive.offset < 0 then .ok bbox
    else
      match bbox_triangles pool
          (List.range' primitive.offset.toNat primitive.num_triangles.toNat) bbox with
      | .ok bbox => bbox_primitives pool n rest bbox
      | .error e => .error e

/-- Function `get_bbox(primitives, count)` over the triangle pool `m_triangle_pool`. -/
def get_bbox (pool : List GLtriangle) (primitives : List Primitive) (count : Int) :
    Except Err AABB :=
  if ¬ (count > 0) then .error .emptyRange
  else
    match index primitives 0 with
    | .error e => .error e
    | .ok p =>
      match indexInt pool p.offset with
      | .error e => .error e
      | .ok first =>
        bbox_primitives pool count.toNat primitives
          ⟨first.p0.x, first.p0.x, first.p0.y, first.p0.y, first.p0.z, first.p0.z⟩

/-- The loop "Fill centroids" of `build_bvh`: `get_centroid(get_bbox(&primitives[i], 1))`
for every `i`; the list argument is the memory from `&primitives[i]` on. -/
def fill_centroids (pool : List GLtriangle) : List Primitive → Except Err (List GLvec3)
  | [] => .ok []
  | primitive :: rest =>
    match get_bbox pool (primitive :: rest) 1 with
    | .error e => .error e
    | .ok bbox =>
      match fill_centroids pool rest with
      | .error e => .error e
      | .ok centroids => .ok (get_centroid bbox :: centroids)

/-- The midpoint of `build_bvh`: the centroids are added up one by one, starting from the
zero vector of `glm::vec3 midpoint;`, and the sum is divided by `count(primitives)` as a
`float`. -/
def calc_midpoint (centroids : List GLvec3) : GLvec3 :=
  let sum : GLvec3 :=
    centroids.foldl (fun m c => ⟨m.x + c.x, m.y + c.y, m.z + c.z⟩) ⟨0, 0, 0⟩
  ⟨sum.x / float.ofInt centroids.length, sum.y / float.ofInt centroids.length,
   sum.z / float.ofInt centroids.length⟩

/-- The loop "Fill variations" of `build_bvh`; the `GLvec3` holds `variation[0..2]`. -/
def fill_variation : GLvec3 → List GLvec3 → GLvec3
  | variation, ci :: ci1 :: rest =>
    fill_variation
      ⟨variation.x + fabs (ci.x - ci1.x), variation.y + fabs (ci.y - ci1.y),
       variation.z + fabs (ci.z - ci1.z)⟩
      (ci1 :: rest)
  | variation, _ => variation

/-- One round of the loop "Choose split plane": `if (v < variation[i])`. -/
def split_round (s : float × SplitPlane) (i : SplitPlane) (variation_i : float) :
    float × SplitPlane :=
  if s.1 < variation_i then (variation_i, i) else s

/-- The block "Choose split plane" of `build_bvh`, ending in `ph_assert(v > 0)`. -/
def choose_split (variation : GLvec3) : Except Err SplitPlane :=
  let s : float × SplitPlane := (-1, .X)
  let s := split_round s .X variation.x
  let s := split_round s .Y variation.y
  let s := split_round s .Z variation.z
  if s.1 > 0 then .ok s.2 else .error .degenerate

/-- What `build_bvh` computes for an inner node before it partitions: the centroids, the
midpoint and the split plane. -/
def split_selection (pool : List GLtriangle) (primitives : List Primitive) :
    Except Err (List GLvec3 × GLvec3 × SplitPlane) :=
  match fill_centroids pool primitives with
  | .error e => .error e
  | .ok centroids =>
    match choose_split (fill_variation ⟨0, 0, 0⟩ centroids) with
    | .error e => .error e
    | .ok split => .ok (centroids, calc_midpoint centroids, split)

/-- The two slices and the two index arrays filled by the partition loop of `build_bvh`. -/
structure Partition where
  slice_left : List Primitive
  slice_right : List Primitive
  new_indices_l : List Int
  new_indices_r : List Int
  offset_l : Nat
  offset_r : Nat
  deriving DecidableEq, Repr

/-- The then-branch `append(&slice_left, primitives[i]);
new_indices_l[offset_l++] = indices[i];`. -/
def Partition.to_left (st : Partition) (primitive : Primitive) (idx : Int) : Partition :=
  { st with slice_left := st.slice_left ++ [primitive],
            new_indices_l := st.new_indices_l.set st.offset_l idx,
            offset_l := st.offset_l + 1 }

/-- The then-branch `append(&slice_right, primitives[i]);
new_indices_r[offset_r++] = indices[i];`. -/
def Partition.to_right (st : Partition) (primitive : Primitive) (idx : Int) : Partition :=
  { st with slice_right := st.slice_right ++ [primitive],
            new_indices_r := st.new_indices_r.set st.offset_r idx,
            offset_r := st.offset_r + 1 }

/-- The body of the partition loop: the `switch (split)` with its two `if`s per case. -/
def partition_step (split : SplitPlane) (midpoint centroid : GLvec3) (primitive : Primitive)
    (idx : Int) (st : Partition) : Partition :=
  match split with
  | .X =>
    let st := if centroid.x < midpoint.x then st.to_left primitive idx else st
    if centroid.x ≥ midpoint.x then st.to_right primitive idx else st
  | .Y =>
    let st := if centroid.y < midpoint.y then st.to_left primitive idx else st
    if centroid.y ≥ midpoint.y then st.to_right primitive idx else st
  | .Z =>
    let st := if centroid.z < midpoint.z then st.to_left primitive idx else st
    if centroid.z ≥ midpoint.z then st.to_right primitive idx else st

/-- The partition loop of `build_bvh` over `centroids[i]`, `primitives[i]`, `indices[i]`. -/
def partition_loop (split : SplitPlane) (midpoint : GLvec3) :
    List GLvec3 → List Primitive → List Int → Partition → Partition
  | centroid :: cs, primitive :: ps, idx :: is, st =>
    partition_loop split midpoint cs ps is (partition_step split midpoint centroid primitive idx st)
  | _, _, _, st => st

/-- The partition of `build_bvh`: both index arrays start as a copy (`memcpy`) of the
first `count(primitives)` entries of `indices`. -/
def partition (split : SplitPlane) (midpoint : GLvec3) (centroids : List GLvec3)
    (primitives : List Primitive) (indices : List Int) : Partition :=
  partition_loop split midpoint centroids primitives indices
    ⟨[], [], indices.take primitives.length, indices.take primitives.length, 0, 0⟩

/-- Function `build_bvh(primitives, indices)`.  The first argument bounds the depth of the
recursion: the source recurses without any check, and a run that needs more depth than the
budget ends in `Err.fuel`. -/
def build_bvh (pool : List GLtriangle) :
    Nat → List Primitive → List Int → Except Err BVHTreeNode
  | 0, _, _ => .error .fuel
  | fuel + 1, primitives, indices =>
    if primitives.length = 0 then .error .emptyInput
    else
      match get_bbox pool primitives primitives.length with
      | .error e => .error e
      | .ok bbox =>
        if primitives.length = 1 then
          match index indices 0 with
          | .error e => .error e
          | .ok idx => .ok (.node ⟨idx, -1, bbox⟩ .null .null)
        else
          match split_selection pool primitives with
          | .error e => .error e
          | .ok (centroids, midpoint, split) =>
            if indices.length < primitives.length then .error .outOfBounds
            else
              let st := partition split midpoint centroids primitives indices
              match (if st.slice_left.length ≠ 0 then
                       build_bvh pool fuel st.slice_left st.new_indices_l
                     else .ok .null) with
              | .error e => .error e
              | .ok left =>
                match (if st.slice_right.length ≠ 0 then
                         build_bvh pool fuel st.slice_right st.new_indices_r
                       else .ok .null) with
                | .error e => .error e
                | .ok right => .ok (.node ⟨-1, -1, bbox⟩ left right)

/-- The number of nodes of a tree. -/
def BVHTreeNode.size : BVHTreeNode → Nat
  | .null => 0
  | .node _ left right => 1 + left.size + right.size

/-- The test `left == NULL && right == NULL` on a node. -/
def is_leaf (left right : BVHTreeNode) : Bool :=
  decide (left = .null) && decide (right = .null)

/-- The fixed tolerance `epsilon = 0.00001f` of `validate_bvh`: the `float` nearest to
`1 / 100000`. -/
def epsilon : float := round32 (1 / 100000)

/-- The leaf test `bool check = ...` of `validate_bvh`: six differences below `epsilon`. -/
def bbox_check (bbox bbox0 : AABB) : Bool :=
  decide (bbox.xmin - bbox0.xmin < epsilon) &&
  decide (bbox.xmax - bbox0.xmax < epsilon) &&
  decide (bbox.ymin - bbox0.ymin < epsilon) &&
  decide (bbox.ymax - bbox0.ymax < epsilon) &&
  decide (bbox.zmin - bbox0.zmin < epsilon) &&
  decide (bbox.zmax - bbox0.zmax < epsilon)

/-- The `while (stack_offset > 0)` loop of `validate_bvh`.  The stack is a list whose head
is the top; `checks` is the array of flags.  The result `none` stands for `return false`
inside the loop, `some checks` for a loop that ran to its end.  The first argument bounds
the number of rounds. -/
def validate_loop (pool : List GLtriangle) (data : List Primitive) :
    Nat → List BVHTreeNode → List Bool → Except Err (Option (List Bool))
  | 0, _, _ => .error .fuel
  | _ + 1, [], checks => .ok (some checks)
  | _ + 1, .null :: _, _ => .error .nullDeref
  | fuel + 1, .node d left right :: stack, checks =>
    if is_leaf left right then
      let i := d.primitive_offset
      match indexInt checks i with
      | .error e => .error e
      | .ok true => .ok none
      | .ok false =>
        match get_bbox pool (data.drop i.toNat) 1 with
        | .error e => .error e
        | .ok bbox0 =>
          if ¬ bbox_check d.bbox bbox0 then .ok none
          else validate_loop pool data fuel stack (checks.set i.toNat true)
    else
      if d.primitive_offset ≠ -1 then .ok none
      else if left = .null ∨ right = .null then .ok none
      else if ¬ (stack.length + 2 < kTreeStackLimit) then .error .stackAssert
      else validate_loop pool data fuel (left :: right :: stack) checks

/-- Function `validate_bvh(root, data)`.  Every round of the loop pops one node of the tree, so
`root.size + 1` rounds are enough. -/
def validate_bvh (pool : List GLtriangle) (root : BVHTreeNode) (data : List Primitive) :
    Except Err Bool :=
  match validate_loop pool data (root.size + 1) [root] (List.replicate data.length false) with
  | .error e => .error e
  | .ok none => .ok false
  | .ok (some checks) => .ok (checks.all (fun c => c))

/-- Function `find(slice, x)` of `ph.h`, which is not among the sources: the index of the first
element equal to `x`, or `-1` when there is none. -/
def find {α : Type} [DecidableEq α] (s : List α) (x : α) : Int :=
  if s.indexOf x < s.length then (s.indexOf x : Int) else -1

/-- A node pointer on the DFS stack of `flatten_bvh`: the position of the node in the
tree (the turns from the root, `false` for left and `true` for right) and the node. -/
abbrev NodePtr := List Bool × BVHTreeNode

/-- The first `while` loop of `flatten_bvh`: `slice` receives the node data and `ptrs` the
node pointers in the order of the visits.  The stack array has `kTreeStackLimit` entries;
a push past its end is reported as `Err.stackOverflow`. -/
def flatten_first_pass :
    Nat → List NodePtr → List BVHNode → List (List Bool) →
      Except Err (List BVHNode × List (List Bool))
  | 0, _, _, _ => .error .fuel
  | _ + 1, [], slice, ptrs => .ok (slice, ptrs)
  | _ + 1, (_, .null) :: _, _, _ => .error .nullDeref
  | fuel + 1, (path, .node d left right) :: stack, slice, ptrs =>
    if is_leaf left right then
      flatten_first_pass fuel stack (slice ++ [d]) (ptrs ++ [path])
    else if kTreeStackLimit < stack.length + 2 then .error .stackOverflow
    else
      flatten_first_pass fuel ((path ++ [false], left) :: (path ++ [true], right) :: stack)
        (slice ++ [d]) (ptrs ++ [path])

/-- The second `while` loop of `flatten_bvh`, with the counter `i`. -/
def flatten_second_pass (ptrs : List (List Bool)) :
    Nat → List NodePtr → Nat → List BVHNode → Except Err (List BVHNode)
  | 0, _, _, _ => .error .fuel
  | _ + 1, [], _, slice => .ok slice
  | _ + 1, (_, .null) :: _, _, _ => .error .nullDeref
  | fuel + 1, (path, .node _ left right) :: stack, i, slice =>
    if is_leaf left right then
      flatten_second_pass ptrs fuel stack (i + 1) slice
    else if kTreeStackLimit < stack.length + 2 then .error .stackOverflow
    else
      let found_i := find ptrs (path ++ [true])
      if ¬ (found_i ≥ 0) then .error .notFound
      else if ¬ (found_i < 2 ^ 31) then .error .tooLarge
      else
        match slice[i]? with
        | none => .error .outOfBounds
        | some n =>
          flatten_second_pass ptrs fuel
            ((path ++ [false], left) :: (path ++ [true], right) :: stack) (i + 1)
            (slice.set i { n with right_child_offset := found_i })

/-- Function `flatten_bvh(root, out_len)`: the array and `*out_len`.  Every round of either loop
pops one node of the tree, so `root.size + 1` rounds are enough. -/
def flatten_bvh (root : BVHTreeNode) : Except Err (List BVHNode × Nat) :=
  match root with
  | .null => .error .nullDeref
  | .node d left right =>
    if left = .null ∨ right = .null then .error .rootChildren
    else
      match flatten_first_pass (root.size + 1) [([], .node d left right)] [] [] with
      | .error e => .error e
      | .ok (slice, ptrs) =>
        match flatten_second_pass ptrs (root.size + 1) [([], .node d left right)] 0 slice with
        | .error e => .error e
        | .ok slice => .ok (slice, slice.length)

/-- The first loop of `validate_flattened_bvh` over `node[0 .. len)`; the list is the
memory from `node` on, the result `none` stands for `return false`. -/
def flattened_leaf_loop :
    Nat → List BVHNode → List Bool → Nat → Except Err (Option (List Bool × Nat))
  | 0, _, check, num_leafs => .ok (some (check, num_leafs))
  | _ + 1, [], _, _ => .error .outOfBounds
  | n + 1, node :: rest, check, num_leafs =>
    if node.primitive_offset ≠ -1 then
      match indexInt check node.primitive_offset with
      | .error e => .error e
      | .ok true => .ok none
      | .ok false =>
        flattened_leaf_loop n rest (check.set node.primitive_offset.toNat true) (num_leafs + 1)
    else flattened_leaf_loop n rest check num_leafs

/-- Function `validate_flattened_bvh(node, len)`. -/
def validate_flattened_bvh (node : List BVHNode) (len : Nat) : Except Err Bool :=
  match flattened_leaf_loop len node (List.replicate len false) 0 with
  | .error e => .error e
  | .ok none => .ok false
  | .ok (some (check, num_leafs)) => .ok ((check.take num_leafs).all (fun c => c))

structure GLlight where
  position : GLvec3
  color : GLvec3
  deriving DecidableEq, Repr

/-- The file-level state of `scene.cc`: the three pools and the contents last uploaded
to each of the four GL buffers. -/
structure Scene where
  m_triangle_pool : List GLtriangle
  m_light_pool : List GLlight
  m_primitives : List Primitive
  m_bvh_buffer : List BVHNode
  m_triangle_buffer : List GLtriangle
  m_light_buffer : List GLlight
  m_prim_buffer : List Primitive
  deriving DecidableEq, Repr

/-- The constant `PH_MAX_int64` of `ph.h`, which is not among the sources: the largest
value of `int64`. -/
def PH_MAX_int64 : Nat := 2 ^ 63 - 1

/-- The loop `indices[i] = i` of `update_structure`. -/
def identity_indices (n : Nat) : List Int := (List.range n).map Int.ofNat

/-- Function `update_structure()`.  The first argument is the recursion budget handed to
`build_bvh`.  The results of the two validators are not looked at, as in the source; the
upload replaces the contents of the BVH buffer by the first `len` nodes of the array. -/
def update_structure (fuel : Nat) (s : Scene) : Except Err Scene :=
  if ¬ (s.m_primitives.length < PH_MAX_int64) then .error .poolCount
  else
    let indices := identity_indices s.m_primitives.length
    match build_bvh s.m_triangle_pool fuel s.m_primitives indices with
    | .error e => .error e
    | .ok root =>
      match validate_bvh s.m_triangle_pool root s.m_primitives with
      | .error e => .error e
      | .ok _ =>
        match flatten_bvh root with
        | .error e => .error e
        | .ok (flatroot, len) =>
          match validate_flattened_bvh flatroot len with
          | .error e => .error e
          | .ok _ => .ok { s with m_bvh_buffer := flatroot.take len }

/-- The primitive has a non-negative offset and at least one triangle, and all its
triangles lie inside the triangle pool. -/
def Primitive.valid (pool : List GLtriangle) (p : Primitive) : Prop :=
  0 ≤ p.offset ∧ 1 ≤ p.num_triangles ∧ p.offset + p.num_triangles ≤ (pool.length : Int)

instance Primitive.valid_decidable (pool : List GLtriangle) (p : Primitive) :
    Decidable (p.valid pool) := by
  unfold Primitive.valid; infer_instance

/-- All reads that `get_bbox` makes for the primitive stay inside the triangle pool. -/
def Primitive.readable (pool : List GLtriangle) (p : Primitive) : Prop :=
  0 ≤ p.offset ∧ p.offset < (pool.length : Int) ∧
    p.offset + p.num_triangles ≤ (pool.length : Int)

/-- The vertices `p0, p1, p2` of the pool triangles at the given positions. -/
def triangle_vertices (pool : List GLtriangle) : List Nat → List GLvec3
  | [] => []
  | i :: is =>
    (match pool.get? i with
     | some tri => [tri.p0, tri.p1, tri.p2]
     | none => []) ++ triangle_vertices pool is

/-- The vertices of all triangles of all primitives of a range. -/
def vertices (pool : List GLtriangle) : List Primitive → List GLvec3
  | [] => []
  | p :: ps =>
    triangle_vertices pool (List.range' p.offset.toNat p.num_triangles.toNat) ++ vertices pool ps

/-- The smaller of two values, as `if (c < a) a = c;` leaves it in `a`. -/
instance float.instMin : Min float := ⟨fun a c => if c < a then c else a⟩

/-- The larger of two values, as `if (c > a) a = c;` leaves it in `a`. -/
instance float.instMax : Max float := ⟨fun a c => if a < c then c else a⟩

/-- None of the three coordinates of the point is NaN. -/
def GLvec3.is_number (p : GLvec3) : Prop := p.x ≠ .nan ∧ p.y ≠ .nan ∧ p.z ≠ .nan

instance GLvec3.is_number_decidable (p : GLvec3) : Decidable p.is_number := by
  unfold GLvec3.is_number; infer_instance

/-- The value `m` is the minimum of the list: it occurs and nothing in the list is smaller. -/
def is_min_of (m : float) (l : List float) : Prop := m ∈ l ∧ ∀ q ∈ l, m ≤ q

/-- The value `m` is the maximum of the list: it occurs and nothing in the list is larger. -/
def is_max_of (m : float) (l : List float) : Prop := m ∈ l ∧ ∀ q ∈ l, q ≤ m

/-- The box is the exact extent of the points on each of the three axes. -/
def is_extent (b : AABB) (vs : List GLvec3) : Prop :=
  is_min_of b.xmin (vs.map (·.x)) ∧ is_max_of b.xmax (vs.map (·.x)) ∧
  is_min_of b.ymin (vs.map (·.y)) ∧ is_max_of b.ymax (vs.map (·.y)) ∧
  is_min_of b.zmin (vs.map (·.z)) ∧ is_max_of b.zmax (vs.map (·.z))

/-- The seed box of `get_bbox`: all six bounds taken from one point. -/
def seed_box (p : GLvec3) : AABB := ⟨p.x, p.x, p.y, p.y, p.z, p.z⟩

/-- The coordinate of a vector on the axis of a split plane. -/
def component (split : SplitPlane) (c : GLvec3) : float :=
  match split with
  | .X => c.x
  | .Y => c.y
  | .Z => c.z

/-- The variation of one axis as the loop "Fill variations" accumulates it: starting from
`v`, the values `fabs(f c_i - f c_(i+1))` of the consecutive entries are added one by one, in
the order of the list, every sum being rounded. -/
def variation_sum (f : GLvec3 → float) : float → List GLvec3 → float
  | v, a :: b :: rest => variation_sum f (v + fabs (f a - f b)) (b :: rest)
  | v, _ => v

/-- The axes in the order of the loop "Choose split plane". -/
def SplitPlane.index : SplitPlane → Nat
  | .X => 0
  | .Y => 1
  | .Z => 2

/-- The sum of a list as the loop "Calculate midpoint" accumulates it: starting from `m`,
the entries are added one by one, in the order of the list, every sum being rounded. -/
def float_sum (m : float) (l : List float) : float := l.foldl (· + ·) m

/-- The test that sends a primitive to the left slice. -/
def goes_left (split : SplitPlane) (midpoint : GLvec3) (t : GLvec3 × Primitive × Int) : Bool :=
  decide (component split t.1 < component split midpoint)

/-- The test that sends a primitive to the right slice. -/
def goes_right (split : SplitPlane) (midpoint : GLvec3) (t : GLvec3 × Primitive × Int) : Bool :=
  decide (component split t.1 ≥ component split midpoint)

/-- The entries that the partition loop walks over: centroid, primitive and index. -/
def entries (cs : List GLvec3) (ps : List Primitive) (is : List Int) :
    List (GLvec3 × Primitive × Int) :=
  List.zip cs (List.zip ps is)

/-- The leaves of a tree (the nodes without children), from left to right. -/
def leaves : BVHTreeNode → List BVHNode
  | .null => []
  | .node d left right => if is_leaf left right then [d] else leaves left ++ leaves right

/-- The payloads of the leaves of a tree, from left to right. -/
def leaf_offsets (t : BVHTreeNode) : List Int := (leaves t).map (·.primitive_offset)

/-- A leaf and the pool entry it was made from: the payload is the entry's index and the
box is `get_bbox` of the entry's primitive alone. -/
def leaf_of (pool : List GLtriangle) (d : BVHNode) (pi : Primitive × Int) : Prop :=
  d.primitive_offset = pi.2 ∧ get_bbox pool [pi.1] 1 = .ok d.bbox

/-- A triangle with the three given corners (the normal plays no part in the boxes). -/
def sample_triangle (a b c : GLvec3) : GLtriangle := ⟨a, b, c, ⟨0, 0, 1⟩⟩

/-- A pool of three triangles: around `x = 0`, around `x = 10` and around `x = 4`. -/
def sample_pool : List GLtriangle :=
  [sample_triangle ⟨0, 0, 0⟩ ⟨1, 2, 3⟩ ⟨-1, 1 / 2, 5⟩,
   sample_triangle ⟨10, 0, 0⟩ ⟨11, 2, 3⟩ ⟨9, 1 / 2, 5⟩,
   sample_triangle ⟨4, 0, 0⟩ ⟨4, 2, 3⟩ ⟨4, 1 / 2, 5⟩]

/-- Three primitives of one triangle each over `sample_pool`. -/
def sample_primitives : List Primitive := [⟨0, 1, 0⟩, ⟨1, 1, 0⟩, ⟨2, 1, 0⟩]

/-- Two primitives over the same triangle of `sample_pool`: their centroids coincide. -/
def coincident_primitives : List Primitive := [⟨0, 1, 0⟩, ⟨0, 1, 0⟩]

/-- A pool of one triangle whose first corner has the coordinate `x = NaN` (the sum of the
two infinities: what `submit_primitive` stores for a cube with an infinite center and an
infinite size). -/
def nan_pool : List GLtriangle :=
  [sample_triangle ⟨.pinf + .ninf, 0, 0⟩ ⟨1, 2, 3⟩ ⟨-1, 1 / 2, 5⟩]

/-- The `float` nearest to `3e38`: a number whose double is an infinity. -/
def huge : float := round32 (3 * 10 ^ 38)

/-- A triangle all of whose corners are the point `p`. -/
def point_triangle (p : GLvec3) : GLtriangle := sample_triangle p p p

/-- Two primitives of one triangle each. -/
def two_primitives : List Primitive := [⟨0, 1, 0⟩, ⟨1, 1, 0⟩]

instance is_min_of_decidable (m : float) (l : List float) : Decidable (is_min_of m l) := by
  unfold is_min_of; infer_instance

instance is_max_of_decidable (m : float) (l : List float) : Decidable (is_max_of m l) := by
  unfold is_max_of; infer_instance

instance is_extent_decidable (b : AABB) (vs : List GLvec3) : Decidable (is_extent b vs) := by
  unfold is_extent; infer_instance

/-- A pool of two triangles that are points: at `x = 16777216` and at `x = 16777218`, two
neighbouring numbers of `float`. -/
def close_pool : List GLtriangle :=
  [point_triangle ⟨16777216, 0, 0⟩, point_triangle ⟨16777218, 0, 0⟩]

/-- The shape that the nodes of a tree made by `build_bvh` have when no primitive was
lost: a leaf has no children, a payload `>= 0` and `right_child_offset == -1`; an inner
node has the payload `-1` and two children, which have that shape again. -/
def well_formed : BVHTreeNode → Prop
  | .null => False
  | .node d left right =>
    (left = .null ∧ right = .null ∧ 0 ≤ d.primitive_offset ∧ d.right_child_offset = -1) ∨
    (left ≠ .null ∧ right ≠ .null ∧ d.primitive_offset = -1 ∧
      well_formed left ∧ well_formed right)

/-- The three kinds of nodes that `build_bvh` makes: a leaf (no children, a payload `>= 0`,
`right_child_offset == -1`), an inner node (the payload `-1` and two children of these
kinds), and a node with the payload `-1` and no children. -/
def build_shape : BVHTreeNode → Prop
  | .null => False
  | .node d left right =>
    (left = .null ∧ right = .null ∧ 0 ≤ d.primitive_offset ∧ d.right_child_offset = -1) ∨
    (left = .null ∧ right = .null ∧ d.primitive_offset = -1 ∧ d.right_child_offset = -1) ∨
    (left ≠ .null ∧ right ≠ .null ∧ d.primitive_offset = -1 ∧
      build_shape left ∧ build_shape right)

/-- The tree contains a node with exactly one child. -/
def has_single_child : BVHTreeNode → Prop
  | .null => False
  | .node _ left right =>
    (left = .null ∧ right ≠ .null) ∨ (left ≠ .null ∧ right = .null) ∨
    has_single_child left ∨ has_single_child right

instance has_single_child_decidable : (t : BVHTreeNode) → Decidable (has_single_child t)
  | .null => isFalse (fun h => h)
  | .node _ l r =>
    let _ := has_single_child_decidable l
    let _ := has_single_child_decidable r
    inferInstanceAs (Decidable
      ((l = .null ∧ r ≠ .null) ∨ (l ≠ .null ∧ r = .null) ∨
        has_single_child l ∨ has_single_child r))

/-- The tree that `build_bvh` makes of the first two sample primitives. -/
def sample_tree : BVHTreeNode :=
  .node ⟨-1, -1, ⟨-1, 11, 0, 2, 0, 5⟩⟩
    (.node ⟨0, -1, ⟨-1, 1, 0, 2, 0, 5⟩⟩ .null .null)
    (.node ⟨1, -1, ⟨9, 11, 0, 2, 0, 5⟩⟩ .null .null)

/-- A pool of two triangles that are points, far out on the two sides of the `x` axis: at
`x = 3e38` and at `x = -3e38`. -/
def apart_pool : List GLtriangle :=
  [point_triangle ⟨huge, 0, 0⟩, point_triangle ⟨-huge, 0, 0⟩]

/-- What `build_bvh` returns for the two primitives over `apart_pool`: one node with the
payload `-1` and no children. -/
def hollow_tree : BVHTreeNode :=
  .node ⟨-1, -1, ⟨-huge, huge, 0, 0, 0, 0⟩⟩ .null .null

/-- The union of two boxes: the smaller minimum and the larger maximum on every axis. -/
def box_union (a b : AABB) : AABB :=
  ⟨min a.xmin b.xmin, max a.xmax b.xmax, min a.ymin b.ymin, max a.ymax b.ymax,
   min a.zmin b.zmin, max a.zmax b.zmax⟩

/-- The box `outer` contains the box `inner`. -/
def box_contains (outer inner : AABB) : Prop :=
  outer.xmin ≤ inner.xmin ∧ inner.xmax ≤ outer.xmax ∧
  outer.ymin ≤ inner.ymin ∧ inner.ymax ≤ outer.ymax ∧
  outer.zmin ≤ inner.zmin ∧ inner.zmax ≤ outer.zmax

/-- The box stored in the node a pointer points to. -/
def node_bbox : BVHTreeNode → Option AABB
  | .null => none
  | .node d _ _ => some d.bbox

/-- Every node with children has two of them, and its box is the union of their boxes
(and so contains both). -/
def bbox_is_union : BVHTreeNode → Prop
  | .null => True
  | .node d left right =>
    (left = .null ∧ right = .null) ∨
    (∃ bl br, node_bbox left = some bl ∧ node_bbox right = some br ∧
      d.bbox = box_union bl br ∧ box_contains d.bbox bl ∧ box_contains d.bbox br ∧
      bbox_is_union left ∧ bbox_is_union right)

/-- A pool of two triangles: a point at `(5, 0, 0)`, and a triangle at `y = 10` whose first
corner has `x = NaN`. -/
def nan_corner_pool : List GLtriangle :=
  [point_triangle ⟨5, 0, 0⟩,
   sample_triangle ⟨.pinf + .ninf, 10, 0⟩ ⟨1, 10, 0⟩ ⟨1, 10, 0⟩]

/-- The tree that `build_bvh` makes of the two primitives over `nan_corner_pool`. -/
def nan_corner_tree : BVHTreeNode :=
  .node ⟨-1, -1, ⟨1, 5, 0, 10, 0, 0⟩⟩
    (.node ⟨0, -1, ⟨5, 5, 0, 0, 0, 0⟩⟩ .null .null)
    (.node ⟨1, -1, ⟨.nan, .nan, 10, 10, 0, 0⟩⟩ .null .null)

/-- The node data of a tree in depth-first, left-child-first preorder. -/
def preorder : BVHTreeNode → List BVHNode
  | .null => []
  | .node d left right => d :: (preorder left ++ preorder right)

/-- The positions of the nodes of a tree in preorder; `path` is the position of its root. -/
def paths (path : List Bool) : BVHTreeNode → List (List Bool)
  | .null => []
  | .node _ left right =>
    path :: (paths (path ++ [false]) left ++ paths (path ++ [true]) right)

/-- The node data in preorder of all the trees on a DFS stack, top first. -/
def preorder_all : List NodePtr → List BVHNode
  | [] => []
  | (_, t) :: rest => preorder t ++ preorder_all rest

/-- The node positions in preorder of all the trees on a DFS stack, top first. -/
def paths_all : List NodePtr → List (List Bool)
  | [] => []
  | (path, t) :: rest => paths path t ++ paths_all rest

/-- The number of nodes of all the trees on a DFS stack. -/
def size_all : List NodePtr → Nat
  | [] => 0
  | (_, t) :: rest => t.size + size_all rest

/-- Every node with a child has two children. -/
def full : BVHTreeNode → Prop
  | .null => False
  | .node _ left right =>
    (left = .null ∧ right = .null) ∨
    (left ≠ .null ∧ right ≠ .null ∧ full left ∧ full right)

/-- The largest number of entries that the DFS stack of `flatten_bvh` holds while it
works on a tree, the entry for the tree itself included. -/
def stack_need : BVHTreeNode → Nat
  | .null => 1
  | .node _ left right =>
    if is_leaf left right then 1 else max (1 + stack_need left) (stack_need right)

/-- Every tree on the stack can be worked on, with the entries below it in place, without
the stack growing past `kTreeStackLimit`. -/
def stack_fits : List NodePtr → Prop
  | [] => True
  | (_, t) :: rest => rest.length + stack_need t ≤ kTreeStackLimit ∧ stack_fits rest

/-- The array that the second loop of `flatten_bvh` leaves for a tree at position `path`:
the preorder of the node data, where every node with children has had its
`right_child_offset` set to the slot at which `ptrs` holds its right child. -/
def fixed (ptrs : List (List Bool)) (path : List Bool) : BVHTreeNode → List BVHNode
  | .null => []
  | .node d left right =>
    if is_leaf left right then [d]
    else
      { d with right_child_offset := find ptrs (path ++ [true]) } ::
        (fixed ptrs (path ++ [false]) left ++ fixed ptrs (path ++ [true]) right)

/-- The arrays `fixed` of all the trees on a DFS stack, top first. -/
def fixed_all (ptrs : List (List Bool)) : List NodePtr → List BVHNode
  | [] => []
  | (path, t) :: rest => fixed ptrs path t ++ fixed_all ptrs rest

/-- Both assertions on `found_i` hold at every node with children of the tree. -/
def finds_ok (ptrs : List (List Bool)) (path : List Bool) : BVHTreeNode → Prop
  | .null => True
  | .node _ left right =>
    is_leaf left right = true ∨
    (0 ≤ find ptrs (path ++ [true]) ∧ find ptrs (path ++ [true]) < 2 ^ 31 ∧
      finds_ok ptrs (path ++ [false]) left ∧ finds_ok ptrs (path ++ [true]) right)

/-- The recursive flattening: `flat(n) = [n] ++ flat(n.left) ++ flat(n.right)`, where a
node with children emitted at slot `i` gets `right_child_offset = i + 1 + size(left)` and a
leaf keeps its data. -/
def flat_spec (i : Nat) : BVHTreeNode → List BVHNode
  | .null => []
  | .node d left right =>
    if is_leaf left right then [d]
    else
      { d with right_child_offset := ((i + 1 + left.size : Nat) : Int) } ::
        (flat_spec (i + 1) left ++ flat_spec (i + 1 + left.size) right)

/-- The node (with its subtree) that comes `k`-th in the preorder of a tree, counted from
zero; `null` when the tree has no such node. -/
def node_at : BVHTreeNode → Nat → BVHTreeNode
  | .null, _ => .null
  | .node d left right, 0 => .node d left right
  | .node _ left right, k + 1 =>
    if k < left.size then node_at left k else node_at right (k - left.size)

/-- A left-deep tree: `n` nodes with children down the left spine, each with a leaf as its
right child. -/
def left_comb : Nat → BVHTreeNode
  | 0 => .node ⟨0, -1, ⟨0, 0, 0, 0, 0, 0⟩⟩ .null .null
  | n + 1 =>
    .node ⟨-1, -1, ⟨0, 0, 0, 0, 0, 0⟩⟩ (left_comb n)
      (.node ⟨(n : Int) + 1, -1, ⟨0, 0, 0, 0, 0, 0⟩⟩ .null .null)

/-- The root has two children. -/
def root_has_children : BVHTreeNode → Prop
  | .null => False
  | .node _ left right => left ≠ .null ∧ right ≠ .null

instance root_has_children_decidable (t : BVHTreeNode) : Decidable (root_has_children t) := by
  cases t <;> unfold root_has_children <;> infer_instance

instance full_decidable : (t : BVHTreeNode) → Decidable (full t)
  | .null => isFalse (fun h => h)
  | .node _ l r =>
    let _ := full_decidable l
    let _ := full_decidable r
    inferInstanceAs (Decidable
      ((l = .null ∧ r = .null) ∨ (l ≠ .null ∧ r ≠ .null ∧ full l ∧ full r)))

/-- The leaf slots of a flattened array: the slots with `primitive_offset != -1`. -/
def leaf_slots (arr : List BVHNode) : List BVHNode :=
  arr.filter (fun n => decide (n.primitive_offset ≠ -1))

/-- A scene over `sample_pool` with the first `n` sample primitives and empty buffers. -/
def sample_scene (n : Nat) : Scene :=
  ⟨sample_pool, [], sample_primitives.take n, [], [], [], []⟩

/-- The scene that `update_structure` leaves for the scene of the first two sample
primitives. -/
def sample_scene_rebuilt : Scene :=
  { sample_scene 2 with
    m_bvh_buffer :=
      [⟨-1, 2, ⟨-1, 11, 0, 2, 0, 5⟩⟩, ⟨0, -1, ⟨-1, 1, 0, 2, 0, 5⟩⟩,
       ⟨1, -1, ⟨9, 11, 0, 2, 0, 5⟩⟩] }

/-- The number of nodes of all the trees on the DFS stack of `validate_bvh`. -/
def size_sum : List BVHTreeNode → Nat
  | [] => 0
  | t :: rest => t.size + size_sum rest

/-- Every tree on the stack of `validate_bvh` can be worked on, with the entries below it in
place, without tripping `ph_assert(stack_offset + 2 < kTreeStackLimit)`: the stack never
holds more than `kTreeStackLimit - 1` entries. -/
def validate_fits : List BVHTreeNode → Prop
  | [] => True
  | t :: rest => rest.length + stack_need t < kTreeStackLimit ∧ validate_fits rest

/-- The payload of every leaf of the tree is the index of a primitive of `data` that can be
read. -/
def leaves_in_range (pool : List GLtriangle) (data : List Primitive) (t : BVHTreeNode) : Prop :=
  ∀ d ∈ leaves t, 0 ≤ d.primitive_offset ∧
    ∃ p, data[d.primitive_offset.toNat]? = some p ∧ p.readable pool

/-- Three primitives of one triangle each, at the offsets 0, 1 and 2. -/
def three_primitives : List Primitive := [⟨0, 1, 0⟩, ⟨1, 1, 0⟩, ⟨2, 1, 0⟩]

/-- The flags of a validator after the entries at the given indices have been set:
`check[i] = true` for each index in turn. -/
def mark (checks : List Bool) (is : List Nat) : List Bool :=
  is.foldl (fun c i => c.set i true) checks

/-- The payloads of the leaf slots of a flattened array, in array order. -/
def leaf_payloads (arr : List BVHNode) : List Int :=
  (leaf_slots arr).map (·.primitive_offset)

/-- What `validate_bvh` checks on the nodes with a child: such a node carries no payload
(`primitive_offset == -1`) and has two children. -/
def validated_shape : BVHTreeNode → Prop
  | .null => False
  | .node d left right =>
    (left = .null ∧ right = .null) ∨
    (left ≠ .null ∧ right ≠ .null ∧ d.primitive_offset = -1 ∧
      validated_shape left ∧ validated_shape right)

/-- The payloads of the leaves of all the trees on the stack of `validate_bvh`, top
first: the order in which the loop comes to them. -/
def leaf_offsets_all : List BVHTreeNode → List Int
  | [] => []
  | t :: rest => leaf_offsets t ++ leaf_offsets_all rest

/-- Every leaf of the tree passes the box test of `validate_bvh`: the box of the primitive
that its payload names can be computed and the six differences are below `epsilon`. -/
def leaf_boxes_ok (pool : List GLtriangle) (data : List Primitive) (t : BVHTreeNode) : Prop :=
  ∀ d ∈ leaves t, ∃ b, get_bbox pool (data.drop d.primitive_offset.toNat) 1 = .ok b ∧
    bbox_check d.bbox b = true

/-- A tree over the first two sample primitives whose root has two children and whose
right child has a left child only. -/
def lopsided_tree : BVHTreeNode :=
  .node ⟨-1, -1, ⟨-1, 11, 0, 2, 0, 5⟩⟩
    (.node ⟨0, -1, ⟨-1, 1, 0, 2, 0, 5⟩⟩ .null .null)
    (.node ⟨-1, -1, ⟨9, 11, 0, 2, 0, 5⟩⟩
      (.node ⟨1, -1, ⟨9, 11, 0, 2, 0, 5⟩⟩ .null .null) .null)

/-- A left-deep tree whose lowest node on the spine has a left child only: `n` nodes with
two children down the left spine, then a node with one child. -/
def single_comb : Nat → BVHTreeNode
  | 0 =>
    .node ⟨-1, -1, ⟨0, 0, 0, 0, 0, 0⟩⟩ (.node ⟨0, -1, ⟨0, 0, 0, 0, 0, 0⟩⟩ .null .null) .null
  | n + 1 =>
    .node ⟨-1, -1, ⟨0, 0, 0, 0, 0, 0⟩⟩ (single_comb n)
      (.node ⟨(n : Int) + 1, -1, ⟨0, 0, 0, 0, 0, 0⟩⟩ .null .null)

/-- A tree over the first two sample primitives whose left child is a leaf with the payload
`7`, which is no index of the two primitives, and whose right child has a left child
only. -/
def stray_tree : BVHTreeNode :=
  .node ⟨-1, -1, ⟨-1, 11, 0, 2, 0, 5⟩⟩
    (.node ⟨7, -1, ⟨-1, 1, 0, 2, 0, 5⟩⟩ .null .null)
    (.node ⟨-1, -1, ⟨9, 11, 0, 2, 0, 5⟩⟩
      (.node ⟨1, -1, ⟨9, 11, 0, 2, 0, 5⟩⟩ .null .null) .null)

instance Primitive.readable_decidable (pool : List GLtriangle) (p : Primitive) :
    Decidable (p.readable pool) := by
  unfold Primitive.readable; infer_instance

instance exists_some_decidable {α : Type} (o : Option α) (P : α → Prop) [DecidablePred P] :
    Decidable (∃ a, o = some a ∧ P a) :=
  match o with
  | none => isFalse (by simp)
  | some a => if h : P a then isTrue ⟨a, rfl, h⟩ else isFalse (by simpa using h)

instance leaves_in_range_decidable (pool : List GLtriangle) (data : List Primitive)
    (t : BVHTreeNode) : Decidable (leaves_in_range pool data t) := by
  unfold leaves_in_range; infer_instance

/-- The tree that `build_bvh` makes of the first sample primitive alone: a single leaf. -/
def sample_leaf : BVHTreeNode := .node ⟨0, -1, ⟨-1, 1, 0, 2, 0, 5⟩⟩ .null .null

/-- The tree `sample_tree` with another box at its left leaf: the lower bound on `x` is 1
below, and the upper bound on `x` is 1 below, those of the primitive of the leaf. -/
def loose_tree : BVHTreeNode :=
  .node ⟨-1, -1, ⟨-1, 11, 0, 2, 0, 5⟩⟩
    (.node ⟨0, -1, ⟨-2, 0, 0, 2, 0, 5⟩⟩ .null .null)
    (.node ⟨1, -1, ⟨9, 11, 0, 2, 0, 5⟩⟩ .null .null)

/-- The match of two boxes in the words of the specification: on each of the six bounds the
absolute difference is below `epsilon`. -/
def bbox_within_epsilon (bbox bbox0 : AABB) : Prop :=
  fabs (bbox.xmin - bbox0.xmin) < epsilon ∧ fabs (bbox.xmax - bbox0.xmax) < epsilon ∧
  fabs (bbox.ymin - bbox0.ymin) < epsilon ∧ fabs (bbox.ymax - bbox0.ymax) < epsilon ∧
  fabs (bbox.zmin - bbox0.zmin) < epsilon ∧ fabs (bbox.zmax - bbox0.zmax) < epsilon

instance bbox_within_epsilon_decidable (a b : AABB) : Decidable (bbox_within_epsilon a b) := by
  unfold bbox_within_epsilon; infer_instance

/-- What one round of the `while (stack_offset > 0)` loop of `validate_bvh` leaves: the
loop or the function is over with an outcome, or there is another round on a new stack and
new flags. -/
inductive Round where
  | done (outcome : Except Err (Option (List Bool)))
  | next (stack : List BVHTreeNode) (checks : List Bool)
  deriving DecidableEq

/-- One round of the `while (stack_offset > 0)` loop of `validate_bvh`: the test of the
loop and its body, on the stack (top first) and the flags. -/
def validate_round (pool : List GLtriangle) (data : List Primitive) :
    List BVHTreeNode → List Bool → Round
  | [], checks => .done (.ok (some checks))
  | .null :: _, _ => .done (.error .nullDeref)
  | .node d left right :: stack, checks =>
    if is_leaf left right then
      let i := d.primitive_offset
      match indexInt checks i with
      | .error e => .done (.error e)
      | .ok true => .done (.ok none)
      | .ok false =>
        match get_bbox pool (data.drop i.toNat) 1 with
        | .error e => .done (.error e)
        | .ok bbox0 =>
          if ¬ bbox_check d.bbox bbox0 then .done (.ok none)
          else .next stack (checks.set i.toNat true)
    else
      if d.primitive_offset ≠ -1 then .done (.ok none)
      else if left = .null ∨ right = .null then .done (.ok none)
      else if ¬ (stack.length + 2 < kTreeStackLimit) then .done (.error .stackAssert)
      else .next (left :: right :: stack) checks

/-- The loop of `validate_bvh` after `n` rounds. -/
def validate_rounds (pool : List GLtriangle) (data : List Primitive) :
    Nat → List BVHTreeNode → List Bool → Round
  | 0, stack, checks => .next stack checks
  | n + 1, stack, checks =>
    match validate_round pool data stack checks with
    | .done outcome => .done outcome
    | .next stack2 checks2 => validate_rounds pool data n stack2 checks2

instance validated_shape_decidable : (t : BVHTreeNode) → Decidable (validated_shape t)
  | .null => isFalse (fun h => h)
  | .node d l r =>
    let _ := validated_shape_decidable l
    let _ := validated_shape_decidable r
    inferInstanceAs (Decidable
      ((l = .null ∧ r = .null) ∨
        (l ≠ .null ∧ r ≠ .null ∧ d.primitive_offset = -1 ∧
          validated_shape l ∧ validated_shape r)))

instance exists_ok_decidable {α : Type} (x : Except Err α) (P : α → Prop) [DecidablePred P] :
    Decidable (∃ a, x = .ok a ∧ P a) :=
  match x with
  | .error _ => isFalse (by simp)
  | .ok a => if h : P a then isTrue ⟨a, rfl, h⟩ else isFalse (by simpa using h)

instance leaf_boxes_ok_decidable (pool : List GLtriangle) (data : List Primitive)
    (t : BVHTreeNode) : Decidable (leaf_boxes_ok pool data t) := by
  unfold leaf_boxes_ok; infer_instance

/-- A triangle pool with one triangle, all of whose corners are the origin. -/
def origin_pool : List GLtriangle := [sample_triangle ⟨0, 0, 0⟩ ⟨0, 0, 0⟩ ⟨0, 0, 0⟩]

/-- So many primitives, each made of the triangle of `origin_pool`. -/
def origin_primitives (n : Nat) : List Primitive := List.replicate n ⟨0, 1, 0⟩

/-- The upload at the end of `update_structure`: `glBufferData` on `m_bvh_buffer` with the
first `len` nodes of `flatroot`.  It is the only statement of the function that writes a
buffer object. -/
def upload_bvh (s : Scene) (flatroot : List BVHNode) (len : Nat) : Scene :=
  { s with m_bvh_buffer := flatroot.take len }

/-- Function `update_structure()` as a run over the file-level state: the statements of the
function in their order, each one working on the scene that the statements before it
left.  The result is the scene at the point where the run ends, and the failure that ended
it, if one did.  The first argument is the recursion budget handed to `build_bvh`. -/
def update_structure_run (fuel : Nat) (s : Scene) : Scene × Option Err :=
  if ¬ (s.m_primitives.length < PH_MAX_int64) then (s, some .poolCount)
  else
    let indices := identity_indices s.m_primitives.length
    match build_bvh s.m_triangle_pool fuel s.m_primitives indices with
    | .error e => (s, some e)
    | .ok root =>
      match validate_bvh s.m_triangle_pool root s.m_primitives with
      | .error e => (s, some e)
      | .ok _ =>
        match flatten_bvh root with
        | .error e => (s, some e)
        | .ok (flatroot, len) =>
          match validate_flattened_bvh flatroot len with
          | .error e => (s, some e)
          | .ok _ => (upload_bvh s flatroot len, none)

/-- The statements of `update_structure` that follow the call of `build_bvh`, for the tree
`root` that the call returned: the two validators, whose results are not looked at, the
flattening between them, and the upload. -/
def update_structure_after_build (s : Scene) (root : BVHTreeNode) : Except Err Scene :=
  match validate_bvh s.m_triangle_pool root s.m_primitives with
  | .error e => .error e
  | .ok _ =>
    match flatten_bvh root with
    | .error e => .error e
    | .ok (flatroot, len) =>
      match validate_flattened_bvh flatroot len with
      | .error e => .error e
      | .ok _ => .ok { s with m_bvh_buffer := flatroot.take len }

/-- The tree `sample_tree` with the payload `0` at both leaves. -/
def doubled_tree : BVHTreeNode :=
  .node ⟨-1, -1, ⟨-1, 11, 0, 2, 0, 5⟩⟩
    (.node ⟨0, -1, ⟨-1, 1, 0, 2, 0, 5⟩⟩ .null .null)
    (.node ⟨0, -1, ⟨9, 11, 0, 2, 0, 5⟩⟩ .null .null)

/-- The array that `flatten_bvh` makes of `doubled_tree`. -/
def doubled_array : List BVHNode :=
  [⟨-1, 2, ⟨-1, 11, 0, 2, 0, 5⟩⟩, ⟨0, -1, ⟨-1, 1, 0, 2, 0, 5⟩⟩, ⟨0, -1, ⟨9, 11, 0, 2, 0, 5⟩⟩]

/-- A pool of two triangles that are points: one at `x = +inf` and one at the origin. -/
def infinite_pool : List GLtriangle :=
  [point_triangle ⟨.pinf, 0, 0⟩, point_triangle ⟨0, 0, 0⟩]

/-- The tree that `build_bvh` makes of the two primitives over `infinite_pool`. -/
def infinite_tree : BVHTreeNode :=
  .node ⟨-1, -1, ⟨0, .pinf, 0, 0, 0, 0⟩⟩
    (.node ⟨1, -1, ⟨0, 0, 0, 0, 0, 0⟩⟩ .null .null)
    (.node ⟨0, -1, ⟨.pinf, .pinf, 0, 0, 0, 0⟩⟩ .null .null)

/-- The scene that holds `infinite_pool` and its two primitives, with empty buffers. -/
def infinite_scene : Scene := ⟨infinite_pool, [], two_primitives, [], [], [], []⟩

/-- The array that `flatten_bvh` makes of `infinite_tree`. -/
def infinite_array : List BVHNode :=
  [⟨-1, 2, ⟨0, .pinf, 0, 0, 0, 0⟩⟩, ⟨1, -1, ⟨0, 0, 0, 0, 0, 0⟩⟩,
   ⟨0, -1, ⟨.pinf, .pinf, 0, 0, 0, 0⟩⟩]

/-- A scene with contents in its BVH buffer and no primitive. -/
def emptied_scene : Scene :=
  { sample_scene_rebuilt with m_primitives := [] }

/-- A scene with contents in its BVH buffer whose two primitives have the same centroid. -/
def coincident_scene_rebuilt : Scene :=
  { sample_scene_rebuilt with m_primitives := coincident_primitives }

/-- The struct `Cube` (declared in `scene.h`, which is not among the sources; the same
struct is declared in `tardis.cc`): center, half-sizes and the place in the triangle pool
where the triangles of the cube begin. -/
structure Cube where
  center : GLvec3
  sizes : GLvec3
  index : Int
  deriving DecidableEq, Repr

/-- The enum `SubmitFlags` (declared in `scene.h`, which is not among the sources).
`submit_primitive` only tests `flags & SubmitFlags_Update` and
`flags & SubmitFlags_FlipNormals`; the two fields are the outcomes of these tests. -/
structure SubmitFlags where
  update : Bool
  flip_normals : Bool
  deriving DecidableEq, Repr

/-- The flags with neither bit set. -/
def SubmitFlags_None : SubmitFlags := ⟨false, false⟩

/-- The first value of `enum MaterialType`. -/
def MaterialType_Lambert : Int := 0

/-- The sum `a + b` of `glm::vec3`. -/
def glm_add (a b : GLvec3) : GLvec3 := ⟨a.x + b.x, a.y + b.y, a.z + b.z⟩

/-- The difference `a - b` of `glm::vec3`. -/
def glm_sub (a b : GLvec3) : GLvec3 := ⟨a.x - b.x, a.y - b.y, a.z - b.z⟩

/-- The product `glm::cross(a, b)`. -/
def glm_cross (a b : GLvec3) : GLvec3 :=
  ⟨a.y * b.z - b.y * a.z, a.z * b.x - b.z * a.x, a.x * b.y - b.x * a.y⟩

/-- The statements `normals[i]->x *= -1; ...` of the `FlipNormals` branch. -/
def flip (flags : SubmitFlags) (n : GLvec3) : GLvec3 :=
  if flags.flip_normals then ⟨n.x * -1, n.y * -1, n.z * -1⟩ else n

/-- The store `s[i] = a` into a slice. -/
def store {α : Type} (s : List α) (i : Int) (a : α) : Except Err (List α) :=
  if i < 0 ∨ s.length ≤ i.toNat then .error .outOfBounds else .ok (s.set i.toNat a)

/-- The stores `m_triangle_pool[index + k] = tri`, `m_triangle_pool[index + k + 1] = ...`
for the triangles of a list, one after the other. -/
def store_triangles (index : Int) :
    List GLtriangle → Nat → List GLtriangle → Except Err (List GLtriangle)
  | [], _, pool => .ok pool
  | tri :: rest, k, pool =>
    match store pool (index + k) tri with
    | .error e => .error e
    | .ok pool2 => store_triangles index rest (k + 1) pool2

/-- The eight corners `_a, ..., _h` of `submit_primitive`, in this order. -/
def cube_corners (cube : Cube) : List GLvec3 :=
  [glm_add cube.center ⟨-cube.sizes.x, cube.sizes.y, cube.sizes.z⟩,
   glm_add cube.center ⟨cube.sizes.x, cube.sizes.y, cube.sizes.z⟩,
   glm_add cube.center ⟨cube.sizes.x, cube.sizes.y, -cube.sizes.z⟩,
   glm_add cube.center ⟨-cube.sizes.x, cube.sizes.y, -cube.sizes.z⟩,
   glm_add cube.center ⟨cube.sizes.x, -cube.sizes.y, cube.sizes.z⟩,
   glm_add cube.center ⟨cube.sizes.x, -cube.sizes.y, -cube.sizes.z⟩,
   glm_add cube.center ⟨-cube.sizes.x, -cube.sizes.y, -cube.sizes.z⟩,
   glm_add cube.center ⟨-cube.sizes.x, -cube.sizes.y, cube.sizes.z⟩]

/-- The twelve triangles that `submit_primitive` writes for a cube, in the order of the
stores `m_triangle_pool[index + 0] = tri`, ..., `m_triangle_pool[index + 11] = tri`: front,
right, back, left, top and bottom face, two triangles each.  `normalize` is
`glm::normalize`, whose square root is not part of the model of `float`. -/
def cube_triangles (normalize : GLvec3 → GLvec3) (cube : Cube) (flags : SubmitFlags) :
    List GLtriangle :=
  let a := glm_add cube.center ⟨-cube.sizes.x, cube.sizes.y, cube.sizes.z⟩
  let b := glm_add cube.center ⟨cube.sizes.x, cube.sizes.y, cube.sizes.z⟩
  let c := glm_add cube.center ⟨cube.sizes.x, cube.sizes.y, -cube.sizes.z⟩
  let d := glm_add cube.center ⟨-cube.sizes.x, cube.sizes.y, -cube.sizes.z⟩
  let e := glm_add cube.center ⟨cube.sizes.x, -cube.sizes.y, cube.sizes.z⟩
  let f := glm_add cube.center ⟨cube.sizes.x, -cube.sizes.y, -cube.sizes.z⟩
  let g := glm_add cube.center ⟨-cube.sizes.x, -cube.sizes.y, -cube.sizes.z⟩
  let h := glm_add cube.center ⟨-cube.sizes.x, -cube.sizes.y, cube.sizes.z⟩
  let nf := flip flags (normalize (glm_cross (glm_sub b e) (glm_sub h e)))
  let nr := flip flags (normalize (glm_cross (glm_sub c f) (glm_sub e f)))
  let nb := flip flags (normalize (glm_cross (glm_sub d g) (glm_sub f g)))
  let nl := flip flags (normalize (glm_cross (glm_sub a h) (glm_sub g h)))
  let nt := flip flags (normalize (glm_cross (glm_sub c b) (glm_sub a b)))
  let nm := flip flags (normalize (glm_cross (glm_sub e f) (glm_sub g f)))
  [⟨h, b, a, nf⟩, ⟨h, e, b, nf⟩, ⟨e, c, b, nr⟩, ⟨e, c, f, nr⟩, ⟨d, c, g, nb⟩, ⟨c, f, g, nb⟩,
   ⟨a, h, d, nl⟩, ⟨h, d, g, nl⟩, ⟨a, c, d, nt⟩, ⟨a, b, c, nt⟩, ⟨h, f, g, nm⟩, ⟨h, e, f, nm⟩]

/-- Function `submit_primitive(Cube* cube, SubmitFlags flags, int64 flag_params)` on the
pools of a scene.  The result is the returned id, the cube with its `index` field as the
call leaves it, and the scene.  `normalize` is `glm::normalize`; `tri` is the local
`GLtriangle tri`, which the source does not initialise.  The cast `(int)index` is the
identity on the pool sizes of the model. -/
def submit_primitive (normalize : GLvec3 → GLvec3) (tri : GLtriangle) (s : Scene)
    (cube : Cube) (flags : SubmitFlags) (flag_params : Int) :
    Except Err (Int × Cube × Scene) :=
  let garbage : GLtriangle := { tri with p0 := { tri.p0 with x := 0 } }
  let index : Int := if flags.update then cube.index else (s.m_triangle_pool.length : Int)
  let pool : List GLtriangle :=
    if flags.update then s.m_triangle_pool
    else s.m_triangle_pool ++ List.replicate 12 garbage
  match store_triangles index (cube_triangles normalize cube flags) 0 pool with
  | .error e => .error e
  | .ok pool2 =>
    if ¬ (index ≤ (PH_MAX_int64 : Int)) then .error .indexRange
    else
      let cube2 : Cube := { cube with index := index }
      let prim : Primitive := ⟨cube2.index, 12, MaterialType_Lambert⟩
      if flags.update then
        if ¬ (flag_params ≥ 0 ∧ flag_params < (s.m_primitives.length : Int)) then
          .error .updateId
        else
          .ok (flag_params, cube2,
            { s with m_triangle_pool := pool2,
                     m_primitives := s.m_primitives.set flag_params.toNat prim })
      else
        .ok ((s.m_primitives.length : Int), cube2,
          { s with m_triangle_pool := pool2, m_primitives := s.m_primitives ++ [prim] })

/-- Function `submit_primitive(AABB* bbox)`: the cube for a box, submitted with the
default arguments of the declaration in `scene.h` (not among the sources), taken to be no
flag and no id.  The third half-size is `bbox->zmax - center.y`, as in the source. -/
def submit_primitive_aabb (normalize : GLvec3 → GLvec3) (tri : GLtriangle) (s : Scene)
    (bbox : AABB) : Except Err (Int × Scene) :=
  let center : GLvec3 :=
    ⟨(bbox.xmax + bbox.xmin) / 2, (bbox.ymax + bbox.ymin) / 2, (bbox.zmax + bbox.zmin) / 2⟩
  let cube : Cube :=
    ⟨center, ⟨bbox.xmax - center.x, bbox.ymax - center.y, bbox.zmax - center.y⟩, -1⟩
  match submit_primitive normalize tri s cube SubmitFlags_None 0 with
  | .error e => .error e
  | .ok (id, _, s2) => .ok (id, s2)

/-- A scene with empty pools and buffers. -/
def empty_scene : Scene := ⟨[], [], [], [], [], [], []⟩

/-- A stand-in for `glm::normalize` in evaluations: the normals play no part in the boxes. -/
def no_normalize (v : GLvec3) : GLvec3 := v

/-- The zero triangle, a stand-in for the uninitialised local `tri`. -/
def zero_triangle : GLtriangle := ⟨⟨0, 0, 0⟩, ⟨0, 0, 0⟩, ⟨0, 0, 0⟩, ⟨0, 0, 0⟩⟩

/-- The number that a `float` stands for; `0` for NaN and the infinities. -/
def float.value : float → ℚ
  | .fin q => q
  | _ => 0

/-- The variation of an axis in the words of the specification: the sum, over the
consecutive entries of the list, of the absolute differences, in exact arithmetic. -/
def exact_variation (f : GLvec3 → float) : List GLvec3 → ℚ
  | a :: b :: rest => |(f a).value - (f b).value| + exact_variation f (b :: rest)
  | _ => 0

/-- A pool of two triangles, each a single point: the origin and `(1, 1, 0)`. -/
def tie_pool : List GLtriangle :=
  [sample_triangle ⟨0, 0, 0⟩ ⟨0, 0, 0⟩ ⟨0, 0, 0⟩, sample_triangle ⟨1, 1, 0⟩ ⟨1, 1, 0⟩ ⟨1, 1, 0⟩]

/-- A pool of four triangles that are points: `(16777216, 0, 0)`, `(0, 1, 0)`, `(1, 2, 0)`
and `(2, 16777218, 0)`. -/
def rounded_pool : List GLtriangle :=
  [point_triangle ⟨16777216, 0, 0⟩, point_triangle ⟨0, 1, 0⟩, point_triangle ⟨1, 2, 0⟩,
   point_triangle ⟨2, 16777218, 0⟩]

/-- Four primitives of one triangle each, at the offsets 0, 1, 2 and 3. -/
def four_primitives : List Primitive := [⟨0, 1, 0⟩, ⟨1, 1, 0⟩, ⟨2, 1, 0⟩, ⟨3, 1, 0⟩]

/-- The mean of the centroids on an axis in the words of the specification: the sum of the
coordinates divided by their number, in exact arithmetic. -/
def exact_mean (f : GLvec3 → float) (cs : List GLvec3) : ℚ :=
  (cs.map (fun c => (f c).value)).sum / (cs.length : ℚ)

/-- The floats `0.1f`, `0.2f` and `0.3f`. -/
def tenth : float := round32 (1 / 10)

/-- The float `0.2f`. -/
def two_tenths : float := round32 (2 / 10)

/-- The float `0.3f`. -/
def three_tenths : float := round32 (3 / 10)

/-- A pool of three triangles that are points on the `x` axis, at `0.1f`, `0.2f` and
`0.3f`. -/
def tenths_pool : List GLtriangle :=
  [point_triangle ⟨tenth, 0, 0⟩, point_triangle ⟨two_tenths, 0, 0⟩,
   point_triangle ⟨three_tenths, 0, 0⟩]

/-- A pool of three triangles that are points on the `x` axis: at `3e38`, at `-3e38` and
at `3e38` again. -/
def echo_pool : List GLtriangle :=
  [point_triangle ⟨huge, 0, 0⟩, point_triangle ⟨-huge, 0, 0⟩, point_triangle ⟨huge, 0, 0⟩]

/-- The tree that `build_bvh` makes of the three sample primitives. -/
def sample_tree3 : BVHTreeNode :=
  .node ⟨-1, -1, ⟨-1, 11, 0, 2, 0, 5⟩⟩
    (.node ⟨-1, -1, ⟨-1, 4, 0, 2, 0, 5⟩⟩
      (.node ⟨0, -1, ⟨-1, 1, 0, 2, 0, 5⟩⟩ .null .null)
      (.node ⟨2, -1, ⟨4, 4, 0, 2, 0, 5⟩⟩ .null .null))
    (.node ⟨1, -1, ⟨9, 11, 0, 2, 0, 5⟩⟩ .null .null)

/-- The value is a number other than the infinities. -/
def float.is_finite : float → Prop
  | .fin _ => True
  | _ => False

instance float.is_finite_decidable : (a : float) → Decidable a.is_finite
  | .fin _ => isTrue trivial
  | .nan => isFalse (fun h => h)
  | .pinf => isFalse (fun h => h)
  | .ninf => isFalse (fun h => h)

/-- No coordinate of the point is NaN or infinite. -/
def GLvec3.is_finite (p : GLvec3) : Prop := p.x.is_finite ∧ p.y.is_finite ∧ p.z.is_finite

instance GLvec3.is_finite_decidable (p : GLvec3) : Decidable p.is_finite := by
  unfold GLvec3.is_finite; infer_instance

/-- No coordinate of a corner of the triangle is NaN or infinite. -/
def GLtriangle.is_finite (t : GLtriangle) : Prop :=
  t.p0.is_finite ∧ t.p1.is_finite ∧ t.p2.is_finite

instance GLtriangle.is_finite_decidable (t : GLtriangle) : Decidable t.is_finite := by
  unfold GLtriangle.is_finite; infer_instance

/-- No bound of the box is NaN or infinite. -/
def AABB.is_finite (b : AABB) : Prop :=
  b.xmin.is_finite ∧ b.xmax.is_finite ∧ b.ymin.is_finite ∧ b.ymax.is_finite ∧
  b.zmin.is_finite ∧ b.zmax.is_finite

/-- What one round of the first `while` loop of `flatten_bvh` leaves: the loop is over
with an outcome, or there is another round on a new stack, `slice` and `ptrs`. -/
inductive FirstRound where
  | done (outcome : Except Err (List BVHNode × List (List Bool)))
  | next (stack : List NodePtr) (slice : List BVHNode) (ptrs : List (List Bool))
  deriving DecidableEq

/-- One round of the first `while (stack_offset > 0)` loop of `flatten_bvh`. -/
def first_pass_round : List NodePtr → List BVHNode → List (List Bool) → FirstRound
  | [], slice, ptrs => .done (.ok (slice, ptrs))
  | (_, .null) :: _, _, _ => .done (.error .nullDeref)
  | (path, .node d left right) :: stack, slice, ptrs =>
    if is_leaf left right then .next stack (slice ++ [d]) (ptrs ++ [path])
    else if kTreeStackLimit < stack.length + 2 then .done (.error .stackOverflow)
    else
      .next ((path ++ [false], left) :: (path ++ [true], right) :: stack)
        (slice ++ [d]) (ptrs ++ [path])

/-- The first loop of `flatten_bvh` after `n` rounds. -/
def first_pass_rounds : Nat → List NodePtr → List BVHNode → List (List Bool) → FirstRound
  | 0, stack, slice, ptrs => .next stack slice ptrs
  | n + 1, stack, slice, ptrs =>
    match first_pass_round stack slice ptrs with
    | .done outcome => .done outcome
    | .next stack2 slice2 ptrs2 => first_pass_rounds n stack2 slice2 ptrs2

/-- What one round of the second `while` loop of `flatten_bvh` leaves. -/
inductive SecondRound where
  | done (outcome : Except Err (List BVHNode))
  | next (stack : List NodePtr) (i : Nat) (slice : List BVHNode)
  deriving DecidableEq

/-- One round of the second `while (stack_offset > 0)` loop of `flatten_bvh`. -/
def second_pass_round (ptrs : List (List Bool)) :
    List NodePtr → Nat → List BVHNode → SecondRound
  | [], _, slice => .done (.ok slice)
  | (_, .null) :: _, _, _ => .done (.error .nullDeref)
  | (path, .node _ left right) :: stack, i, slice =>
    if is_leaf left right then .next stack (i + 1) slice
    else if kTreeStackLimit < stack.length + 2 then .done (.error .stackOverflow)
    else
      let found_i := find ptrs (path ++ [true])
      if ¬ (found_i ≥ 0) then .done (.error .notFound)
      else if ¬ (found_i < 2 ^ 31) then .done (.error .tooLarge)
      else
        match slice[i]? with
        | none => .done (.error .outOfBounds)
        | some n =>
          .next ((path ++ [false], left) :: (path ++ [true], right) :: stack) (i + 1)
            (slice.set i { n with right_child_offset := found_i })

/-- The second loop of `flatten_bvh` after `n` rounds. -/
def second_pass_rounds (ptrs : List (List Bool)) :
    Nat → List NodePtr → Nat → List BVHNode → SecondRound
  | 0, stack, i, slice => .next stack i slice
  | n + 1, stack, i, slice =>
    match second_pass_round ptrs stack i slice with
    | .done outcome => .done outcome
    | .next stack2 i2 slice2 => second_pass_rounds ptrs n stack2 i2 slice2

/-- An assertion or index check of the second loop of `flatten_bvh` that is not about its
stack. -/
def offset_failure (e : Err) : Prop := e = .notFound ∨ e = .tooLarge ∨ e = .outOfBounds

/-- A cube around the origin with half-sizes `1/2`. -/
def unit_cube : Cube := ⟨⟨0, 0, 0⟩, ⟨1 / 2, 1 / 2, 1 / 2⟩, -1⟩

/-- The scene that holds `unit_cube` and nothing else. -/
def unit_scene : Scene :=
  { empty_scene with
    m_triangle_pool := cube_triangles no_normalize unit_cube SubmitFlags_None,
    m_primitives := [⟨0, 12, MaterialType_Lambert⟩] }

/-- The cube around `(3, 0, 0)` with half-sizes `1/2`, at the place of `unit_cube` in the
triangle pool. -/
def moved_cube : Cube := ⟨⟨3, 0, 0⟩, ⟨1 / 2, 1 / 2, 1 / 2⟩, 0⟩

/-- The exponent of the spacing of the floats around a rational: `max(e, -126) - 23` for
the binary exponent `e`. -/
def round_grid (q : ℚ) : Int := max (exponent q) (-126) - 23

/-- The multiple of the spacing nearest to a rational, a tie going to the even multiple:
the result of `round32` before the test for overflow. -/
def rounded (q : ℚ) : ℚ := (round_even (q / pow2 (round_grid q)) : ℚ) * pow2 (round_grid q)

/-- The corners `p0, p1, p2` of the triangles of a list, triangle by triangle. -/
def triangle_points : List GLtriangle → List GLvec3
  | [] => []
  | tri :: rest => [tri.p0, tri.p1, tri.p2] ++ triangle_points rest

/-- The box `[center - sizes, center + sizes]` of a cube. -/
def cube_box (cube : Cube) : AABB :=
  ⟨cube.center.x - cube.sizes.x, cube.center.x + cube.sizes.x,
   cube.center.y - cube.sizes.y, cube.center.y + cube.sizes.y,
   cube.center.z - cube.sizes.z, cube.center.z + cube.sizes.z⟩

/-- The rational is a `float`: rounding leaves it as it is. -/
def representable (q : ℚ) : Prop := round32 q = .fin q

instance representable_decidable (q : ℚ) : Decidable (representable q) := by
  unfold representable; infer_instance

/-- No operation of `get_centroid` on the bounds `c - s` and `c + s` rounds: `c` and `s` are
numbers, and `c + s`, `c - s` and `2 c` are floats as `c` is. -/
def exact_axis : float → float → Prop
  | .fin a, .fin b =>
    representable (a + b) ∧ representable (a - b) ∧ representable (2 * a) ∧ representable a
  | _, _ => False

instance exact_axis_decidable : (c s : float) → Decidable (exact_axis c s)
  | .fin a, .fin b =>
    inferInstanceAs (Decidable (representable (a + b) ∧ representable (a - b) ∧
      representable (2 * a) ∧ representable a))
  | .nan, _ => isFalse (fun h => h)
  | .pinf, _ => isFalse (fun h => h)
  | .ninf, _ => isFalse (fun h => h)
  | .fin _, .nan => isFalse (fun h => h)
  | .fin _, .pinf => isFalse (fun h => h)
  | .fin _, .ninf => isFalse (fun h => h)

/-- The cube around `(0.1f, 0, 0)` with half-sizes `1/2`. -/
def tenth_cube : Cube := ⟨⟨tenth, 0, 0⟩, ⟨1 / 2, 1 / 2, 1 / 2⟩, -1⟩

/-- A box with different extents on the three axes: `[0, 1] x [0, 1] x [0, 2]`. -/
def tall_box : AABB := ⟨0, 1, 0, 1, 0, 2⟩

/-- On every axis the lower corner `center - sizes` of the cube is not above the upper
corner `center + sizes`. -/
def cube_ordered (cube : Cube) : Prop :=
  cube.center.x - cube.sizes.x ≤ cube.center.x + cube.sizes.x ∧
  cube.center.y - cube.sizes.y ≤ cube.center.y + cube.sizes.y ∧
  cube.center.z - cube.sizes.z ≤ cube.center.z + cube.sizes.z

instance cube_ordered_decidable (cube : Cube) : Decidable (cube_ordered cube) := by
  unfold cube_ordered; infer_instance

theorem float_fin_lt_fin (a b : ℚ) : (float.fin a < float.fin b) ↔ a < b := Iff.rfl

theorem float_fin_le_fin (a b : ℚ) : (float.fin a ≤ float.fin b) ↔ a ≤ b := Iff.rfl

theorem float_not_lt_nan (a : float) : ¬ a < float.nan := by
  cases a <;> exact fun h => h

theorem float_not_nan_le (a : float) : ¬ float.nan ≤ a := fun h => h

theorem float_not_le_nan (a : float) : ¬ a ≤ float.nan := by
  cases a <;> exact fun h => h

theorem float_ne_nan_of_le {a b : float} (h : a ≤ b) : a ≠ .nan ∧ b ≠ .nan := by
  constructor
  · rintro rfl; exact float_not_nan_le _ h
  · rintro rfl; exact float_not_le_nan _ h

theorem float_lt_irrefl (a : float) : ¬ a < a := by
  cases a with
  | fin q => exact lt_irrefl q
  | _ => exact fun h => h

theorem float_lt_trans {a b c : float} (h1 : a < b) (h2 : b < c) : a < c := by
  cases a <;> cases b <;> cases c <;>
    first
    | exact absurd h1 (fun h => h)
    | exact absurd h2 (fun h => h)
    | exact trivial
    | (simp only [float_fin_lt_fin] at h1 h2 ⊢; exact lt_trans h1 h2)

theorem float_lt_asymm {a b : float} (h : a < b) : ¬ b < a :=
  fun h2 => float_lt_irrefl a (float_lt_trans h h2)

theorem float_le_of_lt {a b : float} (h : a < b) : a ≤ b := by
  cases a <;> cases b <;>
    first
    | exact absurd h (fun h => h)
    | exact trivial
    | (simp only [float_fin_lt_fin, float_fin_le_fin] at h ⊢; exact le_of_lt h)

theorem float_le_refl {a : float} (h : a ≠ .nan) : a ≤ a := by
  cases a with
  | nan => exact absurd rfl h
  | fin q => exact le_refl q
  | ninf => exact trivial
  | pinf => exact trivial

theorem float_le_trans {a b c : float} (h1 : a ≤ b) (h2 : b ≤ c) : a ≤ c := by
  cases a <;> cases b <;> cases c <;>
    first
    | exact absurd h1 (fun h => h)
    | exact absurd h2 (fun h => h)
    | exact trivial
    | (simp only [float_fin_le_fin] at h1 h2 ⊢; exact le_trans h1 h2)

theorem float_le_antisymm {a b : float} (h1 : a ≤ b) (h2 : b ≤ a) : a = b := by
  cases a <;> cases b <;>
    first
    | exact absurd h1 (fun h => h)
    | exact absurd h2 (fun h => h)
    | rfl
    | (simp only [float_fin_le_fin] at h1 h2; exact congrArg float.fin (le_antisymm h1 h2))

theorem float_lt_of_lt_of_le {a b c : float} (h1 : a < b) (h2 : b ≤ c) : a < c := by
  cases a <;> cases b <;> cases c <;>
    first
    | exact absurd h1 (fun h => h)
    | exact absurd h2 (fun h => h)
    | exact trivial
    | (simp only [float_fin_lt_fin, float_fin_le_fin] at h1 h2 ⊢; exact lt_of_lt_of_le h1 h2)

theorem float_lt_of_le_of_lt {a b c : float} (h1 : a ≤ b) (h2 : b < c) : a < c := by
  cases a <;> cases b <;> cases c <;>
    first
    | exact absurd h1 (fun h => h)
    | exact absurd h2 (fun h => h)
    | exact trivial
    | (simp only [float_fin_lt_fin, float_fin_le_fin] at h1 h2 ⊢; exact lt_of_le_of_lt h1 h2)

theorem float_not_lt_of_le {a b : float} (h : a ≤ b) : ¬ b < a :=
  fun h2 => float_lt_irrefl a (float_lt_of_le_of_lt h h2)

theorem float_not_le_of_lt {a b : float} (h : a < b) : ¬ b ≤ a :=
  fun h2 => float_lt_irrefl a (float_lt_of_lt_of_le h h2)

/-- Two values other than NaN are comparable. -/
theorem float_lt_or_le {a b : float} (ha : a ≠ .nan) (hb : b ≠ .nan) : a < b ∨ b ≤ a := by
  cases a <;> cases b <;>
    first
    | exact absurd rfl ha
    | exact absurd rfl hb
    | exact Or.inl trivial
    | exact Or.inr trivial
    | (simp only [float_fin_lt_fin, float_fin_le_fin]; exact lt_or_le _ _)

theorem float_le_of_not_lt {a b : float} (ha : a ≠ .nan) (hb : b ≠ .nan) (h : ¬ b < a) :
    a ≤ b := by
  rcases float_lt_or_le hb ha with h2 | h2
  · exact absurd h2 h
  · exact h2

theorem float_lt_of_not_le {a b : float} (ha : a ≠ .nan) (hb : b ≠ .nan) (h : ¬ b ≤ a) :
    a < b := by
  rcases float_lt_or_le ha hb with h2 | h2
  · exact h2
  · exact absurd h2 h

theorem float_le_iff_lt_or_eq {a b : float} : a ≤ b ↔ a < b ∨ (a = b ∧ a ≠ .nan) := by
  constructor
  · intro h
    by_cases h2 : b ≤ a
    · exact Or.inr ⟨float_le_antisymm h h2, (float_ne_nan_of_le h).1⟩
    · exact Or.inl (float_lt_of_not_le (float_ne_nan_of_le h).1 (float_ne_nan_of_le h).2 h2)
  · rintro (h | ⟨rfl, h⟩)
    · exact float_le_of_lt h
    · exact float_le_refl h

theorem float_nan_add (a : float) : float.nan + a = .nan := by
  cases a <;> rfl

theorem float_add_nan (a : float) : a + float.nan = .nan := by
  cases a <;> rfl

theorem float_add_ne_nan {a b : float} (h : a + b ≠ .nan) : a ≠ .nan ∧ b ≠ .nan := by
  constructor
  · rintro rfl; exact h (float_nan_add b)
  · rintro rfl; exact h (float_add_nan a)

theorem float_nan_div (a : float) : float.nan / a = .nan := by
  cases a <;> rfl

theorem float_div_nan (a : float) : a / float.nan = .nan := by
  cases a <;> rfl

theorem float_div_ne_nan {a b : float} (h : a / b ≠ .nan) : a ≠ .nan ∧ b ≠ .nan := by
  constructor
  · rintro rfl; exact h (float_nan_div b)
  · rintro rfl; exact h (float_div_nan a)

theorem float_sub_ne_nan {a b : float} (h : a - b ≠ .nan) : a ≠ .nan ∧ b ≠ .nan := by
  have h2 : a + float.neg b ≠ .nan := h
  obtain ⟨h3, h4⟩ := float_add_ne_nan h2
  refine ⟨h3, ?_⟩
  rintro rfl
  exact h4 rfl

theorem fabs_ne_nan {a : float} (h : fabs a ≠ .nan) : a ≠ .nan := by
  rintro rfl
  exact h rfl

theorem Primitive.valid.readable {pool : List GLtriangle} {p : Primitive} (h : p.valid pool) :
    p.readable pool := by
  obtain ⟨h0, h1, h2⟩ := h
  exact ⟨h0, by omega, h2⟩

theorem float_min_def (a c : float) : min a c = if c < a then c else a := rfl

theorem float_max_def (a c : float) : max a c = if a < c then c else a := rfl

theorem grow_eq (b : AABB) (p : GLvec3) :
    grow b p = ⟨min b.xmin p.x, max b.xmax p.x, min b.ymin p.y, max b.ymax p.y,
                min b.zmin p.z, max b.zmax p.z⟩ := rfl

theorem is_extent_seed (p : GLvec3) (hp : p.is_number) : is_extent (seed_box p) [p] := by
  obtain ⟨hx, hy, hz⟩ := hp
  simp [is_extent, is_min_of, is_max_of, seed_box, float_le_refl hx, float_le_refl hy,
    float_le_refl hz]

theorem is_min_of_ne_nan {m : float} {l : List float} (h : is_min_of m l) : m ≠ .nan :=
  (float_ne_nan_of_le (h.2 m h.1)).1

theorem is_max_of_ne_nan {m : float} {l : List float} (h : is_max_of m l) : m ≠ .nan :=
  (float_ne_nan_of_le (h.2 m h.1)).1

theorem float_min_choice (a c : float) : min a c = a ∨ min a c = c := by
  rw [float_min_def]; split_ifs <;> simp

theorem float_max_choice (a c : float) : max a c = a ∨ max a c = c := by
  rw [float_max_def]; split_ifs <;> simp

theorem float_min_le_left {a c : float} (ha : a ≠ .nan) : min a c ≤ a := by
  rw [float_min_def]; split_ifs with h
  · exact float_le_of_lt h
  · exact float_le_refl ha

theorem float_min_le_right {a c : float} (ha : a ≠ .nan) (hc : c ≠ .nan) : min a c ≤ c := by
  rw [float_min_def]; split_ifs with h
  · exact float_le_refl hc
  · exact float_le_of_not_lt ha hc h

theorem float_le_max_left {a c : float} (ha : a ≠ .nan) : a ≤ max a c := by
  rw [float_max_def]; split_ifs with h
  · exact float_le_of_lt h
  · exact float_le_refl ha

theorem float_le_max_right {a c : float} (ha : a ≠ .nan) (hc : c ≠ .nan) : c ≤ max a c := by
  rw [float_max_def]; split_ifs with h
  · exact float_le_refl hc
  · exact float_le_of_not_lt hc ha h

theorem is_min_of_snoc {m : float} {l : List float} (h : is_min_of m l) (q : float)
    (hq : q ≠ .nan) : is_min_of (min m q) (l ++ [q]) := by
  have hne := is_min_of_ne_nan h
  obtain ⟨hm, hl⟩ := h
  refine ⟨?_, ?_⟩
  · rcases float_min_choice m q with h | h <;> rw [h] <;> simp [hm]
  · intro r hr
    rcases List.mem_append.mp hr with hr | hr
    · exact float_le_trans (float_min_le_left hne) (hl r hr)
    · simp at hr; rw [hr]; exact float_min_le_right hne hq

theorem is_max_of_snoc {m : float} {l : List float} (h : is_max_of m l) (q : float)
    (hq : q ≠ .nan) : is_max_of (max m q) (l ++ [q]) := by
  have hne := is_max_of_ne_nan h
  obtain ⟨hm, hl⟩ := h
  refine ⟨?_, ?_⟩
  · rcases float_max_choice m q with h | h <;> rw [h] <;> simp [hm]
  · intro r hr
    rcases List.mem_append.mp hr with hr | hr
    · exact float_le_trans (hl r hr) (float_le_max_left hne)
    · simp at hr; rw [hr]; exact float_le_max_right hne hq

theorem is_extent_grow {b : AABB} {vs : List GLvec3} (h : is_extent b vs) (p : GLvec3)
    (hp : p.is_number) : is_extent (grow b p) (vs ++ [p]) := by
  obtain ⟨h1, h2, h3, h4, h5, h6⟩ := h
  obtain ⟨hx, hy, hz⟩ := hp
  rw [grow_eq]
  simp only [is_extent, List.map_append, List.map_cons, List.map_nil]
  exact ⟨is_min_of_snoc h1 _ hx, is_max_of_snoc h2 _ hx, is_min_of_snoc h3 _ hy,
    is_max_of_snoc h4 _ hy, is_min_of_snoc h5 _ hz, is_max_of_snoc h6 _ hz⟩

theorem is_extent_foldl (ws : List GLvec3) :
    ∀ {b : AABB} {vs : List GLvec3}, (∀ w ∈ ws, w.is_number) → is_extent b vs →
      is_extent (ws.foldl grow b) (vs ++ ws) := by
  induction ws with
  | nil => intro b vs _ h; simpa using h
  | cons w ws ih =>
    intro b vs hw h
    have := ih (fun u hu => hw u (List.mem_cons_of_mem _ hu))
      (is_extent_grow h w (hw w (List.mem_cons_self _ _)))
    simpa using this

/-- Two lists with the same members have the same extents. -/
theorem is_extent_congr {b : AABB} {vs ws : List GLvec3} (h : is_extent b vs)
    (hmem : ∀ p, p ∈ vs ↔ p ∈ ws) : is_extent b ws := by
  have key : ∀ f : GLvec3 → float, ∀ q, q ∈ vs.map f ↔ q ∈ ws.map f := by
    intro f q
    simp only [List.mem_map]
    constructor
    · rintro ⟨a, ha, rfl⟩; exact ⟨a, (hmem a).mp ha, rfl⟩
    · rintro ⟨a, ha, rfl⟩; exact ⟨a, (hmem a).mpr ha, rfl⟩
  obtain ⟨h1, h2, h3, h4, h5, h6⟩ := h
  refine ⟨⟨(key _ _).mp h1.1, fun q hq => h1.2 q ((key _ _).mpr hq)⟩,
    ⟨(key _ _).mp h2.1, fun q hq => h2.2 q ((key _ _).mpr hq)⟩,
    ⟨(key _ _).mp h3.1, fun q hq => h3.2 q ((key _ _).mpr hq)⟩,
    ⟨(key _ _).mp h4.1, fun q hq => h4.2 q ((key _ _).mpr hq)⟩,
    ⟨(key _ _).mp h5.1, fun q hq => h5.2 q ((key _ _).mpr hq)⟩,
    ⟨(key _ _).mp h6.1, fun q hq => h6.2 q ((key _ _).mpr hq)⟩⟩

/-- A box is determined by the points it is the extent of. -/
theorem is_extent_unique {b c : AABB} {vs : List GLvec3} (hb : is_extent b vs)
    (hc : is_extent c vs) : b = c := by
  obtain ⟨b1, b2, b3, b4, b5, b6⟩ := hb
  obtain ⟨c1, c2, c3, c4, c5, c6⟩ := hc
  cases b; cases c
  simp only [AABB.mk.injEq]
  exact ⟨float_le_antisymm (b1.2 _ c1.1) (c1.2 _ b1.1),
    float_le_antisymm (c2.2 _ b2.1) (b2.2 _ c2.1),
    float_le_antisymm (b3.2 _ c3.1) (c3.2 _ b3.1),
    float_le_antisymm (c4.2 _ b4.1) (b4.2 _ c4.1),
    float_le_antisymm (b5.2 _ c5.1) (c5.2 _ b5.1),
    float_le_antisymm (c6.2 _ b6.1) (b6.2 _ c6.1)⟩

theorem index_eq_ok {α : Type} {s : List α} {i : Nat} (h : i < s.length) :
    index s i = .ok (s.get ⟨i, h⟩) := by
  simp [index, List.getElem?_eq_getElem h]

theorem bbox_triangles_ok (pool : List GLtriangle) :
    ∀ (is : List Nat) (b : AABB), (∀ i ∈ is, i < pool.length) →
      bbox_triangles pool is b = .ok ((triangle_vertices pool is).foldl grow b) := by
  intro is
  induction is with
  | nil => intro b _; rfl
  | cons i is ih =>
    intro b h
    have hi : i < pool.length := h i (List.mem_cons_self _ _)
    have hrest : ∀ j ∈ is, j < pool.length := fun j hj => h j (List.mem_cons_of_mem _ hj)
    simp only [bbox_triangles, triangle_vertices, index, List.getElem?_eq_getElem hi,
      List.get?_eq_get hi]
    rw [ih _ hrest]
    simp [grow_triangle, List.foldl_append]

theorem range_in_pool {pool : List GLtriangle} {p : Primitive} (h : p.readable pool) :
    ∀ i ∈ List.range' p.offset.toNat p.num_triangles.toNat, i < pool.length := by
  intro i hi
  obtain ⟨h0, h1, h2⟩ := h
  rw [List.mem_range'_1] at hi
  omega

theorem bbox_primitives_ok (pool : List GLtriangle) :
    ∀ (n : Nat) (prims : List Primitive) (b : AABB), n ≤ prims.length →
      (∀ p ∈ prims.take n, p.readable pool) →
      bbox_primitives pool n prims b = .ok ((vertices pool (prims.take n)).foldl grow b) := by
  intro n
  induction n with
  | zero => intro prims b _ _; simp [bbox_primitives, vertices]
  | succ n ih =>
    intro prims b hlen hv
    cases prims with
    | nil => simp at hlen
    | cons p ps =>
      have hp : p.readable pool := hv p (by simp)
      have hps : ∀ q ∈ ps.take n, q.readable pool := fun q hq => hv q (by simp [hq])
      have hoff : ¬ p.offset < 0 := not_lt.mpr hp.1
      simp only [bbox_primitives, hoff, if_false, bbox_triangles_ok pool _ _ (range_in_pool hp)]
      rw [ih ps _ (by simpa using hlen) hps]
      simp [vertices, List.foldl_append]

/-- The value of `get_bbox` on a range whose primitives can all be read. -/
theorem get_bbox_eq (pool : List GLtriangle) (p : Primitive) (ps : List Primitive) (n : Nat)
    (hn : 0 < n) (hn2 : n ≤ (p :: ps).length)
    (hread : ∀ q ∈ (p :: ps).take n, q.readable pool) :
    ∃ first, pool[p.offset.toNat]? = some first ∧
      get_bbox pool (p :: ps) (n : Int) =
        .ok ((vertices pool ((p :: ps).take n)).foldl grow (seed_box first.p0)) := by
  have hp : p.readable pool := hread p (by
    cases n with
    | zero => omega
    | succ k => simp)
  obtain ⟨h0, h1, h2⟩ := hp
  have hoff : p.offset.toNat < pool.length := by omega
  have hneg : ¬ p.offset < 0 := not_lt.mpr h0
  refine ⟨pool[p.offset.toNat], List.getElem?_eq_getElem hoff, ?_⟩
  simp only [get_bbox, index, indexInt, List.getElem?_cons_zero, hneg, if_false,
    List.getElem?_eq_getElem hoff, Int.toNat_ofNat]
  rw [if_neg (by simp; omega)]
  rw [bbox_primitives_ok pool n (p :: ps) _ hn2 hread]
  rfl

theorem get_bbox_ok (pool : List GLtriangle) (prims : List Primitive) (count : Int)
    (hcount : 0 < count) (hlen : count ≤ (prims.length : Int))
    (hvalid : ∀ p ∈ prims.take count.toNat, p.valid pool) :
    ∃ b, get_bbox pool prims count = .ok b ∧
      ((∀ v ∈ vertices pool (prims.take count.toNat), v.is_number) →
        is_extent b (vertices pool (prims.take count.toNat))) := by
  obtain ⟨n, rfl⟩ : ∃ n : Nat, count = (n : Int) := ⟨count.toNat, by omega⟩
  have hn : 0 < n := by omega
  have hn2 : n ≤ prims.length := by omega
  simp only [Int.toNat_ofNat] at hvalid ⊢
  cases prims with
  | nil => simp at hn2; omega
  | cons p ps =>
    obtain ⟨first, hfirst, heq⟩ := get_bbox_eq pool p ps n hn hn2
      (fun q hq => (hvalid q hq).readable)
    refine ⟨_, heq, ?_⟩
    have hp : p.valid pool := hvalid p (by
      cases n with
      | zero => omega
      | succ k => simp)
    obtain ⟨h0, h1, h2⟩ := hp
    intro hnum
    have hmem : first.p0 ∈ vertices pool ((p :: ps).take n) := by
      obtain ⟨k, rfl⟩ : ∃ k, n = k + 1 := ⟨n - 1, by omega⟩
      obtain ⟨m, hm⟩ : ∃ m : Nat, p.num_triangles.toNat = m + 1 :=
        ⟨p.num_triangles.toNat - 1, by omega⟩
      simp [vertices, hm, List.range', triangle_vertices, hfirst]
    have hext := is_extent_foldl (vertices pool ((p :: ps).take n)) hnum
      (is_extent_seed first.p0 (hnum _ hmem))
    apply is_extent_congr hext
    intro q
    simp only [List.mem_append, List.mem_singleton]
    constructor
    · rintro (h | h)
      · rw [h]; exact hmem
      · exact h
    · intro h; exact Or.inr h

theorem get_bbox_nonpositive (pool : List GLtriangle) (prims : List Primitive) (count : Int)
    (h : count ≤ 0) : get_bbox pool prims count = .error .emptyRange := by
  simp [get_bbox, h]

/-- With `count = 1` only `primitives[0]` is read. -/
theorem get_bbox_one (pool : List GLtriangle) (p : Primitive) (rest : List Primitive) :
    get_bbox pool (p :: rest) 1 = get_bbox pool [p] 1 := by
  simp only [get_bbox, index, List.getElem?_cons_zero]
  have h1 : (1 : Int).toNat = 0 + 1 := rfl
  rw [h1]
  simp only [bbox_primitives]

theorem fill_variation_eq (cs : List GLvec3) :
    ∀ v : GLvec3, fill_variation v cs =
      ⟨variation_sum (·.x) v.x cs, variation_sum (·.y) v.y cs,
       variation_sum (·.z) v.z cs⟩ := by
  induction cs with
  | nil => intro v; simp [fill_variation, variation_sum]
  | cons a rest ih =>
    intro v
    cases rest with
    | nil => simp [fill_variation, variation_sum]
    | cons b rest =>
      rw [fill_variation, ih]
      simp only [variation_sum]

theorem component_fill_variation (split : SplitPlane) (cs : List GLvec3) :
    component split (fill_variation ⟨0, 0, 0⟩ cs) = variation_sum (component split) 0 cs := by
  rw [fill_variation_eq]
  cases split <;> rfl

theorem not_zero_lt_neg_one : ¬ (0 : float) < (-1 : float) := by decide!

theorem choose_split_error_kind (v : GLvec3) (e : Err) (h : choose_split v = .error e) :
    e = .degenerate := by
  simp only [choose_split] at h
  split_ifs at h
  cases h
  rfl

/-- The split plane that "Choose split plane" selects: its variation is greater than zero,
no axis has a greater variation, and every axis before it in the order X, Y, Z has a
smaller variation or a NaN. -/
theorem choose_split_ok (v : GLvec3) (split : SplitPlane) (h : choose_split v = .ok split) :
    (0 : float) < component split v ∧
    (∀ j : SplitPlane, ¬ component split v < component j v) ∧
    (∀ j : SplitPlane, j.index < split.index → ¬ component split v ≤ component j v) := by
  have key : ∀ (s : float × SplitPlane) (i : SplitPlane) (w : float),
      split_round s i w = if s.1 < w then (w, i) else s := fun _ _ _ => rfl
  simp only [choose_split] at h
  split_ifs at h with hpos
  cases h
  by_cases h1 : (-1 : float) < v.x
  · by_cases h2 : v.x < v.y
    · by_cases h3 : v.y < v.z
      · simp only [key, h1, h2, h3, if_true] at hpos ⊢
        refine ⟨hpos, ?_, ?_⟩
        · intro j; cases j <;> simp only [component]
          · exact float_lt_asymm (float_lt_trans h2 h3)
          · exact float_lt_asymm h3
          · exact float_lt_irrefl _
        · intro j hj; cases j <;> simp only [component, SplitPlane.index] at hj ⊢
          · exact float_not_le_of_lt (float_lt_trans h2 h3)
          · exact float_not_le_of_lt h3
          · omega
      · simp only [key, h1, h2, h3, if_true, if_false] at hpos ⊢
        refine ⟨hpos, ?_, ?_⟩
        · intro j; cases j <;> simp only [component]
          · exact float_lt_asymm h2
          · exact float_lt_irrefl _
          · exact h3
        · intro j hj; cases j <;> simp only [component, SplitPlane.index] at hj ⊢
          · exact float_not_le_of_lt h2
          · omega
          · omega
    · by_cases h3 : v.x < v.z
      · simp only [key, h1, h2, h3, if_true, if_false] at hpos ⊢
        refine ⟨hpos, ?_, ?_⟩
        · intro j; cases j <;> simp only [component]
          · exact float_lt_asymm h3
          · exact fun hc => h2 (float_lt_trans h3 hc)
          · exact float_lt_irrefl _
        · intro j hj; cases j <;> simp only [component, SplitPlane.index] at hj ⊢
          · exact float_not_le_of_lt h3
          · exact fun hc => h2 (float_lt_of_lt_of_le h3 hc)
          · omega
      · simp only [key, h1, h2, h3, if_true, if_false] at hpos ⊢
        refine ⟨hpos, ?_, ?_⟩
        · intro j; cases j <;> simp only [component]
          · exact float_lt_irrefl _
          · exact h2
          · exact h3
        · intro j hj; cases j <;> simp only [component, SplitPlane.index] at hj ⊢ <;> omega
  · by_cases h2 : (-1 : float) < v.y
    · by_cases h3 : v.y < v.z
      · simp only [key, h1, h2, h3, if_true, if_false] at hpos ⊢
        refine ⟨hpos, ?_, ?_⟩
        · intro j; cases j <;> simp only [component]
          · exact fun hc => h1 (float_lt_trans (float_lt_trans h2 h3) hc)
          · exact float_lt_asymm h3
          · exact float_lt_irrefl _
        · intro j hj; cases j <;> simp only [component, SplitPlane.index] at hj ⊢
          · exact fun hc => h1 (float_lt_of_lt_of_le (float_lt_trans h2 h3) hc)
          · exact float_not_le_of_lt h3
          · omega
      · simp only [key, h1, h2, h3, if_true, if_false] at hpos ⊢
        refine ⟨hpos, ?_, ?_⟩
        · intro j; cases j <;> simp only [component]
          · exact fun hc => h1 (float_lt_trans h2 hc)
          · exact float_lt_irrefl _
          · exact h3
        · intro j hj; cases j <;> simp only [component, SplitPlane.index] at hj ⊢
          · exact fun hc => h1 (float_lt_of_lt_of_le h2 hc)
          · omega
          · omega
    · by_cases h3 : (-1 : float) < v.z
      · simp only [key, h1, h2, h3, if_true, if_false] at hpos ⊢
        refine ⟨hpos, ?_, ?_⟩
        · intro j; cases j <;> simp only [component]
          · exact fun hc => h1 (float_lt_trans h3 hc)
          · exact fun hc => h2 (float_lt_trans h3 hc)
          · exact float_lt_irrefl _
        · intro j hj; cases j <;> simp only [component, SplitPlane.index] at hj ⊢
          · exact fun hc => h1 (float_lt_of_lt_of_le h3 hc)
          · exact fun hc => h2 (float_lt_of_lt_of_le h3 hc)
          · omega
      · simp only [key, h1, h2, h3, if_false] at hpos
        exact absurd hpos not_zero_lt_neg_one

theorem midpoint_foldl (cs : List GLvec3) :
    ∀ m : GLvec3, cs.foldl (fun m c => (⟨m.x + c.x, m.y + c.y, m.z + c.z⟩ : GLvec3)) m =
      ⟨float_sum m.x (cs.map (·.x)), float_sum m.y (cs.map (·.y)),
       float_sum m.z (cs.map (·.z))⟩ := by
  induction cs with
  | nil => intro m; simp [float_sum]
  | cons c cs ih =>
    intro m
    rw [List.foldl_cons, ih]
    simp [float_sum]

theorem calc_midpoint_component (split : SplitPlane) (cs : List GLvec3) :
    component split (calc_midpoint cs) =
      float_sum 0 (cs.map (component split)) / float.ofInt cs.length := by
  simp only [calc_midpoint, midpoint_foldl]
  cases split <;> rfl

/-- A sum that is not NaN has no NaN among its terms. -/
theorem float_sum_ne_nan (l : List float) :
    ∀ m : float, float_sum m l ≠ .nan → m ≠ .nan ∧ ∀ a ∈ l, a ≠ .nan := by
  induction l with
  | nil => intro m h; exact ⟨by simpa [float_sum] using h, by simp⟩
  | cons b l ih =>
    intro m h
    have h2 : float_sum (m + b) l ≠ .nan := by simpa [float_sum] using h
    obtain ⟨h3, h4⟩ := ih _ h2
    obtain ⟨h5, h6⟩ := float_add_ne_nan h3
    refine ⟨h5, ?_⟩
    intro a ha
    rcases List.mem_cons.mp ha with rfl | ha
    · exact h6
    · exact h4 a ha

/-- When a coordinate of the midpoint is not NaN, that coordinate of no centroid is. -/
theorem midpoint_component_ne_nan {split : SplitPlane} {cs : List GLvec3}
    (h : component split (calc_midpoint cs) ≠ .nan) :
    ∀ c ∈ cs, component split c ≠ .nan := by
  rw [calc_midpoint_component] at h
  obtain ⟨h1, -⟩ := float_div_ne_nan h
  obtain ⟨-, h2⟩ := float_sum_ne_nan _ _ h1
  intro c hc
  exact h2 _ (List.mem_map_of_mem _ hc)

theorem goes_left_not_right {split : SplitPlane} {mid : GLvec3} {t : GLvec3 × Primitive × Int}
    (h : goes_left split mid t = true) : goes_right split mid t = false := by
  simp only [goes_left, goes_right, decide_eq_true_eq, decide_eq_false_iff_not, ge_iff_le] at h ⊢
  exact float_not_le_of_lt h

/-- Against a midpoint coordinate that is NaN both tests fail. -/
theorem goes_nowhere {split : SplitPlane} {mid : GLvec3} (h : component split mid = .nan)
    (t : GLvec3 × Primitive × Int) :
    goes_left split mid t = false ∧ goes_right split mid t = false := by
  simp only [goes_left, goes_right, decide_eq_false_iff_not, ge_iff_le, h]
  exact ⟨float_not_lt_nan _, float_not_nan_le _⟩

/-- Between two numbers exactly one of the two tests holds. -/
theorem goes_right_iff {split : SplitPlane} {mid : GLvec3} {t : GLvec3 × Primitive × Int}
    (hm : component split mid ≠ .nan) (ht : component split t.1 ≠ .nan) :
    goes_right split mid t = !goes_left split mid t := by
  by_cases h : goes_left split mid t = true
  · rw [h, goes_left_not_right h]; rfl
  · have h2 : goes_left split mid t = false := by simpa using h
    rw [h2]
    simp only [goes_left, goes_right, decide_eq_false_iff_not, ge_iff_le, Bool.not_false,
      decide_eq_true_eq] at h2 ⊢
    exact float_le_of_not_lt hm ht h2

theorem partition_step_eq (split : SplitPlane) (midpoint c : GLvec3) (p : Primitive) (i : Int)
    (st : Partition) :
    partition_step split midpoint c p i st =
      if goes_left split midpoint (c, p, i) then st.to_left p i
      else if goes_right split midpoint (c, p, i) then st.to_right p i else st := by
  by_cases h : goes_left split midpoint (c, p, i) = true
  · have h2 := goes_left_not_right h
    rw [if_pos h]
    cases split <;>
      simp only [goes_left, goes_right, component, decide_eq_true_eq, decide_eq_false_iff_not,
        ge_iff_le] at h h2 <;>
      simp only [partition_step, ge_iff_le, h, if_true] <;>
      rw [if_neg] <;> exact float_not_le_of_lt h
  · rw [if_neg h]
    cases split <;>
      simp only [goes_left, goes_right, component, decide_eq_true_eq, ge_iff_le] at h ⊢ <;>
      simp only [partition_step, ge_iff_le, h, if_false]

theorem take_set_succ {α : Type} (l : List α) (k : Nat) (x : α) (h : k < l.length) :
    (l.set k x).take (k + 1) = l.take k ++ [x] := by
  induction l generalizing k with
  | nil => simp at h
  | cons a l ih =>
    cases k with
    | zero => simp
    | succ k =>
      simp only [List.set_cons_succ, List.take_succ_cons, List.cons_append, List.cons.injEq,
        true_and]
      exact ih k (by simpa using h)

theorem take_set_of_le {α : Type} (l : List α) (k : Nat) (x : α) (j : Nat) (h : j ≤ k) :
    (l.set k x).take j = l.take j := by
  induction l generalizing k j with
  | nil => simp
  | cons a l ih =>
    cases j with
    | zero => simp
    | succ j =>
      cases k with
      | zero => omega
      | succ k =>
        simp only [List.set_cons_succ, List.take_succ_cons, List.cons.injEq, true_and]
        exact ih k j (by omega)

/-- What the partition loop does to its state, in terms of the entries that pass the test
for the left slice and those that pass the test for the right slice. -/
theorem partition_loop_spec (split : SplitPlane) (midpoint : GLvec3) :
    ∀ (cs : List GLvec3) (ps : List Primitive) (is : List Int) (st : Partition),
      cs.length = ps.length → ps.length ≤ is.length →
      st.offset_l + ps.length ≤ st.new_indices_l.length →
      st.offset_r + ps.length ≤ st.new_indices_r.length →
      let r := partition_loop split midpoint cs ps is st
      let T := List.zip cs (List.zip ps is)
      r.slice_left = st.slice_left ++ ((T.filter (goes_left split midpoint)).map (·.2.1)) ∧
      r.slice_right = st.slice_right ++ ((T.filter (goes_right split midpoint)).map (·.2.1)) ∧
      r.offset_l = st.offset_l + (T.filter (goes_left split midpoint)).length ∧
      r.offset_r = st.offset_r + (T.filter (goes_right split midpoint)).length ∧
      r.new_indices_l.take r.offset_l = st.new_indices_l.take st.offset_l ++
        ((T.filter (goes_left split midpoint)).map (·.2.2)) ∧
      r.new_indices_r.take r.offset_r = st.new_indices_r.take st.offset_r ++
        ((T.filter (goes_right split midpoint)).map (·.2.2)) := by
  intro cs
  induction cs with
  | nil => intro ps is st _ _ _ _; simp [partition_loop]
  | cons c cs ih =>
    intro ps is st hlen hle hl hr
    cases ps with
    | nil => simp at hlen
    | cons p ps =>
      cases is with
      | nil => simp at hle
      | cons i is =>
        simp only [List.length_cons] at hlen hle hl hr
        simp only [partition_loop, partition_step_eq, List.zip_cons_cons]
        by_cases hg : goes_left split midpoint (c, p, i) = true
        · have hg3 := goes_left_not_right hg
          have hnext := ih ps is (st.to_left p i) (by omega) (by omega)
            (by simp [Partition.to_left]; omega) (by simp [Partition.to_left]; omega)
          simp only [hg, hg3, if_true, List.filter_cons_of_pos, Bool.false_eq_true,
            not_false_eq_true, List.filter_cons_of_neg]
          obtain ⟨h1, h2, h3, h4, h5, h6⟩ := hnext
          refine ⟨?_, ?_, ?_, ?_, ?_, ?_⟩
          · rw [h1]; simp [Partition.to_left]
          · rw [h2]; simp [Partition.to_left]
          · rw [h3]; simp [Partition.to_left]; omega
          · rw [h4]; simp [Partition.to_left]
          · rw [h5]
            simp only [Partition.to_left]
            rw [take_set_succ _ _ _ (by omega)]
            simp
          · rw [h6]; simp [Partition.to_left]
        · have hg2 : goes_left split midpoint (c, p, i) = false := by simpa using hg
          by_cases hgr : goes_right split midpoint (c, p, i) = true
          · have hnext := ih ps is (st.to_right p i) (by omega) (by omega)
              (by simp [Partition.to_right]; omega) (by simp [Partition.to_right]; omega)
            simp only [hg2, hgr, Bool.false_eq_true, if_false, if_true, not_false_eq_true,
              List.filter_cons_of_neg, List.filter_cons_of_pos]
            obtain ⟨h1, h2, h3, h4, h5, h6⟩ := hnext
            refine ⟨?_, ?_, ?_, ?_, ?_, ?_⟩
            · rw [h1]; simp [Partition.to_right]
            · rw [h2]; simp [Partition.to_right]
            · rw [h3]; simp [Partition.to_right]
            · rw [h4]; simp [Partition.to_right]; omega
            · rw [h5]; simp [Partition.to_right]
            · rw [h6]
              simp only [Partition.to_right]
              rw [take_set_succ _ _ _ (by omega)]
              simp
          · have hgr2 : goes_right split midpoint (c, p, i) = false := by simpa using hgr
            have hnext := ih ps is st (by omega) (by omega) (by omega) (by omega)
            simp only [hg2, hgr2, Bool.false_eq_true, if_false, not_false_eq_true,
              List.filter_cons_of_neg]
            exact hnext

theorem fill_centroids_length (pool : List GLtriangle) :
    ∀ (prims : List Primitive) (cs : List GLvec3),
      fill_centroids pool prims = .ok cs → cs.length = prims.length := by
  intro prims
  induction prims with
  | nil => intro cs h; simp [fill_centroids] at h; simp [← h]
  | cons p ps ih =>
    intro cs h
    simp only [fill_centroids] at h
    split at h
    · cases h
    · split at h
      · cases h
      · rename_i cs2 hcs
        cases h
        simp [ih _ hcs]

theorem split_selection_ok {pool : List GLtriangle} {prims : List Primitive}
    {cs : List GLvec3} {mid : GLvec3} {split : SplitPlane}
    (h : split_selection pool prims = .ok (cs, mid, split)) :
    fill_centroids pool prims = .ok cs ∧ mid = calc_midpoint cs ∧
      choose_split (fill_variation ⟨0, 0, 0⟩ cs) = .ok split := by
  simp only [split_selection] at h
  split at h
  · cases h
  · rename_i cs2 hcs
    split at h
    · cases h
    · rename_i s2 hs
      cases h
      exact ⟨hcs, rfl, hs⟩

theorem entries_length {cs : List GLvec3} {ps : List Primitive} {is : List Int}
    (h1 : cs.length = ps.length) (h2 : ps.length ≤ is.length) :
    (entries cs ps is).length = ps.length := by
  simp [entries, List.length_zip]; omega

theorem entries_map_fst {cs : List GLvec3} {ps : List Primitive} {is : List Int}
    (h1 : cs.length = ps.length) (h2 : ps.length ≤ is.length) :
    (entries cs ps is).map (·.1) = cs := by
  unfold entries
  apply List.map_fst_zip
  simp [List.length_zip]; omega

theorem entries_map_snd {cs : List GLvec3} {ps : List Primitive} {is : List Int}
    (h1 : cs.length = ps.length) :
    (entries cs ps is).map (·.2) = List.zip ps is := by
  unfold entries
  apply List.map_snd_zip
  simp [List.length_zip]; omega

theorem entries_map_primitive {cs : List GLvec3} {ps : List Primitive} {is : List Int}
    (h1 : cs.length = ps.length) (h2 : ps.length ≤ is.length) :
    (entries cs ps is).map (·.2.1) = ps := by
  have h3 : ((entries cs ps is).map (·.2)).map (·.1) = ps := by
    rw [entries_map_snd h1]; exact List.map_fst_zip _ _ h2
  rw [List.map_map] at h3
  exact h3

theorem partition_spec (split : SplitPlane) (midpoint : GLvec3) (cs : List GLvec3)
    (ps : List Primitive) (is : List Int) (h1 : cs.length = ps.length)
    (h2 : ps.length ≤ is.length) :
    let r := partition split midpoint cs ps is
    let T := entries cs ps is
    r.slice_left = (T.filter (goes_left split midpoint)).map (·.2.1) ∧
    r.slice_right = (T.filter (goes_right split midpoint)).map (·.2.1) ∧
    r.new_indices_l.take r.slice_left.length = (T.filter (goes_left split midpoint)).map (·.2.2) ∧
    r.new_indices_r.take r.slice_right.length =
      (T.filter (goes_right split midpoint)).map (·.2.2) := by
  have h := partition_loop_spec split midpoint cs ps is
    ⟨[], [], is.take ps.length, is.take ps.length, 0, 0⟩ h1 h2
    (by simp [List.length_take]; omega) (by simp [List.length_take]; omega)
  simp only [List.nil_append, Nat.zero_add, List.take_zero] at h
  obtain ⟨e1, e2, e3, e4, e5, e6⟩ := h
  simp only [partition, entries]
  refine ⟨e1, e2, ?_, ?_⟩
  · rw [e1, List.length_map, ← e3]; exact e5
  · rw [e2, List.length_map, ← e4]; exact e6

/-- With a midpoint coordinate that is NaN on the split axis no primitive passes either
test: both slices stay empty. -/
theorem partition_nan {split : SplitPlane} {mid : GLvec3} {cs : List GLvec3}
    {ps : List Primitive} {is : List Int} (h1 : cs.length = ps.length)
    (h2 : ps.length ≤ is.length) (hnan : component split mid = .nan) :
    (partition split mid cs ps is).slice_left = [] ∧
    (partition split mid cs ps is).slice_right = [] := by
  obtain ⟨e1, e2, -, -⟩ := partition_spec split mid cs ps is h1 h2
  have hl : (entries cs ps is).filter (goes_left split mid) = [] := by
    rw [List.filter_eq_nil_iff]
    intro t _
    simp [(goes_nowhere hnan t).1]
  have hr : (entries cs ps is).filter (goes_right split mid) = [] := by
    rw [List.filter_eq_nil_iff]
    intro t _
    simp [(goes_nowhere hnan t).2]
  rw [e1, e2, hl, hr]
  exact ⟨rfl, rfl⟩

/-- With a midpoint coordinate on the split axis that is a number, every primitive passes
exactly one of the two tests: the right slice holds the primitives that the left slice does
not. -/
theorem partition_number {split : SplitPlane} {cs : List GLvec3}
    {ps : List Primitive} {is : List Int} (h1 : cs.length = ps.length)
    (h2 : ps.length ≤ is.length) (hm : component split (calc_midpoint cs) ≠ .nan) :
    (entries cs ps is).filter (goes_right split (calc_midpoint cs)) =
      (entries cs ps is).filter (fun t => !goes_left split (calc_midpoint cs) t) := by
  apply List.filter_congr
  intro t ht
  apply goes_right_iff hm
  apply midpoint_component_ne_nan hm
  rw [← entries_map_fst h1 h2]
  exact List.mem_map_of_mem _ ht

/-- What a successful call of `build_bvh` has done: either the leaf branch, or the inner
branch, where each child is `NULL` for an empty slice and the tree that the recursive call
returned otherwise. -/
theorem build_bvh_inv {pool : List GLtriangle} {fuel : Nat} {prims : List Primitive}
    {idx : List Int} {t : BVHTreeNode} (h : build_bvh pool (fuel + 1) prims idx = .ok t) :
    ∃ bbox, get_bbox pool prims prims.length = .ok bbox ∧
      ((prims.length = 1 ∧ ∃ i, idx[0]? = some i ∧ t = .node ⟨i, -1, bbox⟩ .null .null) ∨
       (2 ≤ prims.length ∧ prims.length ≤ idx.length ∧
          ∃ cs mid split l r, split_selection pool prims = .ok (cs, mid, split) ∧
            (if (partition split mid cs prims idx).slice_left.length ≠ 0 then
              build_bvh pool fuel (partition split mid cs prims idx).slice_left
                (partition split mid cs prims idx).new_indices_l
             else .ok .null) = .ok l ∧
            (if (partition split mid cs prims idx).slice_right.length ≠ 0 then
              build_bvh pool fuel (partition split mid cs prims idx).slice_right
                (partition split mid cs prims idx).new_indices_r
             else .ok .null) = .ok r ∧
            t = .node ⟨-1, -1, bbox⟩ l r)) := by
  simp only [build_bvh] at h
  split_ifs at h with h0 h1
  · split at h
    · cases h
    · rename_i bbox hb
      refine ⟨bbox, hb, Or.inl ⟨h1, ?_⟩⟩
      simp only [index] at h
      split at h
      · cases h
      · rename_i i hi
        split at hi
        · rename_i a ha
          cases hi; cases h
          exact ⟨_, ha, rfl⟩
        · cases hi
  · split at h
    · cases h
    · split at h <;> cases h
  · rename_i hlen
    split at h
    · cases h
    · rename_i bbox hb
      refine ⟨bbox, hb, Or.inr ⟨by omega, ?_⟩⟩
      split at h
      · cases h
      · rename_i cs mid split hs
        have hle : prims.length ≤ idx.length := by omega
        refine ⟨hle, cs, mid, split, ?_⟩
        split at h
        · cases h
        · rename_i l hbl
          split at h
          · cases h
          · rename_i r hbr
            cases h
            exact ⟨l, r, hs, hbl, hbr, rfl⟩

theorem build_bvh_fuel_pos {pool : List GLtriangle} {fuel : Nat} {prims : List Primitive}
    {idx : List Int} {t : BVHTreeNode} (h : build_bvh pool fuel prims idx = .ok t) :
    ∃ k, fuel = k + 1 := by
  cases fuel with
  | zero => simp [build_bvh] at h
  | succ fuel => exact ⟨fuel, rfl⟩

theorem build_bvh_ne_null {pool : List GLtriangle} {fuel : Nat} {prims : List Primitive}
    {idx : List Int} {t : BVHTreeNode} (h : build_bvh pool fuel prims idx = .ok t) :
    t ≠ .null := by
  obtain ⟨k, rfl⟩ := build_bvh_fuel_pos h
  obtain ⟨bbox, -, h1 | h2⟩ := build_bvh_inv h
  · obtain ⟨-, i, -, rfl⟩ := h1; simp
  · obtain ⟨-, -, cs, mid, split, l, r, -, -, -, rfl⟩ := h2; simp

theorem filter_eq_self_of_all {α : Type} (p : α → Bool) (l : List α) (h : ∀ a ∈ l, p a = true) :
    l.filter p = l := List.filter_eq_self.mpr h

/-- A set of two or more primitives all of which pass the same test of the partition loop
is handed on whole to a recursive call, which meets the same set again: the call never
returns. -/
theorem build_bvh_one_sided (pool : List GLtriangle) (prims : List Primitive)
    (cs : List GLvec3) (mid : GLvec3) (split : SplitPlane) (h2 : 2 ≤ prims.length)
    (hs : split_selection pool prims = .ok (cs, mid, split))
    (hside : (∀ c ∈ cs, component split c < component split mid) ∨
      (∀ c ∈ cs, component split c ≥ component split mid)) :
    ∀ (fuel : Nat) (idx : List Int) (t : BVHTreeNode),
      build_bvh pool fuel prims idx ≠ .ok t := by
  have hcs := fill_centroids_length pool prims cs (split_selection_ok hs).1
  intro fuel
  induction fuel with
  | zero => intro idx t h; simp [build_bvh] at h
  | succ fuel ih =>
    intro idx t h
    obtain ⟨bbox, -, h1 | h3⟩ := build_bvh_inv h
    · omega
    · obtain ⟨-, hle, cs2, mid2, split2, l, r, hs2, hl, hr, -⟩ := h3
      rw [hs] at hs2
      cases hs2
      obtain ⟨e1, e2, -, -⟩ := partition_spec split mid cs prims idx hcs hle
      have hfst : ∀ t ∈ entries cs prims idx, t.1 ∈ cs := by
        intro t ht
        rw [← entries_map_fst hcs hle]
        exact List.mem_map_of_mem _ ht
      rcases hside with hall | hall
      · have hfil : (entries cs prims idx).filter (goes_left split mid) = entries cs prims idx :=
          filter_eq_self_of_all _ _ (fun t ht => by
            simpa [goes_left] using hall _ (hfst t ht))
        rw [hfil, entries_map_primitive hcs hle] at e1
        rw [e1, if_pos (by omega)] at hl
        exact ih _ _ hl
      · have hfil : (entries cs prims idx).filter (goes_right split mid) = entries cs prims idx :=
          filter_eq_self_of_all _ _ (fun t ht => by
            simpa [goes_right] using hall _ (hfst t ht))
        rw [hfil, entries_map_primitive hcs hle] at e2
        rw [e2, if_pos (by omega)] at hr
        exact ih _ _ hr

/-- What a successful call of `build_bvh` on two or more primitives has done.  Either the
midpoint is NaN on the split axis, no primitive passed a test of the partition loop, and the
node has no children; or the midpoint is a number on the split axis, every primitive went
to exactly one of the two slices, neither slice is empty, and the children are the trees
that the two recursive calls returned. -/
theorem build_bvh_split {pool : List GLtriangle} {fuel : Nat} {prims : List Primitive}
    {idx : List Int} {t : BVHTreeNode} (h : build_bvh pool (fuel + 1) prims idx = .ok t)
    (h2 : 2 ≤ prims.length) :
    prims.length ≤ idx.length ∧
    ∃ bbox cs mid split, get_bbox pool prims prims.length = .ok bbox ∧
      split_selection pool prims = .ok (cs, mid, split) ∧
      ((component split mid = .nan ∧ t = .node ⟨-1, -1, bbox⟩ .null .null) ∨
       (component split mid ≠ .nan ∧
        (entries cs prims idx).filter (goes_right split mid) =
          (entries cs prims idx).filter (fun t => !goes_left split mid t) ∧
        0 < (partition split mid cs prims idx).slice_left.length ∧
        0 < (partition split mid cs prims idx).slice_right.length ∧
        (partition split mid cs prims idx).slice_left.length +
          (partition split mid cs prims idx).slice_right.length = prims.length ∧
        ∃ l r,
          build_bvh pool fuel (partition split mid cs prims idx).slice_left
            (partition split mid cs prims idx).new_indices_l = .ok l ∧
          build_bvh pool fuel (partition split mid cs prims idx).slice_right
            (partition split mid cs prims idx).new_indices_r = .ok r ∧
          t = .node ⟨-1, -1, bbox⟩ l r)) := by
  obtain ⟨bbox, hb, h1 | h3⟩ := build_bvh_inv h
  · omega
  · obtain ⟨-, hle, cs, mid, split, l, r, hs, hl, hr, rfl⟩ := h3
    refine ⟨hle, bbox, cs, mid, split, hb, hs, ?_⟩
    obtain ⟨hfill, hmid, -⟩ := split_selection_ok hs
    have hcs := fill_centroids_length pool prims cs hfill
    by_cases hnan : component split mid = .nan
    · obtain ⟨el, er⟩ := @partition_nan split mid cs prims idx hcs hle hnan
      rw [el] at hl
      rw [er] at hr
      simp only [List.length_nil, ne_eq, not_true_eq_false, if_false] at hl hr
      cases hl; cases hr
      exact Or.inl ⟨hnan, rfl⟩
    · right
      subst hmid
      have hnum := @partition_number split cs prims idx hcs hle hnan
      obtain ⟨e1, e2, -, -⟩ := partition_spec split (calc_midpoint cs) cs prims idx hcs hle
      have hcomp := midpoint_component_ne_nan hnan
      have hperm := List.filter_append_perm (goes_left split (calc_midpoint cs))
        (entries cs prims idx)
      have hsum := hperm.length_eq
      rw [List.length_append, entries_length hcs hle] at hsum
      have hlen1 : (partition split (calc_midpoint cs) cs prims idx).slice_left.length =
          ((entries cs prims idx).filter (goes_left split (calc_midpoint cs))).length := by
        rw [e1, List.length_map]
      have hlen2 : (partition split (calc_midpoint cs) cs prims idx).slice_right.length =
          ((entries cs prims idx).filter
            (fun t => !goes_left split (calc_midpoint cs) t)).length := by
        rw [e2, List.length_map, hnum]
      have hfst : ∀ c ∈ cs, ∃ t ∈ entries cs prims idx, t.1 = c := by
        intro c hc
        rw [← entries_map_fst hcs hle, List.mem_map] at hc
        exact hc
      have hposl : 0 < (partition split (calc_midpoint cs) cs prims idx).slice_left.length := by
        by_contra hzero
        have hz : ((entries cs prims idx).filter
            (goes_left split (calc_midpoint cs))).length = 0 := by omega
        have hnil := List.length_eq_zero.mp hz
        rw [List.filter_eq_nil_iff] at hnil
        refine build_bvh_one_sided pool prims cs _ split h2 hs (Or.inr ?_) _ _ _ h
        intro c hc
        obtain ⟨t, ht, rfl⟩ := hfst c hc
        have := hnil t ht
        simp only [goes_left, decide_eq_true_eq] at this
        exact float_le_of_not_lt hnan (hcomp _ hc) this
      have hposr : 0 < (partition split (calc_midpoint cs) cs prims idx).slice_right.length := by
        by_contra hzero
        have hz : ((entries cs prims idx).filter
            (fun t => !goes_left split (calc_midpoint cs) t)).length = 0 := by omega
        have hnil := List.length_eq_zero.mp hz
        rw [List.filter_eq_nil_iff] at hnil
        refine build_bvh_one_sided pool prims cs _ split h2 hs (Or.inl ?_) _ _ _ h
        intro c hc
        obtain ⟨t, ht, rfl⟩ := hfst c hc
        have := hnil t ht
        simpa [goes_left] using this
      rw [if_pos (by omega)] at hl hr
      exact ⟨hnan, hnum, hposl, hposr, by omega, l, r, hl, hr, rfl⟩

theorem is_leaf_false_of_left {l r : BVHTreeNode} (h : l ≠ .null) : is_leaf l r = false := by
  simp [is_leaf, h]

theorem zip_take_left {α β : Type} (a : List α) (b : List β) :
    List.zip a b = List.zip a (b.take a.length) := by
  induction a generalizing b with
  | nil => simp
  | cons x a ih =>
    cases b with
    | nil => simp
    | cons y b => simp [List.zip_cons_cons, ih b]

theorem forall2_merge {α β γ : Type} (R : α → γ → Prop) (f : β → γ) (g : β → Bool) :
    ∀ (T : List β) (A B : List α),
      List.Forall₂ R A ((T.filter g).map f) →
      List.Forall₂ R B ((T.filter (fun t => !g t)).map f) →
      ∃ C, List.Perm C (A ++ B) ∧ List.Forall₂ R C (T.map f) := by
  intro T
  induction T with
  | nil =>
    intro A B hA hB
    simp at hA hB
    subst hA; subst hB
    exact ⟨[], by simp, by simp⟩
  | cons x T ih =>
    intro A B hA hB
    by_cases hg : g x = true
    · simp only [hg, List.filter_cons_of_pos, List.map_cons, Bool.not_true, Bool.false_eq_true,
        not_false_eq_true, List.filter_cons_of_neg] at hA hB
      cases hA with
      | cons ha hA' =>
        rename_i a A'
        obtain ⟨C, hperm, hC⟩ := ih A' B hA' hB
        exact ⟨a :: C, by simpa using hperm, List.Forall₂.cons ha hC⟩
    · have hg2 : g x = false := by simpa using hg
      simp only [hg2, Bool.false_eq_true, not_false_eq_true, List.filter_cons_of_neg,
        Bool.not_false, List.filter_cons_of_pos, List.map_cons] at hA hB
      cases hB with
      | cons hb hB' =>
        rename_i b B'
        obtain ⟨C, hperm, hC⟩ := ih A B' hA hB'
        refine ⟨b :: C, ?_, List.Forall₂.cons hb hC⟩
        exact (List.Perm.cons b hperm).trans (List.perm_middle.symm)

theorem partition_zip_left {split : SplitPlane} {mid : GLvec3} {cs : List GLvec3}
    {ps : List Primitive} {is : List Int} (h1 : cs.length = ps.length)
    (h2 : ps.length ≤ is.length) :
    List.zip (partition split mid cs ps is).slice_left (partition split mid cs ps is).new_indices_l
      = ((entries cs ps is).filter (goes_left split mid)).map (·.2) := by
  obtain ⟨e1, -, e3, -⟩ := partition_spec split mid cs ps is h1 h2
  rw [zip_take_left, e3, e1, List.zip_map']

theorem partition_zip_right {split : SplitPlane} {mid : GLvec3} {cs : List GLvec3}
    {ps : List Primitive} {is : List Int} (h1 : cs.length = ps.length)
    (h2 : ps.length ≤ is.length) :
    List.zip (partition split mid cs ps is).slice_right
        (partition split mid cs ps is).new_indices_r
      = ((entries cs ps is).filter (goes_right split mid)).map (·.2) := by
  obtain ⟨-, e2, -, e4⟩ := partition_spec split mid cs ps is h1 h2
  rw [zip_take_left, e4, e2, List.zip_map']

/-- A tree returned by `build_bvh` has at most as many leaves as there are primitives. -/
theorem build_bvh_leaves_le (pool : List GLtriangle) :
    ∀ (fuel : Nat) (prims : List Primitive) (idx : List Int) (t : BVHTreeNode),
      build_bvh pool fuel prims idx = .ok t → (leaves t).length ≤ prims.length := by
  intro fuel
  induction fuel with
  | zero => intro prims idx t h; simp [build_bvh] at h
  | succ fuel ih =>
    intro prims idx t h
    obtain ⟨bbox, hb, h1 | h3⟩ := build_bvh_inv h
    · obtain ⟨hlen, i, hi, rfl⟩ := h1
      simp [leaves, is_leaf, hlen]
    · obtain ⟨h2, -, -⟩ := h3
      obtain ⟨hle, bbox2, cs, mid, split, -, hs, hcase⟩ := build_bvh_split h h2
      rcases hcase with ⟨-, rfl⟩ | ⟨-, -, -, -, hsum, l, r, hl, hr, rfl⟩
      · simp only [leaves, is_leaf, decide_True, Bool.and_self, if_true, List.length_singleton]
        omega
      · have e1 := ih _ _ _ hl
        have e2 := ih _ _ _ hr
        simp only [leaves, is_leaf_false_of_left (build_bvh_ne_null hl), Bool.false_eq_true,
          if_false, List.length_append]
        omega

/-- The leaves of a tree that `build_bvh` returns with as many leaves as there are
primitives are, up to their order, the entries of `primitives` paired with `indices`. -/
theorem build_bvh_leaves (pool : List GLtriangle) :
    ∀ (fuel : Nat) (prims : List Primitive) (idx : List Int) (t : BVHTreeNode),
      build_bvh pool fuel prims idx = .ok t → (leaves t).length = prims.length →
      ∃ ds, List.Perm ds (leaves t) ∧ List.Forall₂ (leaf_of pool) ds (List.zip prims idx) := by
  intro fuel
  induction fuel with
  | zero => intro prims idx t h; simp [build_bvh] at h
  | succ fuel ih =>
    intro prims idx t h hcount
    obtain ⟨bbox, hb, h1 | h3⟩ := build_bvh_inv h
    · obtain ⟨hlen, i, hi, rfl⟩ := h1
      obtain ⟨p, rfl⟩ := List.length_eq_one.mp hlen
      cases idx with
      | nil => simp at hi
      | cons j js =>
        simp at hi
        subst hi
        refine ⟨[⟨j, -1, bbox⟩], by simp [leaves, is_leaf], ?_⟩
        simp only [List.zip_cons_cons, List.zip_nil_left]
        refine List.Forall₂.cons ⟨rfl, ?_⟩ List.Forall₂.nil
        simpa using hb
    · obtain ⟨h2, -, -⟩ := h3
      obtain ⟨hle, bbox2, cs, mid, split, -, hs, hcase⟩ := build_bvh_split h h2
      rcases hcase with ⟨-, rfl⟩ | ⟨-, hnum, -, -, hsum, l, r, hl, hr, rfl⟩
      · simp only [leaves, is_leaf, decide_True, Bool.and_self, if_true,
          List.length_singleton] at hcount
        omega
      · have hcs := fill_centroids_length pool prims cs (split_selection_ok hs).1
        have b1 := build_bvh_leaves_le pool _ _ _ _ hl
        have b2 := build_bvh_leaves_le pool _ _ _ _ hr
        simp only [leaves, is_leaf_false_of_left (build_bvh_ne_null hl), Bool.false_eq_true,
          if_false, List.length_append] at hcount
        obtain ⟨dl, hpl, hfl⟩ := ih _ _ _ hl (by omega)
        obtain ⟨dr, hpr, hfr⟩ := ih _ _ _ hr (by omega)
        rw [partition_zip_left hcs hle] at hfl
        rw [partition_zip_right hcs hle, hnum] at hfr
        obtain ⟨C, hperm, hC⟩ := forall2_merge (leaf_of pool) (·.2) (goes_left split mid)
          (entries cs prims idx) dl dr hfl hfr
        rw [entries_map_snd hcs] at hC
        refine ⟨C, ?_, hC⟩
        simp only [leaves, is_leaf_false_of_left (build_bvh_ne_null hl), Bool.false_eq_true,
          if_false]
        exact hperm.trans (List.Perm.append hpl hpr)

theorem index_error {α : Type} {s : List α} {i : Nat} {e : Err} (h : index s i = .error e) :
    e = .outOfBounds := by
  simp only [index] at h
  split at h <;> cases h
  rfl

theorem index_ok {α : Type} {s : List α} {i : Nat} {a : α} (h : index s i = .ok a) :
    s[i]? = some a := by
  simp only [index] at h
  split at h
  · rename_i b hb; cases h; exact hb
  · cases h

theorem indexInt_error {α : Type} {s : List α} {i : Int} {e : Err}
    (h : indexInt s i = .error e) : e = .outOfBounds := by
  simp only [indexInt] at h
  split_ifs at h
  · cases h; rfl
  · exact index_error h

theorem indexInt_ok {α : Type} {s : List α} {i : Int} {a : α} (h : indexInt s i = .ok a) :
    0 ≤ i ∧ s[i.toNat]? = some a := by
  simp only [indexInt] at h
  split_ifs at h with hi
  exact ⟨not_lt.mp hi, index_ok h⟩

theorem bbox_triangles_error (pool : List GLtriangle) :
    ∀ (is : List Nat) (b : AABB) (e : Err), bbox_triangles pool is b = .error e →
      e = .outOfBounds := by
  intro is
  induction is with
  | nil => intro b e h; cases h
  | cons i is ih =>
    intro b e h
    simp only [bbox_triangles] at h
    split at h
    · exact ih _ _ h
    · rename_i e2 he; cases h; exact index_error he

theorem bbox_primitives_error (pool : List GLtriangle) :
    ∀ (n : Nat) (prims : List Primitive) (b : AABB) (e : Err),
      bbox_primitives pool n prims b = .error e → e = .outOfBounds := by
  intro n
  induction n with
  | zero => intro prims b e h; cases h
  | succ n ih =>
    intro prims b e h
    cases prims with
    | nil => cases h; rfl
    | cons p ps =>
      simp only [bbox_primitives] at h
      split_ifs at h
      split at h
      · exact ih _ _ _ h
      · rename_i e2 he; cases h; exact bbox_triangles_error pool _ _ _ he

theorem get_bbox_error {pool : List GLtriangle} {prims : List Primitive} {count : Int}
    {e : Err} (h : get_bbox pool prims count = .error e) :
    e = .emptyRange ∨ e = .outOfBounds := by
  simp only [get_bbox] at h
  split_ifs at h
  · split at h
    · rename_i e2 he; cases h; exact Or.inr (index_error he)
    · split at h
      · rename_i e2 he; cases h; exact Or.inr (indexInt_error he)
      · exact Or.inr (bbox_primitives_error pool _ _ _ _ h)
  · cases h; exact Or.inl rfl

theorem fill_centroids_error (pool : List GLtriangle) :
    ∀ (prims : List Primitive) (e : Err), fill_centroids pool prims = .error e →
      e = .emptyRange ∨ e = .outOfBounds := by
  intro prims
  induction prims with
  | nil => intro e h; cases h
  | cons q qs ih =>
    intro e h
    simp only [fill_centroids] at h
    split at h
    · rename_i e2 he; cases h; exact get_bbox_error he
    · split at h
      · rename_i e2 he; cases h; exact ih _ he
      · cases h

theorem split_selection_error {pool : List GLtriangle} {prims : List Primitive} {e : Err}
    (h : split_selection pool prims = .error e) : e ≠ .fuel := by
  simp only [split_selection] at h
  split at h
  · rename_i e2 he
    cases h
    rcases fill_centroids_error pool _ _ he with rfl | rfl <;> simp
  · split at h
    · rename_i e2 he
      cases h
      rw [choose_split_error_kind _ _ he]; simp
    · cases h

/-- C8 (as amended): for a range of `count > 0` primitives that all have a non-negative
offset and at least one triangle, all inside the triangle pool, `get_bbox` returns a box,
and when no coordinate of a vertex of the range is NaN the minima and maxima of the box are
the minima and maxima of the coordinates of the vertices `p0, p1, p2` of all triangles of
all primitives of the range; with `count <= 0` it stops at its assertion. -/
theorem get_bbox_extent (pool : List GLtriangle) (primitives : List Primitive) (count : Int) :
    (0 < count → count ≤ (primitives.length : Int) →
      (∀ p ∈ primitives.take count.toNat, p.valid pool) →
      ∃ b, get_bbox pool primitives count = .ok b ∧
        ((∀ v ∈ vertices pool (primitives.take count.toNat), v.is_number) →
          is_extent b (vertices pool (primitives.take count.toNat)))) ∧
    (count ≤ 0 → get_bbox pool primitives count = .error .emptyRange) :=
  ⟨get_bbox_ok pool primitives count, get_bbox_nonpositive pool primitives count⟩

theorem get_bbox_extent_witness :
    (0 < (2 : Int) ∧ (2 : Int) ≤ (sample_primitives.length : Int) ∧
      (∀ p ∈ sample_primitives.take (2 : Int).toNat, p.valid sample_pool) ∧
      ∀ v ∈ vertices sample_pool (sample_primitives.take (2 : Int).toNat), v.is_number) ∧
    get_bbox sample_pool sample_primitives 2 = .ok ⟨-1, 11, 0, 2, 0, 5⟩ ∧
    ∃ b, get_bbox sample_pool sample_primitives 2 = .ok b ∧
      ((∀ v ∈ vertices sample_pool (sample_primitives.take (2 : Int).toNat), v.is_number) →
        is_extent b (vertices sample_pool (sample_primitives.take (2 : Int).toNat))) :=
  ⟨⟨by decide, by decide, by decide, by decide!⟩, by decide!,
   (get_bbox_extent sample_pool sample_primitives 2).1 (by decide) (by decide) (by decide)⟩

/-- C8 as stated fails.  The one primitive over `nan_pool` has a non-negative offset and one
triangle inside the pool, and the first corner of the triangle has `x = NaN`: `get_bbox`
takes its first bounds from that corner, no comparison with NaN holds, and the box has
`xmin = xmax = NaN`, which is neither the minimum nor the maximum of the coordinates. -/
theorem get_bbox_extent_counterexample :
    (0 < (1 : Int) ∧ (1 : Int) ≤ (([⟨0, 1, 0⟩] : List Primitive).length : Int) ∧
      ∀ p ∈ ([⟨0, 1, 0⟩] : List Primitive).take (1 : Int).toNat, p.valid nan_pool) ∧
    get_bbox nan_pool [⟨0, 1, 0⟩] 1 = .ok ⟨.nan, .nan, 0, 2, 0, 5⟩ ∧
    ¬ is_extent ⟨.nan, .nan, 0, 2, 0, 5⟩
        (vertices nan_pool (([⟨0, 1, 0⟩] : List Primitive).take (1 : Int).toNat)) ∧
    ¬ ∃ b, get_bbox nan_pool [⟨0, 1, 0⟩] 1 = .ok b ∧
        is_extent b (vertices nan_pool (([⟨0, 1, 0⟩] : List Primitive).take (1 : Int).toNat)) := by
  have hbox : get_bbox nan_pool [⟨0, 1, 0⟩] 1 = .ok ⟨.nan, .nan, 0, 2, 0, 5⟩ := by decide!
  have hext : ¬ is_extent ⟨.nan, .nan, 0, 2, 0, 5⟩
      (vertices nan_pool (([⟨0, 1, 0⟩] : List Primitive).take (1 : Int).toNat)) := by
    intro h
    exact is_min_of_ne_nan h.1 rfl
  refine ⟨⟨by decide, by decide, by decide⟩, hbox, hext, ?_⟩
  rintro ⟨b, hb, he⟩
  rw [hbox] at hb
  cases hb
  exact hext he

theorem float_zero_def : (0 : float) = .fin 0 := by
  show float.fin ((0 : Nat) : ℚ) = .fin 0
  simp

/-- On the two points of `close_pool` the sum of the centroids, `33554434`, is rounded to
`33554432`; the midpoint on `x` is the smaller centroid; no centroid is below it; the left
slice is empty and the right slice is the whole set, with the same indices. -/
theorem close_pool_partition :
    get_bbox close_pool two_primitives (two_primitives.length : Int) =
      .ok ⟨16777216, 16777218, 0, 0, 0, 0⟩ ∧
    split_selection close_pool two_primitives =
      .ok ([⟨16777216, 0, 0⟩, ⟨16777218, 0, 0⟩], ⟨16777216, 0, 0⟩, .X) ∧
    partition .X ⟨16777216, 0, 0⟩ [⟨16777216, 0, 0⟩, ⟨16777218, 0, 0⟩] two_primitives [0, 1] =
      ⟨[], two_primitives, [0, 1], [0, 1], 0, 2⟩ := by
  refine ⟨by decide!, by decide!, by decide!⟩

/-- The call of `build_bvh` on the two points of `close_pool` exhausts every budget. -/
theorem close_pool_loops :
    ∀ fuel : Nat, build_bvh close_pool fuel two_primitives [0, 1] = .error .fuel := by
  obtain ⟨hbox, hsel, hpart⟩ := close_pool_partition
  intro fuel
  induction fuel with
  | zero => rfl
  | succ fuel ih =>
    rw [build_bvh, hbox, hsel]
    simp only [hpart]
    rw [ih]
    simp [two_primitives]

/-- C10 (a defect of the code, not of the claim): `build_bvh` has no test of the sizes of
the two slices, and the midpoint is computed in `float`.  For the two point primitives at
`x = 16777216` and `x = 16777218` the split selection succeeds, the rounded midpoint is
`16777216`, no centroid is below it, and the right slice is the whole set: the recursive
call is made on the same two primitives with the same indices.  The call returns no tree
and stops at no assertion, whatever the budget. -/
theorem build_bvh_unbounded_recursion :
    two_primitives ≠ [] ∧
    split_selection close_pool two_primitives =
      .ok ([⟨16777216, 0, 0⟩, ⟨16777218, 0, 0⟩], ⟨16777216, 0, 0⟩, .X) ∧
    (partition .X ⟨16777216, 0, 0⟩ [⟨16777216, 0, 0⟩, ⟨16777218, 0, 0⟩]
      two_primitives [0, 1]).slice_left = [] ∧
    (partition .X ⟨16777216, 0, 0⟩ [⟨16777216, 0, 0⟩, ⟨16777218, 0, 0⟩]
      two_primitives [0, 1]).slice_right = two_primitives ∧
    (partition .X ⟨16777216, 0, 0⟩ [⟨16777216, 0, 0⟩, ⟨16777218, 0, 0⟩]
      two_primitives [0, 1]).new_indices_r = [0, 1] ∧
    (∀ fuel : Nat, build_bvh close_pool fuel two_primitives [0, 1] = .error .fuel) ∧
    (∀ (fuel : Nat) (indices : List Int) (t : BVHTreeNode),
      build_bvh close_pool fuel two_primitives indices ≠ .ok t) := by
  obtain ⟨hbox, hsel, hpart⟩ := close_pool_partition
  refine ⟨by decide, hsel, by rw [hpart], by rw [hpart], by rw [hpart], close_pool_loops, ?_⟩
  intro fuel indices t
  refine build_bvh_one_sided close_pool two_primitives _ _ _ (by decide) hsel (Or.inr ?_) _ _ _
  decide!

theorem forall2_mem_left {α β : Type} {R : α → β → Prop} :
    ∀ {A : List α} {B : List β}, List.Forall₂ R A B → ∀ a ∈ A, ∃ b ∈ B, R a b := by
  intro A B h
  induction h with
  | nil => intro a ha; cases ha
  | cons hab _ ih =>
    intro a ha
    rcases List.mem_cons.mp ha with rfl | ha
    · exact ⟨_, List.mem_cons_self _ _, hab⟩
    · obtain ⟨b, hb, hr⟩ := ih a ha
      exact ⟨b, List.mem_cons_of_mem _ hb, hr⟩

theorem map_snd_zip_take {α β : Type} (a : List α) (b : List β) :
    (List.zip a b).map (·.2) = b.take a.length := by
  rw [zip_take_left]
  apply List.map_snd_zip
  simp [List.length_take]

theorem identity_indices_length (n : Nat) : (identity_indices n).length = n := by
  simp [identity_indices]

/-- What `build_bvh` does on the two primitives of `apart_pool`: both centroids overflow,
to `+inf` and to `-inf`; their sum, and with it the midpoint on `x`, is NaN; the variation
on `x` is `+inf`, so `x` is the split axis; no primitive passes a test of the partition
loop; and the call returns a node with the payload `-1` and no children. -/
theorem apart_pool_build :
    fill_centroids apart_pool two_primitives = .ok [⟨.pinf, 0, 0⟩, ⟨.ninf, 0, 0⟩] ∧
    split_selection apart_pool two_primitives =
      .ok ([⟨.pinf, 0, 0⟩, ⟨.ninf, 0, 0⟩], ⟨.nan, 0, 0⟩, .X) ∧
    build_bvh apart_pool 1 two_primitives [0, 1] = .ok hollow_tree := by
  refine ⟨by decide!, by decide!, by decide!⟩

theorem partition_indices_subset {split : SplitPlane} {mid : GLvec3} {cs : List GLvec3}
    {prims : List Primitive} {idx : List Int} (hcs : cs.length = prims.length)
    (hle : prims.length ≤ idx.length) :
    (∀ i ∈ (partition split mid cs prims idx).new_indices_l.take
        (partition split mid cs prims idx).slice_left.length, i ∈ idx.take prims.length) ∧
    (∀ i ∈ (partition split mid cs prims idx).new_indices_r.take
        (partition split mid cs prims idx).slice_right.length, i ∈ idx.take prims.length) := by
  obtain ⟨-, -, e3, e4⟩ := partition_spec split mid cs prims idx hcs hle
  have hsub : ∀ i ∈ (entries cs prims idx).map (·.2.2), i ∈ idx.take prims.length := by
    intro i hi
    rw [← map_snd_zip_take, ← entries_map_snd hcs, List.map_map]
    exact hi
  constructor
  · rw [e3]
    intro i hi
    apply hsub
    rw [List.mem_map] at hi ⊢
    obtain ⟨a, ha, rfl⟩ := hi
    exact ⟨a, List.mem_of_mem_filter ha, rfl⟩
  · rw [e4]
    intro i hi
    apply hsub
    rw [List.mem_map] at hi ⊢
    obtain ⟨a, ha, rfl⟩ := hi
    exact ⟨a, List.mem_of_mem_filter ha, rfl⟩

theorem build_bvh_build_shape (pool : List GLtriangle) :
    ∀ (fuel : Nat) (prims : List Primitive) (idx : List Int) (t : BVHTreeNode),
      (∀ i ∈ idx.take prims.length, 0 ≤ i) → build_bvh pool fuel prims idx = .ok t →
      build_shape t := by
  intro fuel
  induction fuel with
  | zero => intro prims idx t _ h; simp [build_bvh] at h
  | succ fuel ih =>
    intro prims idx t hidx h
    obtain ⟨bbox, hb, h1 | h3⟩ := build_bvh_inv h
    · obtain ⟨hlen, i, hi, rfl⟩ := h1
      have hmem : i ∈ idx.take prims.length := by
        rw [hlen]
        cases idx with
        | nil => simp at hi
        | cons j js => simp at hi; simp [hi]
      exact Or.inl ⟨rfl, rfl, hidx i hmem, rfl⟩
    · obtain ⟨h2, -, -⟩ := h3
      obtain ⟨hle, bbox2, cs, mid, split, -, hs, hcase⟩ := build_bvh_split h h2
      rcases hcase with ⟨-, rfl⟩ | ⟨-, -, -, -, -, l, r, hl, hr, rfl⟩
      · exact Or.inr (Or.inl ⟨rfl, rfl, rfl, rfl⟩)
      · have hcs := fill_centroids_length pool prims cs (split_selection_ok hs).1
        obtain ⟨s1, s2⟩ := @partition_indices_subset split mid cs prims idx hcs hle
        exact Or.inr (Or.inr ⟨build_bvh_ne_null hl, build_bvh_ne_null hr, rfl,
          ih _ _ _ (fun i hi => hidx i (s1 i hi)) hl,
          ih _ _ _ (fun i hi => hidx i (s2 i hi)) hr⟩)

theorem build_bvh_well_formed (pool : List GLtriangle) :
    ∀ (fuel : Nat) (prims : List Primitive) (idx : List Int) (t : BVHTreeNode),
      (∀ i ∈ idx.take prims.length, 0 ≤ i) → build_bvh pool fuel prims idx = .ok t →
      (leaves t).length = prims.length → well_formed t := by
  intro fuel
  induction fuel with
  | zero => intro prims idx t _ h; simp [build_bvh] at h
  | succ fuel ih =>
    intro prims idx t hidx h hcount
    obtain ⟨bbox, hb, h1 | h3⟩ := build_bvh_inv h
    · obtain ⟨hlen, i, hi, rfl⟩ := h1
      have hmem : i ∈ idx.take prims.length := by
        rw [hlen]
        cases idx with
        | nil => simp at hi
        | cons j js => simp at hi; simp [hi]
      exact Or.inl ⟨rfl, rfl, hidx i hmem, rfl⟩
    · obtain ⟨h2, -, -⟩ := h3
      obtain ⟨hle, bbox2, cs, mid, split, -, hs, hcase⟩ := build_bvh_split h h2
      rcases hcase with ⟨-, rfl⟩ | ⟨-, -, -, -, hsum, l, r, hl, hr, rfl⟩
      · simp only [leaves, is_leaf, decide_True, Bool.and_self, if_true,
          List.length_singleton] at hcount
        omega
      · have hcs := fill_centroids_length pool prims cs (split_selection_ok hs).1
        obtain ⟨s1, s2⟩ := @partition_indices_subset split mid cs prims idx hcs hle
        have b1 := build_bvh_leaves_le pool _ _ _ _ hl
        have b2 := build_bvh_leaves_le pool _ _ _ _ hr
        simp only [leaves, is_leaf_false_of_left (build_bvh_ne_null hl), Bool.false_eq_true,
          if_false, List.length_append] at hcount
        exact Or.inr ⟨build_bvh_ne_null hl, build_bvh_ne_null hr, rfl,
          ih _ _ _ (fun i hi => hidx i (s1 i hi)) hl (by omega),
          ih _ _ _ (fun i hi => hidx i (s2 i hi)) hr (by omega)⟩

theorem build_shape_no_single_child (t : BVHTreeNode) :
    build_shape t → ¬ has_single_child t := by
  induction t with
  | null => intro h; exact absurd h (by simp [build_shape])
  | node d l r ihl ihr =>
    intro h hs
    simp only [build_shape] at h
    simp only [has_single_child] at hs
    rcases h with ⟨rfl, rfl, -, -⟩ | ⟨rfl, rfl, -, -⟩ | ⟨hl, hr, -, hsl, hsr⟩
    · simp [has_single_child] at hs
    · simp [has_single_child] at hs
    · rcases hs with ⟨h1, -⟩ | ⟨-, h1⟩ | h1 | h1
      · exact hl h1
      · exact hr h1
      · exact ihl hsl h1
      · exact ihr hsr h1

/-- C5 (as amended): when `build_bvh` returns a tree for a non-empty slice and
non-negative indices, every node of the tree is a leaf (no children, payload `>= 0`,
`right_child_offset == -1`), an inner node (payload `-1`, two non-null children) or a node
with the payload `-1` and no children; no node has exactly one child.  For two or more
primitives the tree is a node of the third kind exactly when the midpoint is NaN on the
split axis, and a tree with as many leaves as there are primitives has no node of the third
kind. -/
theorem build_bvh_node_shape (pool : List GLtriangle) (fuel : Nat)
    (primitives : List Primitive) (indices : List Int) (t : BVHTreeNode)
    (hidx : ∀ i ∈ indices, 0 ≤ i)
    (h : build_bvh pool fuel primitives indices = .ok t) :
    build_shape t ∧ ¬ has_single_child t ∧
    (∀ cs mid split, 2 ≤ primitives.length →
      split_selection pool primitives = .ok (cs, mid, split) →
      (component split mid = .nan ↔ ∃ d, t = .node d .null .null)) ∧
    ((leaves t).length = primitives.length → well_formed t) := by
  have hshape := build_bvh_build_shape pool fuel primitives indices t
    (fun i hi => hidx i (List.mem_of_mem_take hi)) h
  refine ⟨hshape, build_shape_no_single_child t hshape, ?_,
    build_bvh_well_formed pool fuel primitives indices t
      (fun i hi => hidx i (List.mem_of_mem_take hi)) h⟩
  intro cs mid split h2 hs
  obtain ⟨k, rfl⟩ := build_bvh_fuel_pos h
  obtain ⟨-, bbox, cs2, mid2, split2, -, hs2, hcase⟩ := build_bvh_split h h2
  rw [hs] at hs2
  cases hs2
  rcases hcase with ⟨hnan, rfl⟩ | ⟨hnum, -, -, -, -, l, r, hl, hr, rfl⟩
  · exact ⟨fun _ => ⟨_, rfl⟩, fun _ => hnan⟩
  · constructor
    · intro hn; exact absurd hn hnum
    · rintro ⟨d, hd⟩
      simp only [BVHTreeNode.node.injEq] at hd
      exact absurd hd.2.1 (build_bvh_ne_null hl)

theorem build_bvh_node_shape_witness :
    ((∀ i ∈ ([0, 1] : List Int), 0 ≤ i) ∧
      build_bvh sample_pool 2 (sample_primitives.take 2) [0, 1] = .ok sample_tree ∧
      (leaves sample_tree).length = (sample_primitives.take 2).length) ∧
    build_shape sample_tree ∧ ¬ has_single_child sample_tree ∧ well_formed sample_tree :=
  ⟨⟨by decide, by decide!, by decide⟩,
   (build_bvh_node_shape sample_pool 2 (sample_primitives.take 2) [0, 1] sample_tree
     (by decide) (by decide!)).1,
   (build_bvh_node_shape sample_pool 2 (sample_primitives.take 2) [0, 1] sample_tree
     (by decide) (by decide!)).2.1,
   (build_bvh_node_shape sample_pool 2 (sample_primitives.take 2) [0, 1] sample_tree
     (by decide) (by decide!)).2.2.2 (by decide)⟩

/-- C5 as stated fails.  For the two point primitives at `x = 3e38` and `x = -3e38`, with
the indices `0, 1`, `build_bvh` returns the tree `hollow_tree`: one node that has no
children and the payload `-1`, which is neither a leaf (payload `>= 0`) nor an inner node
(two children). -/
theorem build_bvh_node_shape_counterexample :
    (∀ i ∈ ([0, 1] : List Int), 0 ≤ i) ∧ two_primitives ≠ [] ∧
    build_bvh apart_pool 1 two_primitives [0, 1] = .ok hollow_tree ∧
    ¬ well_formed hollow_tree := by
  refine ⟨by decide, by decide, apart_pool_build.2.2, ?_⟩
  simp [well_formed, hollow_tree]

/-- Every childless node of a tree returned by `build_bvh` carries the index and the box of
one entry of the slice, or the payload `-1`. -/
theorem build_bvh_leaf_cases (pool : List GLtriangle) :
    ∀ (fuel : Nat) (prims : List Primitive) (idx : List Int) (t : BVHTreeNode),
      build_bvh pool fuel prims idx = .ok t →
      ∀ d ∈ leaves t, (∃ pi ∈ List.zip prims idx, leaf_of pool d pi) ∨
        (d.primitive_offset = -1 ∧ d.right_child_offset = -1) := by
  intro fuel
  induction fuel with
  | zero => intro prims idx t h; simp [build_bvh] at h
  | succ fuel ih =>
    intro prims idx t h d hd
    obtain ⟨bbox, hb, h1 | h3⟩ := build_bvh_inv h
    · obtain ⟨hlen, i, hi, rfl⟩ := h1
      obtain ⟨p, rfl⟩ := List.length_eq_one.mp hlen
      cases idx with
      | nil => simp at hi
      | cons j js =>
        simp at hi
        subst hi
        simp only [leaves, is_leaf, decide_True, Bool.and_self, if_true,
          List.mem_singleton] at hd
        subst hd
        left
        refine ⟨(p, j), by simp, rfl, ?_⟩
        simpa using hb
    · obtain ⟨h2, -, -⟩ := h3
      obtain ⟨hle, bbox2, cs, mid, split, -, hs, hcase⟩ := build_bvh_split h h2
      have hcs := fill_centroids_length pool prims cs (split_selection_ok hs).1
      rcases hcase with ⟨-, rfl⟩ | ⟨-, -, -, -, -, l, r, hl, hr, rfl⟩
      · simp only [leaves, is_leaf, decide_True, Bool.and_self, if_true,
          List.mem_singleton] at hd
        subst hd
        exact Or.inr ⟨rfl, rfl⟩
      · simp only [leaves, is_leaf_false_of_left (build_bvh_ne_null hl), Bool.false_eq_true,
          if_false, List.mem_append] at hd
        have hsub : ∀ (g : GLvec3 × Primitive × Int → Bool),
            ∀ pi ∈ ((entries cs prims idx).filter g).map (·.2), pi ∈ List.zip prims idx := by
          intro g pi hpi
          rw [← entries_map_snd hcs]
          rw [List.mem_map] at hpi ⊢
          obtain ⟨a, ha, rfl⟩ := hpi
          exact ⟨a, List.mem_of_mem_filter ha, rfl⟩
        rcases hd with hd | hd
        · rcases ih _ _ _ hl d hd with ⟨pi, hpi, hleaf⟩ | hh
          · rw [partition_zip_left hcs hle] at hpi
            exact Or.inl ⟨pi, hsub _ pi hpi, hleaf⟩
          · exact Or.inr hh
        · rcases ih _ _ _ hr d hd with ⟨pi, hpi, hleaf⟩ | hh
          · rw [partition_zip_right hcs hle] at hpi
            exact Or.inl ⟨pi, hsub _ pi hpi, hleaf⟩
          · exact Or.inr hh

theorem leaf_of_zip_position {pool : List GLtriangle} {primitives : List Primitive}
    {indices : List Int} {d : BVHNode} (h : ∃ pi ∈ List.zip primitives indices, leaf_of pool d pi) :
    ∃ (k : Nat) (p : Primitive), primitives[k]? = some p ∧
      indices[k]? = some d.primitive_offset ∧ get_bbox pool [p] 1 = .ok d.bbox := by
  obtain ⟨pi, hpi, hpo, hbox⟩ := h
  obtain ⟨k, hk⟩ := List.mem_iff_getElem?.mp hpi
  rw [List.getElem?_zip_eq_some] at hk
  exact ⟨k, pi.1, hk.1, by rw [hpo]; exact hk.2, hbox⟩

/-- Every leaf of a tree returned by `build_bvh` with a payload other than `-1` belongs to
one position of the slice. -/
theorem build_bvh_leaf_at {pool : List GLtriangle} {fuel : Nat} {primitives : List Primitive}
    {indices : List Int} {t : BVHTreeNode}
    (h : build_bvh pool fuel primitives indices = .ok t) :
    ∀ d ∈ leaves t, d.primitive_offset ≠ -1 →
      ∃ (k : Nat) (p : Primitive), primitives[k]? = some p ∧
        indices[k]? = some d.primitive_offset ∧ get_bbox pool [p] 1 = .ok d.bbox := by
  intro d hd hne
  rcases build_bvh_leaf_cases pool fuel primitives indices t h d hd with hpi | hh
  · exact leaf_of_zip_position hpi
  · exact absurd hh.1 hne

/-- With the indices `0, ..., N-1` the payload of a leaf, when it is not `-1`, is the
position of its primitive. -/
theorem build_bvh_leaf_identity {pool : List GLtriangle} {fuel : Nat}
    {primitives : List Primitive} {t : BVHTreeNode}
    (h : build_bvh pool fuel primitives (identity_indices primitives.length) = .ok t) :
    ∀ d ∈ leaves t, d.primitive_offset ≠ -1 → 0 ≤ d.primitive_offset ∧
      d.primitive_offset.toNat < primitives.length ∧
      ∃ p, primitives[d.primitive_offset.toNat]? = some p ∧
        get_bbox pool [p] 1 = .ok d.bbox := by
  intro d hd hne
  obtain ⟨k, p, hp, hi, hbox⟩ := build_bvh_leaf_at h d hd hne
  have hk : k < primitives.length := by
    by_contra hcon
    rw [List.getElem?_eq_none (by omega)] at hp
    cases hp
  simp only [identity_indices, List.getElem?_map, List.getElem?_range hk, Option.map_some',
    Option.some.injEq] at hi
  have hk2 : d.primitive_offset.toNat = k := by rw [← hi]; rfl
  refine ⟨by rw [← hi]; exact Int.ofNat_nonneg k, by omega, p, ?_, hbox⟩
  rw [hk2]; exact hp

/-- In a tree with as many leaves as there are primitives every leaf belongs to one
position of the slice. -/
theorem build_bvh_leaf_all {pool : List GLtriangle} {fuel : Nat} {primitives : List Primitive}
    {indices : List Int} {t : BVHTreeNode}
    (h : build_bvh pool fuel primitives indices = .ok t)
    (hcount : (leaves t).length = primitives.length) :
    ∀ d ∈ leaves t, ∃ (k : Nat) (p : Primitive), primitives[k]? = some p ∧
      indices[k]? = some d.primitive_offset ∧ get_bbox pool [p] 1 = .ok d.bbox := by
  obtain ⟨ds, hperm, hfor⟩ := build_bvh_leaves pool fuel primitives indices t h hcount
  intro d hd
  obtain ⟨pi, hpi, hleaf⟩ := forall2_mem_left hfor d (hperm.mem_iff.mpr hd)
  exact leaf_of_zip_position ⟨pi, hpi, hleaf⟩

/-- C7 (as amended): in a tree returned by `build_bvh(primitives, indices)` every node
without children either has the payload `-1` (and `right_child_offset == -1`) or belongs to
one position `k` of the slice: its payload is `indices[k]` and its box is `get_bbox` of the
primitive `primitives[k]` alone; in a tree with as many leaves as there are primitives every
leaf belongs to a position.  With the indices `0, ..., N-1` the box of a leaf with a payload
other than `-1` is `get_bbox(&primitives[primitive_offset], 1)`. -/
theorem build_bvh_leaf_payload (pool : List GLtriangle) (fuel : Nat)
    (primitives : List Primitive) (indices : List Int) (t : BVHTreeNode)
    (h : build_bvh pool fuel primitives indices = .ok t) :
    (∀ d ∈ leaves t,
      (∃ (k : Nat) (p : Primitive), primitives[k]? = some p ∧
        indices[k]? = some d.primitive_offset ∧ get_bbox pool [p] 1 = .ok d.bbox) ∨
      (d.primitive_offset = -1 ∧ d.right_child_offset = -1)) ∧
    ((leaves t).length = primitives.length →
      ∀ d ∈ leaves t, ∃ (k : Nat) (p : Primitive), primitives[k]? = some p ∧
        indices[k]? = some d.primitive_offset ∧ get_bbox pool [p] 1 = .ok d.bbox) ∧
    (indices = identity_indices primitives.length →
      ∀ d ∈ leaves t, d.primitive_offset ≠ -1 → 0 ≤ d.primitive_offset ∧
        d.primitive_offset.toNat < primitives.length ∧
        get_bbox pool (primitives.drop d.primitive_offset.toNat) 1 = .ok d.bbox) := by
  refine ⟨?_, build_bvh_leaf_all h, ?_⟩
  · intro d hd
    rcases build_bvh_leaf_cases pool fuel primitives indices t h d hd with hpi | hh
    · exact Or.inl (leaf_of_zip_position hpi)
    · exact Or.inr hh
  · intro hid d hd hne
    rw [hid] at h
    obtain ⟨h0, h1, p, hp, hbox⟩ := build_bvh_leaf_identity h d hd hne
    refine ⟨h0, h1, ?_⟩
    have hdrop : primitives.drop d.primitive_offset.toNat
        = p :: primitives.drop (d.primitive_offset.toNat + 1) := by
      have h2 := List.drop_eq_getElem_cons h1
      rw [List.getElem?_eq_getElem h1] at hp
      cases hp
      exact h2
    rw [hdrop, get_bbox_one]
    exact hbox

theorem build_bvh_leaf_payload_witness :
    (build_bvh sample_pool 2 (sample_primitives.take 2) [0, 1] = .ok sample_tree ∧
      (leaves sample_tree).length = (sample_primitives.take 2).length) ∧
    (∀ d ∈ leaves sample_tree, ∃ (k : Nat) (p : Primitive),
      (sample_primitives.take 2)[k]? = some p ∧
      ([0, 1] : List Int)[k]? = some d.primitive_offset ∧
      get_bbox sample_pool [p] 1 = .ok d.bbox) ∧
    (([0, 1] : List Int) = identity_indices (sample_primitives.take 2).length →
      ∀ d ∈ leaves sample_tree, d.primitive_offset ≠ -1 → 0 ≤ d.primitive_offset ∧
        d.primitive_offset.toNat < (sample_primitives.take 2).length ∧
        get_bbox sample_pool ((sample_primitives.take 2).drop d.primitive_offset.toNat) 1
          = .ok d.bbox) :=
  ⟨⟨by decide!, by decide⟩,
   (build_bvh_leaf_payload sample_pool 2 (sample_primitives.take 2) [0, 1] sample_tree
     (by decide!)).2.1 (by decide),
   (build_bvh_leaf_payload sample_pool 2 (sample_primitives.take 2) [0, 1] sample_tree
     (by decide!)).2.2⟩

/-- C7 as stated fails.  For the two point primitives at `x = 3e38` and `x = -3e38`
`build_bvh` returns one node without children that both primitives reached; its payload
`-1` is no entry of the indices `0, 1`, and its box is the box of neither primitive. -/
theorem build_bvh_leaf_payload_counterexample :
    build_bvh apart_pool 1 two_primitives [0, 1] = .ok hollow_tree ∧
    leaves hollow_tree = [⟨-1, -1, ⟨-huge, huge, 0, 0, 0, 0⟩⟩] ∧
    ¬ ∀ d ∈ leaves hollow_tree, ∃ (k : Nat) (p : Primitive), two_primitives[k]? = some p ∧
      ([0, 1] : List Int)[k]? = some d.primitive_offset ∧
      get_bbox apart_pool [p] 1 = .ok d.bbox := by
  refine ⟨apart_pool_build.2.2, rfl, ?_⟩
  intro hall
  obtain ⟨k, p, -, hk, -⟩ := hall ⟨-1, -1, ⟨-huge, huge, 0, 0, 0, 0⟩⟩
    (by rw [show leaves hollow_tree = [⟨-1, -1, ⟨-huge, huge, 0, 0, 0, 0⟩⟩] from rfl]
        exact List.mem_singleton.mpr rfl)
  have hlt : k < 2 := by
    by_contra hcon
    rw [List.getElem?_eq_none (by simp; omega)] at hk
    cases hk
  interval_cases k <;> simp at hk

theorem box_union_contains (a b : AABB) (ha : a.xmin ≠ .nan ∧ a.xmax ≠ .nan ∧ a.ymin ≠ .nan ∧
      a.ymax ≠ .nan ∧ a.zmin ≠ .nan ∧ a.zmax ≠ .nan)
    (hb : b.xmin ≠ .nan ∧ b.xmax ≠ .nan ∧ b.ymin ≠ .nan ∧
      b.ymax ≠ .nan ∧ b.zmin ≠ .nan ∧ b.zmax ≠ .nan) :
    box_contains (box_union a b) a ∧ box_contains (box_union a b) b := by
  obtain ⟨a1, a2, a3, a4, a5, a6⟩ := ha
  obtain ⟨b1, b2, b3, b4, b5, b6⟩ := hb
  exact ⟨⟨float_min_le_left a1, float_le_max_left a2, float_min_le_left a3,
      float_le_max_left a4, float_min_le_left a5, float_le_max_left a6⟩,
    ⟨float_min_le_right a1 b1, float_le_max_right a2 b2, float_min_le_right a3 b3,
      float_le_max_right a4 b4, float_min_le_right a5 b5, float_le_max_right a6 b6⟩⟩

theorem is_min_of_append {m1 m2 : float} {l1 l2 : List float} (h1 : is_min_of m1 l1)
    (h2 : is_min_of m2 l2) : is_min_of (min m1 m2) (l1 ++ l2) := by
  have n1 := is_min_of_ne_nan h1
  have n2 := is_min_of_ne_nan h2
  refine ⟨?_, ?_⟩
  · rcases float_min_choice m1 m2 with h | h <;> rw [h]
    · exact List.mem_append_left _ h1.1
    · exact List.mem_append_right _ h2.1
  · intro q hq
    rcases List.mem_append.mp hq with hq | hq
    · exact float_le_trans (float_min_le_left n1) (h1.2 q hq)
    · exact float_le_trans (float_min_le_right n1 n2) (h2.2 q hq)

theorem is_max_of_append {m1 m2 : float} {l1 l2 : List float} (h1 : is_max_of m1 l1)
    (h2 : is_max_of m2 l2) : is_max_of (max m1 m2) (l1 ++ l2) := by
  have n1 := is_max_of_ne_nan h1
  have n2 := is_max_of_ne_nan h2
  refine ⟨?_, ?_⟩
  · rcases float_max_choice m1 m2 with h | h <;> rw [h]
    · exact List.mem_append_left _ h1.1
    · exact List.mem_append_right _ h2.1
  · intro q hq
    rcases List.mem_append.mp hq with hq | hq
    · exact float_le_trans (h1.2 q hq) (float_le_max_left n1)
    · exact float_le_trans (h2.2 q hq) (float_le_max_right n1 n2)

theorem is_extent_union {a b : AABB} {va vb : List GLvec3} (ha : is_extent a va)
    (hb : is_extent b vb) : is_extent (box_union a b) (va ++ vb) := by
  obtain ⟨a1, a2, a3, a4, a5, a6⟩ := ha
  obtain ⟨b1, b2, b3, b4, b5, b6⟩ := hb
  simp only [is_extent, List.map_append, box_union]
  exact ⟨is_min_of_append a1 b1, is_max_of_append a2 b2, is_min_of_append a3 b3,
    is_max_of_append a4 b4, is_min_of_append a5 b5, is_max_of_append a6 b6⟩

theorem is_extent_ne_nan {b : AABB} {vs : List GLvec3} (h : is_extent b vs) :
    b.xmin ≠ .nan ∧ b.xmax ≠ .nan ∧ b.ymin ≠ .nan ∧ b.ymax ≠ .nan ∧ b.zmin ≠ .nan ∧
      b.zmax ≠ .nan :=
  ⟨is_min_of_ne_nan h.1, is_max_of_ne_nan h.2.1, is_min_of_ne_nan h.2.2.1,
    is_max_of_ne_nan h.2.2.2.1, is_min_of_ne_nan h.2.2.2.2.1, is_max_of_ne_nan h.2.2.2.2.2⟩

theorem mem_vertices (pool : List GLtriangle) (q : GLvec3) :
    ∀ ps : List Primitive, q ∈ vertices pool ps ↔
      ∃ p ∈ ps, q ∈ triangle_vertices pool
        (List.range' p.offset.toNat p.num_triangles.toNat) := by
  intro ps
  induction ps with
  | nil => simp [vertices]
  | cons p ps ih => simp [vertices, ih]

theorem build_bvh_root_bbox {pool : List GLtriangle} {fuel : Nat} {prims : List Primitive}
    {idx : List Int} {t : BVHTreeNode} (h : build_bvh pool fuel prims idx = .ok t) :
    ∃ b, node_bbox t = some b ∧ get_bbox pool prims prims.length = .ok b := by
  obtain ⟨k, rfl⟩ := build_bvh_fuel_pos h
  obtain ⟨bbox, hb, h1 | h2⟩ := build_bvh_inv h
  · obtain ⟨-, i, -, rfl⟩ := h1
    exact ⟨bbox, rfl, hb⟩
  · obtain ⟨-, -, cs, mid, split, l, r, -, -, -, rfl⟩ := h2
    exact ⟨bbox, rfl, hb⟩

/-- With a midpoint that is a number on the split axis, the primitives of the slice are
those of the left slice and those of the right slice. -/
theorem partition_mem {split : SplitPlane} {cs : List GLvec3}
    {ps : List Primitive} {is : List Int} (h1 : cs.length = ps.length)
    (h2 : ps.length ≤ is.length) (hm : component split (calc_midpoint cs) ≠ .nan)
    (p : Primitive) :
    p ∈ ps ↔ p ∈ (partition split (calc_midpoint cs) cs ps is).slice_left ∨
      p ∈ (partition split (calc_midpoint cs) cs ps is).slice_right := by
  obtain ⟨e1, e2, -, -⟩ := partition_spec split (calc_midpoint cs) cs ps is h1 h2
  have hps : ps = (entries cs ps is).map (·.2.1) := (entries_map_primitive h1 h2).symm
  rw [e1, e2, @partition_number split cs ps is h1 h2 hm]
  conv_lhs => rw [hps]
  simp only [List.mem_map, List.mem_filter]
  constructor
  · rintro ⟨a, ha, rfl⟩
    by_cases hg : goes_left split (calc_midpoint cs) a = true
    · exact Or.inl ⟨a, ⟨ha, hg⟩, rfl⟩
    · exact Or.inr ⟨a, ⟨ha, by simpa using hg⟩, rfl⟩
  · rintro (⟨a, ⟨ha, -⟩, rfl⟩ | ⟨a, ⟨ha, -⟩, rfl⟩) <;> exact ⟨a, ha, rfl⟩

theorem build_bvh_bbox_is_union (pool : List GLtriangle) :
    ∀ (fuel : Nat) (prims : List Primitive) (idx : List Int) (t : BVHTreeNode),
      (∀ p ∈ prims, p.valid pool) → (∀ v ∈ vertices pool prims, v.is_number) →
      build_bvh pool fuel prims idx = .ok t → bbox_is_union t := by
  intro fuel
  induction fuel with
  | zero => intro prims idx t _ _ h; simp [build_bvh] at h
  | succ fuel ih =>
    intro prims idx t hvalid hnum h
    obtain ⟨bbox, hb, h1 | h3⟩ := build_bvh_inv h
    · obtain ⟨-, i, -, rfl⟩ := h1
      exact Or.inl ⟨rfl, rfl⟩
    · obtain ⟨h2, -, -⟩ := h3
      obtain ⟨hle, bbox2, cs, mid, split, hb2, hs, hcase⟩ := build_bvh_split h h2
      rw [hb] at hb2
      cases hb2
      rcases hcase with ⟨-, rfl⟩ | ⟨hm, -, posl, posr, -, l, r, hl, hr, rfl⟩
      · exact Or.inl ⟨rfl, rfl⟩
      · obtain ⟨hfill, hmid, -⟩ := split_selection_ok hs
        subst hmid
        have hcs := fill_centroids_length pool prims cs hfill
        have hmem := @partition_mem split cs prims idx hcs hle hm
        have hvl : ∀ p ∈ (partition split (calc_midpoint cs) cs prims idx).slice_left,
            p.valid pool := fun p hp => hvalid p ((hmem p).mpr (Or.inl hp))
        have hvr : ∀ p ∈ (partition split (calc_midpoint cs) cs prims idx).slice_right,
            p.valid pool := fun p hp => hvalid p ((hmem p).mpr (Or.inr hp))
        have hsubl : ∀ v ∈ vertices pool
            (partition split (calc_midpoint cs) cs prims idx).slice_left, v.is_number := by
          intro v hv
          apply hnum
          rw [mem_vertices] at hv ⊢
          obtain ⟨p, hp, hq⟩ := hv
          exact ⟨p, (hmem p).mpr (Or.inl hp), hq⟩
        have hsubr : ∀ v ∈ vertices pool
            (partition split (calc_midpoint cs) cs prims idx).slice_right, v.is_number := by
          intro v hv
          apply hnum
          rw [mem_vertices] at hv ⊢
          obtain ⟨p, hp, hq⟩ := hv
          exact ⟨p, (hmem p).mpr (Or.inr hp), hq⟩
        obtain ⟨bl, hnl, hgl⟩ := build_bvh_root_bbox hl
        obtain ⟨br, hnr, hgr⟩ := build_bvh_root_bbox hr
        have ext_of : ∀ (ps : List Primitive) (b : AABB), 0 < ps.length →
            (∀ p ∈ ps, p.valid pool) → (∀ v ∈ vertices pool ps, v.is_number) →
            get_bbox pool ps ps.length = .ok b → is_extent b (vertices pool ps) := by
          intro ps b hpos hv hn hg
          obtain ⟨b2, hb2, hext⟩ := get_bbox_ok pool ps ps.length (by exact_mod_cast hpos)
            (le_refl _) (by simpa using hv)
          rw [hg] at hb2
          cases hb2
          simpa using hext (by simpa using hn)
        have e0 := ext_of prims bbox (by omega) hvalid hnum hb
        have el := ext_of _ bl posl hvl hsubl hgl
        have er := ext_of _ br posr hvr hsubr hgr
        have eu := is_extent_union el er
        have hcongr : is_extent (box_union bl br) (vertices pool prims) := by
          apply is_extent_congr eu
          intro q
          rw [List.mem_append, mem_vertices, mem_vertices, mem_vertices]
          constructor
          · rintro (⟨p, hp, hq⟩ | ⟨p, hp, hq⟩)
            · exact ⟨p, (hmem p).mpr (Or.inl hp), hq⟩
            · exact ⟨p, (hmem p).mpr (Or.inr hp), hq⟩
          · rintro ⟨p, hp, hq⟩
            rcases (hmem p).mp hp with hp | hp
            · exact Or.inl ⟨p, hp, hq⟩
            · exact Or.inr ⟨p, hp, hq⟩
        have heq : bbox = box_union bl br := is_extent_unique e0 hcongr
        have hcont := box_union_contains bl br (is_extent_ne_nan el) (is_extent_ne_nan er)
        refine Or.inr ⟨bl, br, hnl, hnr, heq, ?_, ?_, ih _ _ _ hvl hsubl hl, ih _ _ _ hvr hsubr hr⟩
        · simp only [heq]; exact hcont.1
        · simp only [heq]; exact hcont.2

/-- C6 (as amended): in a tree returned by `build_bvh` on primitives that each have a
non-negative offset and at least one triangle, all inside the pool, and no vertex of which
has a coordinate that is NaN, every node with children has two children and its box is the
union of their boxes: each minimum is the smaller of the children's minima and each maximum
the larger of their maxima; so the box of the node contains the boxes of both children. -/
theorem build_bvh_inner_bbox (pool : List GLtriangle) (fuel : Nat)
    (primitives : List Primitive) (indices : List Int) (t : BVHTreeNode)
    (hvalid : ∀ p ∈ primitives, p.valid pool)
    (hnum : ∀ v ∈ vertices pool primitives, v.is_number)
    (h : build_bvh pool fuel primitives indices = .ok t) : bbox_is_union t :=
  build_bvh_bbox_is_union pool fuel primitives indices t hvalid hnum h

theorem build_bvh_inner_bbox_witness :
    ((∀ p ∈ sample_primitives.take 2, p.valid sample_pool) ∧
      (∀ v ∈ vertices sample_pool (sample_primitives.take 2), v.is_number) ∧
      build_bvh sample_pool 2 (sample_primitives.take 2) [0, 1] = .ok sample_tree) ∧
    bbox_is_union sample_tree :=
  ⟨⟨by decide, by decide!, by decide!⟩,
   build_bvh_inner_bbox sample_pool 2 (sample_primitives.take 2) [0, 1] sample_tree
     (by decide) (by decide!) (by decide!)⟩

/-- C6 as stated fails.  Over `nan_corner_pool` the two primitives have a non-negative
offset and one triangle inside the pool; the second one has a first corner with `x = NaN`.
`build_bvh` splits them on `y` and returns a root whose box has `xmin = 1`, the `x` of
the other corners of the second primitive, while the boxes of its children have
`xmin = 5` and `xmin = NaN`: the box of the root is not the union of the boxes of its
children and does not contain the box of the right child. -/
theorem build_bvh_inner_bbox_counterexample :
    (∀ p ∈ two_primitives, p.valid nan_corner_pool) ∧
    build_bvh nan_corner_pool 2 two_primitives [0, 1] = .ok nan_corner_tree ∧
    ¬ bbox_is_union nan_corner_tree := by
  refine ⟨by decide, by decide!, ?_⟩
  intro h
  simp only [nan_corner_tree, bbox_is_union] at h
  rcases h with ⟨h1, -⟩ | ⟨bl, br, hbl, hbr, heq, -⟩
  · cases h1
  · simp only [node_bbox, Option.some.injEq] at hbl hbr
    subst hbl; subst hbr
    revert heq
    decide!

theorem stack_need_pos (t : BVHTreeNode) : 1 ≤ stack_need t := by
  cases t with
  | null => simp [stack_need]
  | node d l r =>
    simp only [stack_need]
    split_ifs
    · exact le_refl _
    · exact le_trans (by omega) (le_max_left _ _)

theorem size_paths (t : BVHTreeNode) : ∀ path, (paths path t).length = t.size := by
  induction t with
  | null => intro path; rfl
  | node d l r ihl ihr =>
    intro path
    simp [paths, BVHTreeNode.size, ihl, ihr]; omega

theorem size_preorder (t : BVHTreeNode) : (preorder t).length = t.size := by
  induction t with
  | null => rfl
  | node d l r ihl ihr => simp [preorder, BVHTreeNode.size, ihl, ihr]; omega

theorem is_leaf_eq_true {l r : BVHTreeNode} (h : is_leaf l r = true) : l = .null ∧ r = .null := by
  simpa [is_leaf] using h

/-- The first loop of `flatten_bvh` succeeds on a stack of full trees that fits. -/
theorem first_pass_ok :
    ∀ (fuel : Nat) (stack : List NodePtr) (slice : List BVHNode) (ptrs : List (List Bool)),
      (∀ e ∈ stack, full e.2) → stack_fits stack → size_all stack < fuel →
      flatten_first_pass fuel stack slice ptrs =
        .ok (slice ++ preorder_all stack, ptrs ++ paths_all stack) := by
  intro fuel
  induction fuel with
  | zero => intro stack slice ptrs _ _ h; omega
  | succ fuel ih =>
    intro stack slice ptrs hfull hfits hfuel
    match stack, hfull, hfits, hfuel with
    | [], _, _, _ => simp [flatten_first_pass, preorder_all, paths_all]
    | (path, .null) :: rest, hfull, _, _ =>
      exact absurd (hfull (path, .null) (List.mem_cons_self _ _)) (by simp [full])
    | (path, .node d l r) :: rest, hfull, hfits, hfuel =>
      have hrest : ∀ e ∈ rest, full e.2 := fun e he => hfull e (List.mem_cons_of_mem _ he)
      have hnode := hfull (path, .node d l r) (List.mem_cons_self _ _)
      simp only [full] at hnode
      simp only [stack_fits] at hfits
      simp only [size_all, BVHTreeNode.size] at hfuel
      simp only [flatten_first_pass]
      rcases hnode with ⟨rfl, rfl⟩ | ⟨hl, hr, hfl, hfr⟩
      · simp only [is_leaf, decide_True, Bool.and_self, if_true]
        rw [ih _ _ _ hrest hfits.2 (by omega)]
        simp [preorder_all, paths_all, preorder, paths]
      · have hleaf : is_leaf l r = false := is_leaf_false_of_left hl
        simp only [stack_need, hleaf, Bool.false_eq_true, if_false] at hfits
        have h1 := stack_need_pos l
        have hmax := hfits.1
        have hml : 1 + stack_need l ≤ max (1 + stack_need l) (stack_need r) := le_max_left _ _
        have hmr : stack_need r ≤ max (1 + stack_need l) (stack_need r) := le_max_right _ _
        simp only [hleaf, Bool.false_eq_true, if_false]
        rw [if_neg (by omega)]
        rw [ih]
        · simp [preorder_all, paths_all, preorder, paths]
        · intro e he
          rcases List.mem_cons.mp he with rfl | he
          · exact hfl
          · rcases List.mem_cons.mp he with rfl | he
            · exact hfr
            · exact hrest e he
        · simp only [stack_fits, List.length_cons]
          exact ⟨by omega, by omega, hfits.2⟩
        · simp only [size_all]; omega

theorem getElem?_append_cons {α : Type} (A C : List α) (x : α) :
    (A ++ x :: C)[A.length]? = some x := by
  induction A with
  | nil => simp
  | cons a A ih => simpa using ih

theorem set_append_cons {α : Type} (A C : List α) (x y : α) :
    (A ++ x :: C).set A.length y = A ++ y :: C := by
  induction A with
  | nil => simp
  | cons a A ih => simp [ih]

/-- The second loop of `flatten_bvh` succeeds on a stack of full trees that fits and on
which both assertions on `found_i` hold. -/
theorem second_pass_ok (ptrs : List (List Bool)) :
    ∀ (fuel : Nat) (stack : List NodePtr) (i : Nat) (slice A B : List BVHNode),
      (∀ e ∈ stack, full e.2) → stack_fits stack → (∀ e ∈ stack, finds_ok ptrs e.1 e.2) →
      size_all stack < fuel → slice = A ++ preorder_all stack ++ B → A.length = i →
      flatten_second_pass ptrs fuel stack i slice = .ok (A ++ fixed_all ptrs stack ++ B) := by
  intro fuel
  induction fuel with
  | zero => intro stack i slice A B _ _ _ h; omega
  | succ fuel ih =>
    intro stack i slice A B hfull hfits hfinds hfuel hslice hlen
    match stack, hfull, hfits, hfinds, hfuel, hslice with
    | [], _, _, _, _, hslice =>
      simp only [flatten_second_pass]
      rw [hslice]
      simp [preorder_all, fixed_all]
    | (path, .null) :: rest, hfull, _, _, _, _ =>
      exact absurd (hfull (path, .null) (List.mem_cons_self _ _)) (by simp [full])
    | (path, .node d l r) :: rest, hfull, hfits, hfinds, hfuel, hslice =>
      have hrest : ∀ e ∈ rest, full e.2 := fun e he => hfull e (List.mem_cons_of_mem _ he)
      have hrest2 : ∀ e ∈ rest, finds_ok ptrs e.1 e.2 :=
        fun e he => hfinds e (List.mem_cons_of_mem _ he)
      have hnode := hfull (path, .node d l r) (List.mem_cons_self _ _)
      have hfind := hfinds (path, .node d l r) (List.mem_cons_self _ _)
      simp only [full] at hnode
      simp only [finds_ok] at hfind
      simp only [stack_fits] at hfits
      simp only [size_all, BVHTreeNode.size] at hfuel
      simp only [flatten_second_pass]
      rcases hnode with ⟨rfl, rfl⟩ | ⟨hl, hr, hfl, hfr⟩
      · simp only [is_leaf, decide_True, Bool.and_self, if_true]
        rw [ih rest (i + 1) slice (A ++ [d]) B hrest hfits.2 hrest2 (by omega)
          (by rw [hslice]; simp [preorder_all, preorder]) (by simp [hlen])]
        simp [fixed_all, fixed, is_leaf]
      · have hleaf : is_leaf l r = false := is_leaf_false_of_left hl
        simp only [hleaf, Bool.false_eq_true, false_or] at hfind
        obtain ⟨hf0, hf1, hfindl, hfindr⟩ := hfind
        simp only [stack_need, hleaf, Bool.false_eq_true, if_false] at hfits
        have h1 := stack_need_pos l
        have hmax := hfits.1
        have hml : 1 + stack_need l ≤ max (1 + stack_need l) (stack_need r) := le_max_left _ _
        have hmr : stack_need r ≤ max (1 + stack_need l) (stack_need r) := le_max_right _ _
        have hget : slice[i]? = some d := by
          rw [hslice, ← hlen]
          simp only [preorder_all, preorder, List.append_assoc, List.cons_append]
          exact getElem?_append_cons _ _ _
        have hset : slice.set i { d with right_child_offset := find ptrs (path ++ [true]) } =
            (A ++ [{ d with right_child_offset := find ptrs (path ++ [true]) }]) ++
              preorder_all ((path ++ [false], l) :: (path ++ [true], r) :: rest) ++ B := by
          rw [hslice, ← hlen]
          simp only [preorder_all, preorder, List.append_assoc, List.cons_append]
          rw [set_append_cons]
          simp
        simp only [hleaf, Bool.false_eq_true, if_false]
        rw [if_neg (by omega), if_neg (by simpa using hf0), if_neg (by simpa using hf1), hget]
        simp only
        rw [ih _ (i + 1) _ _ B ?_ ?_ ?_ ?_ hset (by simp [hlen])]
        · simp [fixed_all, fixed, hleaf]
        · intro e he
          rcases List.mem_cons.mp he with rfl | he
          · exact hfl
          · rcases List.mem_cons.mp he with rfl | he
            · exact hfr
            · exact hrest e he
        · simp only [stack_fits, List.length_cons]
          exact ⟨by omega, by omega, hfits.2⟩
        · intro e he
          rcases List.mem_cons.mp he with rfl | he
          · exact hfindl
          · rcases List.mem_cons.mp he with rfl | he
            · exact hfindr
            · exact hrest2 e he
        · simp only [size_all]; omega

theorem paths_extend_root (t : BVHTreeNode) : ∀ (q p : List Bool), p ∈ paths q t → q <+: p := by
  induction t with
  | null => intro q p hp; cases hp
  | node d l r ihl ihr =>
    intro q p hp
    simp only [paths, List.mem_cons, List.mem_append] at hp
    rcases hp with rfl | hp | hp
    · exact List.prefix_refl _
    · exact (List.prefix_append q [false]).trans (ihl _ _ hp)
    · exact (List.prefix_append q [true]).trans (ihr _ _ hp)

theorem child_not_above (q : List Bool) (b : Bool) : ¬ (q ++ [b]) <+: q := by
  intro h
  have := h.length_le
  simp at this

theorem siblings_disjoint (q p : List Bool) (h1 : (q ++ [false]) <+: p) :
    ¬ (q ++ [true]) <+: p := by
  intro h2
  have h3 := List.prefix_of_prefix_length_le h1 h2 (by simp)
  have h4 := h3.eq_of_length (by simp)
  have h5 := List.append_cancel_left h4
  simp at h5

theorem find_at {α : Type} [DecidableEq α] (before after : List α) (x : α)
    (h : x ∉ before) : find (before ++ x :: after) x = (before.length : Int) := by
  have hidx : (before ++ x :: after).indexOf x = before.length := by
    rw [List.indexOf_append_of_not_mem h, List.indexOf_cons_self]
    simp
  simp only [find, hidx]
  rw [if_pos (by simp)]

theorem paths_head {q : List Bool} {t : BVHTreeNode} (h : t ≠ .null) :
    ∃ rest, paths q t = q :: rest := by
  cases t with
  | null => exact absurd rfl h
  | node d l r => exact ⟨_, rfl⟩

theorem size_pos_of_ne_null {t : BVHTreeNode} (h : t ≠ .null) : 1 ≤ t.size := by
  cases t with
  | null => exact absurd rfl h
  | node d l r => simp [BVHTreeNode.size]; omega

/-- When `ptrs` holds the positions of a full tree in preorder, the slot at which the
second loop finds the right child of a node is the slot after the left subtree. -/
theorem fixed_eq_flat_spec (ptrs : List (List Bool)) (t : BVHTreeNode) :
    ∀ (q : List Bool) (before after : List (List Bool)),
      ptrs = before ++ paths q t ++ after → (∀ p ∈ before, ¬ q <+: p) → full t →
      fixed ptrs q t = flat_spec before.length t ∧
        (before.length + t.size ≤ 2 ^ 31 → finds_ok ptrs q t) := by
  induction t with
  | null => intro q before after _ _ hfull; simp [full] at hfull
  | node d l r ihl ihr =>
    intro q before after hptrs hfresh hfull
    simp only [full] at hfull
    rcases hfull with ⟨rfl, rfl⟩ | ⟨hl, hr, hfl, hfr⟩
    · simp [fixed, flat_spec, finds_ok, is_leaf]
    · have hleaf : is_leaf l r = false := is_leaf_false_of_left hl
      obtain ⟨rrest, hrrest⟩ := @paths_head (q ++ [true]) r hr
      have hnotin : (q ++ [true]) ∉ before ++ q :: paths (q ++ [false]) l := by
        intro hmem
        simp only [List.mem_append, List.mem_cons] at hmem
        rcases hmem with hm | hm | hm
        · exact hfresh _ hm (List.prefix_append q [true])
        · have := congrArg List.length hm
          simp at this
        · exact siblings_disjoint q _ (paths_extend_root l _ _ hm) (List.prefix_refl _)
      have hfind : find ptrs (q ++ [true]) = ((before.length + 1 + l.size : Nat) : Int) := by
        have hp : ptrs = (before ++ q :: paths (q ++ [false]) l) ++
            (q ++ [true]) :: (rrest ++ after) := by
          rw [hptrs]
          simp [paths, hrrest]
        rw [hp, find_at _ _ _ hnotin]
        simp [size_paths]
        omega
      have hL := ihl (q ++ [false]) (before ++ [q]) (paths (q ++ [true]) r ++ after)
        (by rw [hptrs]; simp [paths])
        (by
          intro p hp
          simp only [List.mem_append, List.mem_singleton] at hp
          rcases hp with hp | rfl
          · exact fun h => hfresh p hp ((List.prefix_append q [false]).trans h)
          · exact child_not_above _ _)
        hfl
      have hR := ihr (q ++ [true]) (before ++ q :: paths (q ++ [false]) l) after
        (by rw [hptrs]; simp [paths])
        (by
          intro p hp
          simp only [List.mem_append, List.mem_cons] at hp
          rcases hp with hp | rfl | hp
          · exact fun h => hfresh p hp ((List.prefix_append q [true]).trans h)
          · exact child_not_above _ _
          · exact siblings_disjoint q p (paths_extend_root l _ _ hp))
        hfr
      have hlenL : (before ++ [q]).length = before.length + 1 := by simp
      have hlenR : (before ++ q :: paths (q ++ [false]) l).length
          = before.length + 1 + l.size := by
        simp [size_paths]; omega
      rw [hlenL] at hL
      rw [hlenR] at hR
      have hsr := size_pos_of_ne_null hr
      constructor
      · simp only [fixed, flat_spec, hleaf, Bool.false_eq_true, if_false, hfind, hL.1, hR.1]
      · intro hsize
        simp only [BVHTreeNode.size] at hsize
        simp only [finds_ok, hleaf, Bool.false_eq_true, false_or, hfind]
        refine ⟨Int.ofNat_nonneg _, ?_, hL.2 (by omega), hR.2 (by omega)⟩
        have : before.length + 1 + l.size < 2 ^ 31 := by omega
        exact_mod_cast this

theorem flat_spec_length (t : BVHTreeNode) : ∀ i, full t → (flat_spec i t).length = t.size := by
  induction t with
  | null => intro i h; simp [full] at h
  | node d l r ihl ihr =>
    intro i hfull
    simp only [full] at hfull
    rcases hfull with ⟨rfl, rfl⟩ | ⟨hl, hr, hfl, hfr⟩
    · simp [flat_spec, is_leaf, BVHTreeNode.size]
    · simp only [flat_spec, is_leaf_false_of_left hl, Bool.false_eq_true, if_false,
        List.length_cons, List.length_append, ihl _ hfl, ihr _ hfr, BVHTreeNode.size]
      omega

/-- Success of `flatten_bvh` on a full tree whose root has children, whose traversal fits
the stack and which has at most `2 ^ 31` nodes. -/
theorem flatten_bvh_ok {d : BVHNode} {l r : BVHTreeNode} (hl : l ≠ .null) (hr : r ≠ .null)
    (hfull : full (.node d l r)) (hneed : stack_need (.node d l r) ≤ kTreeStackLimit)
    (hsize : (BVHTreeNode.node d l r).size ≤ 2 ^ 31) :
    flatten_bvh (.node d l r) = .ok (flat_spec 0 (.node d l r), (BVHTreeNode.node d l r).size) := by
  have hfits : stack_fits [([], .node d l r)] := by
    simp only [stack_fits, List.length_nil, Nat.zero_add, and_true]
    exact hneed
  have hall : ∀ e ∈ [(([] : List Bool), BVHTreeNode.node d l r)], full e.2 := by
    intro e he
    simp only [List.mem_singleton] at he
    rw [he]; exact hfull
  have h1 := first_pass_ok ((BVHTreeNode.node d l r).size + 1) [([], .node d l r)] [] []
    hall hfits (by simp [size_all])
  simp only [List.nil_append, preorder_all, paths_all, List.append_nil] at h1
  obtain ⟨e3, hfinds⟩ := fixed_eq_flat_spec (paths [] (.node d l r)) (.node d l r) [] [] []
    (by simp) (by simp) hfull
  have h2 := second_pass_ok (paths [] (.node d l r)) ((BVHTreeNode.node d l r).size + 1)
    [([], .node d l r)] 0 (preorder (.node d l r)) [] [] hall hfits
    (by
      intro e he
      simp only [List.mem_singleton] at he
      rw [he]
      exact hfinds (by simpa using hsize))
    (by simp [size_all]) (by simp [preorder_all]) rfl
  simp only [List.nil_append, fixed_all, List.append_nil] at h2
  simp only [flatten_bvh]
  rw [if_neg (by simp [hl, hr]), h1]
  simp only
  rw [h2, e3]
  simp [flat_spec_length _ _ hfull]

/-- The first loop of `flatten_bvh` runs past its stack array on a stack of full trees that
does not fit. -/
theorem first_pass_overflow :
    ∀ (fuel : Nat) (stack : List NodePtr) (slice : List BVHNode) (ptrs : List (List Bool)),
      (∀ e ∈ stack, full e.2) → stack.length ≤ kTreeStackLimit → ¬ stack_fits stack →
      size_all stack < fuel →
      flatten_first_pass fuel stack slice ptrs = .error .stackOverflow := by
  intro fuel
  induction fuel with
  | zero => intro stack slice ptrs _ _ _ h; omega
  | succ fuel ih =>
    intro stack slice ptrs hfull hlen hfits hfuel
    match stack, hfull, hlen, hfits, hfuel with
    | [], _, _, hfits, _ => exact absurd trivial hfits
    | (path, .null) :: rest, hfull, _, _, _ =>
      exact absurd (hfull (path, .null) (List.mem_cons_self _ _)) (by simp [full])
    | (path, .node d l r) :: rest, hfull, hlen, hfits, hfuel =>
      have hrest : ∀ e ∈ rest, full e.2 := fun e he => hfull e (List.mem_cons_of_mem _ he)
      have hnode := hfull (path, .node d l r) (List.mem_cons_self _ _)
      simp only [full] at hnode
      simp only [stack_fits] at hfits
      simp only [size_all, BVHTreeNode.size] at hfuel
      simp only [List.length_cons] at hlen
      simp only [flatten_first_pass]
      rcases hnode with ⟨rfl, rfl⟩ | ⟨hl, hr, hfl, hfr⟩
      · simp only [is_leaf, decide_True, Bool.and_self, if_true]
        apply ih _ _ _ hrest (by omega) _ (by omega)
        intro hf
        apply hfits
        refine ⟨?_, hf⟩
        simp only [stack_need, is_leaf, decide_True, Bool.and_self, if_true]
        omega
      · have hleaf : is_leaf l r = false := is_leaf_false_of_left hl
        simp only [stack_need, hleaf, Bool.false_eq_true, if_false] at hfits
        simp only [hleaf, Bool.false_eq_true, if_false]
        by_cases hover : kTreeStackLimit < rest.length + 2
        · rw [if_pos hover]
        · rw [if_neg hover]
          apply ih
          · intro e he
            rcases List.mem_cons.mp he with rfl | he
            · exact hfl
            · rcases List.mem_cons.mp he with rfl | he
              · exact hfr
              · exact hrest e he
          · simp only [List.length_cons]; omega
          · intro hf
            simp only [stack_fits, List.length_cons] at hf
            apply hfits
            refine ⟨?_, hf.2.2⟩
            have h1 := hf.1
            have h2 := hf.2.1
            rcases max_choice (1 + stack_need l) (stack_need r) with hm | hm <;> rw [hm] <;> omega
          · simp only [size_all]; omega

/-- On a full tree whose root has children, `flatten_bvh` runs past its stack array
exactly when the traversal needs more than `kTreeStackLimit` entries. -/
theorem flatten_bvh_overflow {d : BVHNode} {l r : BVHTreeNode} (hl : l ≠ .null)
    (hr : r ≠ .null) (hfull : full (.node d l r))
    (hneed : kTreeStackLimit < stack_need (.node d l r)) :
    flatten_bvh (.node d l r) = .error .stackOverflow := by
  have hall : ∀ e ∈ [(([] : List Bool), BVHTreeNode.node d l r)], full e.2 := by
    intro e he
    simp only [List.mem_singleton] at he
    rw [he]; exact hfull
  have h1 := first_pass_overflow ((BVHTreeNode.node d l r).size + 1) [([], .node d l r)] [] []
    hall (by simp [kTreeStackLimit])
    (by
      simp only [stack_fits, List.length_nil, Nat.zero_add, and_true]
      omega)
    (by simp [size_all])
  simp only [flatten_bvh]
  rw [if_neg (by simp [hl, hr]), h1]

theorem node_at_null (k : Nat) : node_at .null k = .null := by
  cases k <;> rfl

theorem node_at_zero (t : BVHTreeNode) : node_at t 0 = t := by
  cases t <;> rfl

theorem node_at_ne_null {t : BVHTreeNode} {k : Nat} {d : BVHNode} {l r : BVHTreeNode}
    (h : node_at t k = .node d l r) : t ≠ .null := by
  rintro rfl
  rw [node_at_null] at h
  cases h

theorem flat_spec_get (t : BVHTreeNode) :
    ∀ (i k : Nat) (d : BVHNode) (l r : BVHTreeNode), full t → node_at t k = .node d l r →
      (flat_spec i t)[k]? = some (if is_leaf l r then d
        else { d with right_child_offset := ((i + k + 1 + l.size : Nat) : Int) }) := by
  induction t with
  | null => intro i k d l r hfull; simp [full] at hfull
  | node d0 l0 r0 ihl ihr =>
    intro i k d l r hfull hat
    cases k with
    | zero =>
      simp only [node_at, BVHTreeNode.node.injEq] at hat
      obtain ⟨rfl, rfl, rfl⟩ := hat
      simp only [flat_spec]
      split_ifs <;> simp
    | succ k =>
      simp only [node_at] at hat
      simp only [full] at hfull
      rcases hfull with ⟨rfl, rfl⟩ | ⟨hl, hr, hfl, hfr⟩
      · simp [node_at_null] at hat
      · simp only [flat_spec, is_leaf_false_of_left hl, Bool.false_eq_true, if_false,
          List.getElem?_cons_succ]
        split_ifs at hat with hk
        · rw [List.getElem?_append_left (by rw [flat_spec_length _ _ hfl]; exact hk)]
          rw [ihl _ _ _ _ _ hfl hat]
          have : i + 1 + k + 1 + l.size = i + (k + 1) + 1 + l.size := by omega
          rw [this]
        · rw [List.getElem?_append_right (by rw [flat_spec_length _ _ hfl]; omega)]
          rw [flat_spec_length _ _ hfl, ihr _ _ _ _ _ hfr hat]
          have : i + 1 + l0.size + (k - l0.size) + 1 + l.size = i + (k + 1) + 1 + l.size := by
            omega
          rw [this]

theorem node_at_children (t : BVHTreeNode) :
    ∀ (k : Nat) (d : BVHNode) (l r : BVHTreeNode), full t → node_at t k = .node d l r →
      is_leaf l r = false →
      node_at t (k + 1) = l ∧ node_at t (k + 1 + l.size) = r ∧ k + 1 + l.size < t.size ∧
        1 ≤ l.size := by
  induction t with
  | null => intro k d l r hfull; simp [full] at hfull
  | node d0 l0 r0 ihl ihr =>
    intro k d l r hfull hat hleaf
    simp only [full] at hfull
    cases k with
    | zero =>
      simp only [node_at, BVHTreeNode.node.injEq] at hat
      obtain ⟨rfl, rfl, rfl⟩ := hat
      rcases hfull with ⟨rfl, rfl⟩ | ⟨hl, hr, hfl, hfr⟩
      · simp [is_leaf] at hleaf
      · have h1 := size_pos_of_ne_null hl
        have h2 := size_pos_of_ne_null hr
        refine ⟨?_, ?_, ?_, h1⟩
        · simp only [node_at]
          rw [if_pos (by omega), node_at_zero]
        · have : 0 + 1 + l0.size = l0.size + 1 := by omega
          rw [this]
          simp only [node_at]
          rw [if_neg (by omega), Nat.sub_self, node_at_zero]
        · simp only [BVHTreeNode.size]; omega
    | succ k =>
      simp only [node_at] at hat
      rcases hfull with ⟨rfl, rfl⟩ | ⟨hl, hr, hfl, hfr⟩
      · simp [node_at_null] at hat
      · split_ifs at hat with hk
        · obtain ⟨a1, a2, a3, a4⟩ := ihl _ _ _ _ hfl hat hleaf
          refine ⟨?_, ?_, ?_, a4⟩
          · simp only [node_at]
            rw [if_pos (by omega)]
            exact a1
          · have : k + 1 + 1 + l.size = (k + 1 + l.size) + 1 := by omega
            rw [this]
            simp only [node_at]
            rw [if_pos (by omega)]
            exact a2
          · simp only [BVHTreeNode.size]; omega
        · obtain ⟨a1, a2, a3, a4⟩ := ihr _ _ _ _ hfr hat hleaf
          refine ⟨?_, ?_, ?_, a4⟩
          · simp only [node_at]
            rw [if_neg (by omega)]
            have : k + 1 - l0.size = k - l0.size + 1 := by omega
            rw [this]
            exact a1
          · have : k + 1 + 1 + l.size = (k + 1 + l.size) + 1 := by omega
            rw [this]
            simp only [node_at]
            rw [if_neg (by omega)]
            have : k + 1 + l.size - l0.size = k - l0.size + 1 + l.size := by omega
            rw [this]
            exact a2
          · simp only [BVHTreeNode.size]; omega

theorem flat_spec_map (t : BVHTreeNode) : ∀ i,
    (flat_spec i t).map (fun n => (n.bbox, n.primitive_offset)) =
      (preorder t).map (fun n => (n.bbox, n.primitive_offset)) := by
  induction t with
  | null => intro i; rfl
  | node d l r ihl ihr =>
    intro i
    simp only [flat_spec, preorder]
    split_ifs with hleaf
    · obtain ⟨rfl, rfl⟩ := is_leaf_eq_true hleaf
      simp [preorder]
    · simp [ihl, ihr]

/-- C4 (as amended): for a tree whose root has two children, in which every node with a
child has two, whose traversal needs at most `kTreeStackLimit` stack entries and which has
fewer than `2 ^ 31` nodes, `flatten_bvh` returns the recursive flattening `flat_spec` and
the number of nodes of the tree as its length; slot `k` of the array carries the box and
the payload of the `k`-th node of the preorder, a leaf at slot `k` keeps all its data, and
a node with children at slot `k` gets `right_child_offset = k + 1 + size(left)`. -/
theorem flatten_bvh_preorder (root : BVHTreeNode) (hroot : root_has_children root)
    (hfull : full root) (hneed : stack_need root ≤ kTreeStackLimit)
    (hsize : root.size < 2 ^ 31) :
    flatten_bvh root = .ok (flat_spec 0 root, root.size) ∧
    (flat_spec 0 root).length = root.size ∧
    (flat_spec 0 root).map (fun n => (n.bbox, n.primitive_offset)) =
      (preorder root).map (fun n => (n.bbox, n.primitive_offset)) ∧
    (∀ (k : Nat) (d : BVHNode), node_at root k = .node d .null .null →
      (flat_spec 0 root)[k]? = some d) ∧
    (∀ (k : Nat) (d : BVHNode) (l r : BVHTreeNode), node_at root k = .node d l r →
      is_leaf l r = false →
      (flat_spec 0 root)[k]? =
        some { d with right_child_offset := ((k + 1 + l.size : Nat) : Int) }) := by
  cases root with
  | null => exact absurd hroot (by simp [root_has_children])
  | node d l r =>
    simp only [root_has_children] at hroot
    refine ⟨flatten_bvh_ok hroot.1 hroot.2 hfull hneed (le_of_lt hsize),
      flat_spec_length _ _ hfull, flat_spec_map _ _, ?_, ?_⟩
    · intro k dk hat
      have := flat_spec_get _ 0 k dk .null .null hfull hat
      simpa [is_leaf] using this
    · intro k dk lk rk hat hleaf
      have := flat_spec_get _ 0 k dk lk rk hfull hat
      simpa [hleaf] using this

theorem flatten_bvh_preorder_witness :
    (root_has_children sample_tree ∧ full sample_tree ∧
      stack_need sample_tree ≤ kTreeStackLimit ∧ sample_tree.size < 2 ^ 31) ∧
    flatten_bvh sample_tree = .ok (flat_spec 0 sample_tree, sample_tree.size) ∧
    (flat_spec 0 sample_tree).length = sample_tree.size ∧
    (flat_spec 0 sample_tree).map (fun n => (n.bbox, n.primitive_offset)) =
      (preorder sample_tree).map (fun n => (n.bbox, n.primitive_offset)) ∧
    (∀ (k : Nat) (d : BVHNode), node_at sample_tree k = .node d .null .null →
      (flat_spec 0 sample_tree)[k]? = some d) ∧
    (∀ (k : Nat) (d : BVHNode) (l r : BVHTreeNode), node_at sample_tree k = .node d l r →
      is_leaf l r = false →
      (flat_spec 0 sample_tree)[k]? =
        some { d with right_child_offset := ((k + 1 + l.size : Nat) : Int) }) :=
  ⟨⟨by decide, by decide, by decide, by decide⟩,
   flatten_bvh_preorder sample_tree (by decide) (by decide) (by decide) (by decide)⟩

/-- C4 as stated fails: the left-deep tree with 16 nodes on its spine has a root with two
children and two children at every node with a child; its traversal needs 17 stack
entries, and `flatten_bvh` writes past the end of its stack array on it instead of
returning an array. -/
theorem flatten_bvh_preorder_counterexample :
    root_has_children (left_comb 16) ∧ full (left_comb 16) ∧
    stack_need (left_comb 16) = 17 ∧
    flatten_bvh (left_comb 16) = .error .stackOverflow ∧
    ¬ ∃ res, flatten_bvh (left_comb 16) = .ok res := by
  refine ⟨by decide, by decide, by decide, by decide!, ?_⟩
  rintro ⟨res, h⟩
  have h2 : flatten_bvh (left_comb 16) = .error .stackOverflow := by decide!
  rw [h2] at h
  cases h

/-- C3 (as amended): for a tree whose root has two children, in which every node with a
child has two, whose traversal needs at most `kTreeStackLimit` stack entries and which has
fewer than `2 ^ 31` nodes, `flatten_bvh` returns an array in which slot `k` carries the box
and the payload of the `k`-th node of the preorder, and every node with children at slot
`i` has its left child at slot `i + 1` and its right child at slot `right_child_offset(i)`,
with `i + 1 < right_child_offset(i) < array length`. -/
theorem flatten_bvh_child_slots (root : BVHTreeNode) (hroot : root_has_children root)
    (hfull : full root) (hneed : stack_need root ≤ kTreeStackLimit)
    (hsize : root.size < 2 ^ 31) :
    ∃ arr, flatten_bvh root = .ok (arr, arr.length) ∧
      ∀ (i : Nat) (d : BVHNode) (l r : BVHTreeNode), node_at root i = .node d l r →
        ∃ n, arr[i]? = some n ∧ n.bbox = d.bbox ∧ n.primitive_offset = d.primitive_offset ∧
          (is_leaf l r = false →
            node_at root (i + 1) = l ∧ 0 ≤ n.right_child_offset ∧
            node_at root n.right_child_offset.toNat = r ∧
            (i : Int) + 1 < n.right_child_offset ∧
            n.right_child_offset < (arr.length : Int)) := by
  cases root with
  | null => exact absurd hroot (by simp [root_has_children])
  | node d0 l0 r0 =>
    simp only [root_has_children] at hroot
    have hlen := flat_spec_length (.node d0 l0 r0) 0 hfull
    refine ⟨flat_spec 0 (.node d0 l0 r0), ?_, ?_⟩
    · rw [hlen]
      exact flatten_bvh_ok hroot.1 hroot.2 hfull hneed (le_of_lt hsize)
    · intro i d l r hat
      have hget := flat_spec_get _ 0 i d l r hfull hat
      refine ⟨_, hget, ?_, ?_, ?_⟩
      · split_ifs <;> rfl
      · split_ifs <;> rfl
      · intro hleaf
        obtain ⟨a1, a2, a3, a4⟩ := node_at_children _ i d l r hfull hat hleaf
        simp only [hleaf, Bool.false_eq_true, if_false, Int.toNat_ofNat, Nat.zero_add]
        refine ⟨a1, Int.ofNat_nonneg _, a2, ?_, ?_⟩
        · have : i + 1 < i + 1 + l.size := by omega
          exact_mod_cast this
        · rw [hlen]
          exact_mod_cast a3

theorem flatten_bvh_child_slots_witness :
    (root_has_children sample_tree ∧ full sample_tree ∧
      stack_need sample_tree ≤ kTreeStackLimit ∧ sample_tree.size < 2 ^ 31) ∧
    ∃ arr, flatten_bvh sample_tree = .ok (arr, arr.length) ∧
      ∀ (i : Nat) (d : BVHNode) (l r : BVHTreeNode), node_at sample_tree i = .node d l r →
        ∃ n, arr[i]? = some n ∧ n.bbox = d.bbox ∧ n.primitive_offset = d.primitive_offset ∧
          (is_leaf l r = false →
            node_at sample_tree (i + 1) = l ∧ 0 ≤ n.right_child_offset ∧
            node_at sample_tree n.right_child_offset.toNat = r ∧
            (i : Int) + 1 < n.right_child_offset ∧
            n.right_child_offset < (arr.length : Int)) :=
  ⟨⟨by decide, by decide, by decide, by decide⟩,
   flatten_bvh_child_slots sample_tree (by decide) (by decide) (by decide) (by decide)⟩

/-- C3 as stated fails: the left-deep tree with 17 nodes on its spine has a root with two
children and two children at every node with a child; its traversal needs 18 stack
entries, and `flatten_bvh` produces no array for it, so its root has no slot and no
`right_child_offset`. -/
theorem flatten_bvh_child_slots_counterexample :
    root_has_children (left_comb 17) ∧ full (left_comb 17) ∧
    stack_need (left_comb 17) = 18 ∧
    ¬ ∃ arr len, flatten_bvh (left_comb 17) = .ok (arr, len) := by
  refine ⟨by decide, by decide, by decide, ?_⟩
  rintro ⟨arr, len, h⟩
  have h2 : flatten_bvh (left_comb 17) = .error .stackOverflow := by decide!
  rw [h2] at h
  cases h

theorem get_bbox_single_ok {pool : List GLtriangle} {p : Primitive} (h : p.readable pool)
    (rest : List Primitive) : ∃ b, get_bbox pool (p :: rest) 1 = .ok b := by
  rw [get_bbox_one]
  obtain ⟨first, -, heq⟩ := get_bbox_eq pool p [] 1 (by decide) (by simp)
    (by intro q hq; simp at hq; rw [hq]; exact h)
  exact ⟨_, heq⟩

theorem indexInt_in_range {α : Type} {s : List α} {i : Int} (h0 : 0 ≤ i)
    (h1 : i.toNat < s.length) : ∃ a, indexInt s i = .ok a := by
  simp only [indexInt, index, not_lt.mpr h0, if_false, List.getElem?_eq_getElem h1]
  exact ⟨_, rfl⟩

theorem mark_length (is : List Nat) : ∀ flags : List Bool, (mark flags is).length = flags.length := by
  induction is with
  | nil => intro flags; rfl
  | cons k is ih =>
    intro flags
    simp only [mark, List.foldl_cons] at ih ⊢
    rw [ih, List.length_set]

theorem mark_cons (flags : List Bool) (k : Nat) (is : List Nat) :
    mark flags (k :: is) = mark (flags.set k true) is := rfl

theorem mark_getElem? (is : List Nat) : ∀ (flags : List Bool) (i : Nat),
    (mark flags is)[i]? = if i ∈ is then Option.map (fun _ => true) flags[i]? else flags[i]? := by
  induction is with
  | nil => intro flags i; simp [mark]
  | cons k is ih =>
    intro flags i
    rw [mark_cons, ih, List.getElem?_set]
    by_cases hki : k = i
    · subst hki
      by_cases hlt : k < flags.length
      · simp [hlt, List.getElem?_eq_getElem hlt]
      · simp [hlt, List.getElem?_eq_none (not_lt.mp hlt)]
    · have hik : ¬ i = k := fun h => hki h.symm
      simp [hki, hik]

theorem leaf_payloads_cons (node : BVHNode) (rest : List BVHNode) :
    leaf_payloads (node :: rest) =
      if node.primitive_offset ≠ -1 then node.primitive_offset :: leaf_payloads rest
      else leaf_payloads rest := by
  simp only [leaf_payloads, leaf_slots, List.filter_cons]
  split_ifs <;> simp_all

/-- What the first loop of `validate_flattened_bvh` computes: it stops with `false` at the
first payload that it has seen before, and otherwise sets the flag of every payload and
counts the leaf slots. -/
theorem flattened_leaf_loop_eq :
    ∀ (n : Nat) (nodes : List BVHNode) (check : List Bool) (num : Nat),
      n ≤ nodes.length →
      (∀ p ∈ leaf_payloads (nodes.take n), 0 ≤ p ∧ p.toNat < check.length) →
      flattened_leaf_loop n nodes check num =
        .ok (if ((leaf_payloads (nodes.take n)).map Int.toNat).Nodup ∧
              ∀ p ∈ (leaf_payloads (nodes.take n)).map Int.toNat, check[p]? = some false
            then some (mark check ((leaf_payloads (nodes.take n)).map Int.toNat),
              num + (leaf_payloads (nodes.take n)).length)
            else none) := by
  intro n
  induction n with
  | zero =>
    intro nodes check num _ _
    simp [flattened_leaf_loop, leaf_payloads, leaf_slots, mark]
  | succ n ih =>
    intro nodes check num hlen hok
    cases nodes with
    | nil => simp at hlen
    | cons node rest =>
      have hlen2 : n ≤ rest.length := by simpa using hlen
      simp only [List.take_succ_cons, leaf_payloads_cons] at hok ⊢
      simp only [flattened_leaf_loop]
      by_cases hpo : node.primitive_offset = -1
      · simp only [hpo, ne_eq, not_true_eq_false, if_false] at hok ⊢
        exact ih rest check num hlen2 hok
      · simp only [hpo, ne_eq, not_false_eq_true, if_true] at hok ⊢
        obtain ⟨h0, h1⟩ := hok _ (List.mem_cons_self _ _)
        have hrest : ∀ p ∈ leaf_payloads (rest.take n), 0 ≤ p ∧ p.toNat < check.length :=
          fun p hp => hok p (List.mem_cons_of_mem _ hp)
        have hidx : indexInt check node.primitive_offset
            = .ok (check[node.primitive_offset.toNat]) := by
          simp only [indexInt, index, not_lt.mpr h0, if_false, List.getElem?_eq_getElem h1]
        rw [hidx]
        cases hc : check[node.primitive_offset.toNat] with
        | true =>
          simp only
          rw [if_neg]
          rintro ⟨-, hall⟩
          have := hall node.primitive_offset.toNat (by simp)
          rw [List.getElem?_eq_getElem h1, hc] at this
          cases this
        | false =>
          simp only
          rw [ih rest _ (num + 1) hlen2 (by simpa using hrest)]
          have hiff : ((List.map Int.toNat (leaf_payloads (List.take n rest))).Nodup ∧
              ∀ p ∈ List.map Int.toNat (leaf_payloads (List.take n rest)),
                (check.set node.primitive_offset.toNat true)[p]? = some false) ↔
              ((List.map Int.toNat (node.primitive_offset :: leaf_payloads (List.take n rest))).Nodup ∧
              ∀ p ∈ List.map Int.toNat (node.primitive_offset :: leaf_payloads (List.take n rest)),
                check[p]? = some false) := by
            simp only [List.map_cons, List.nodup_cons, List.mem_cons, forall_eq_or_imp]
            constructor
            · rintro ⟨hnd, hall⟩
              have hnot : node.primitive_offset.toNat ∉
                  List.map Int.toNat (leaf_payloads (List.take n rest)) := by
                intro hmem
                have := hall _ hmem
                rw [List.getElem?_set] at this
                simp [h1] at this
              refine ⟨⟨hnot, hnd⟩, ?_, ?_⟩
              · rw [List.getElem?_eq_getElem h1, hc]
              · intro p hp
                have := hall p hp
                rw [List.getElem?_set] at this
                have hne : node.primitive_offset.toNat ≠ p := by
                  intro h; rw [h] at hnot; exact hnot hp
                simpa [hne] using this
            · rintro ⟨⟨hnot, hnd⟩, -, hall⟩
              refine ⟨hnd, ?_⟩
              intro p hp
              have hne : node.primitive_offset.toNat ≠ p := by
                intro h; rw [h] at hnot; exact hnot hp
              rw [List.getElem?_set_ne hne]
              exact hall p hp
          by_cases hcond : ((List.map Int.toNat (node.primitive_offset :: leaf_payloads (List.take n rest))).Nodup ∧
              ∀ p ∈ List.map Int.toNat (node.primitive_offset :: leaf_payloads (List.take n rest)),
                check[p]? = some false)
          · rw [if_pos hcond, if_pos (hiff.mpr hcond)]
            simp only [List.map_cons, mark_cons, List.length_cons]
            congr 3
            omega
          · rw [if_neg hcond, if_neg (fun h => hcond (hiff.mp h))]

theorem identity_indices_nodup (n : Nat) : (identity_indices n).Nodup := by
  simp only [identity_indices]
  exact List.Nodup.map (fun a b h => Int.ofNat.inj h) (List.nodup_range n)

theorem mem_identity_indices (n : Nat) (p : Int) :
    p ∈ identity_indices n ↔ 0 ≤ p ∧ p < n := by
  simp only [identity_indices, List.mem_map, List.mem_range]
  constructor
  · rintro ⟨k, hk, rfl⟩
    exact ⟨Int.ofNat_nonneg k, by simpa using hk⟩
  · rintro ⟨h0, h1⟩
    refine ⟨p.toNat, by omega, ?_⟩
    simp only [Int.ofNat_eq_coe]
    omega

/-- A list of integers is a rearrangement of `0, ..., n - 1`, with `n` its length, exactly
when its entries are pairwise distinct and every one of these numbers occurs in it. -/
theorem perm_identity_iff (ps : List Int) :
    List.Perm ps (identity_indices ps.length) ↔
      ps.Nodup ∧ ∀ i : Nat, i < ps.length → (i : Int) ∈ ps := by
  constructor
  · intro h
    refine ⟨(List.Perm.nodup_iff h).mpr (identity_indices_nodup _), ?_⟩
    intro i hi
    rw [List.Perm.mem_iff h, mem_identity_indices]
    exact ⟨Int.ofNat_nonneg i, by simpa using hi⟩
  · rintro ⟨hnd, hall⟩
    have hsub : identity_indices ps.length ⊆ ps := by
      intro p hp
      rw [mem_identity_indices] at hp
      have := hall p.toNat (by omega)
      rwa [Int.toNat_of_nonneg hp.1] at this
    have hsp := List.subperm_of_subset (identity_indices_nodup ps.length) hsub
    exact (hsp.perm_of_length_le (by rw [identity_indices_length])).symm

theorem take_mark_all (n k : Nat) (is : List Nat) (hk : k ≤ n) :
    ((mark (List.replicate n false) is).take k).all (fun b => b) = true ↔
      ∀ i : Nat, i < k → i ∈ is := by
  have hget : ∀ i : Nat, i < k →
      ((mark (List.replicate n false) is).take k)[i]? = some (decide (i ∈ is)) := by
    intro i hi
    rw [List.getElem?_take_of_lt hi, mark_getElem?, List.getElem?_replicate_of_lt (by omega)]
    by_cases hmem : i ∈ is <;> simp [hmem]
  rw [List.all_eq_true]
  constructor
  · intro h i hi
    have hmem := List.getElem?_mem (hget i hi)
    simpa using h _ hmem
  · intro h x hx
    obtain ⟨i, hi, rfl⟩ := List.getElem_of_mem hx
    have hlt : i < k := by
      have := hi
      rw [List.length_take] at this
      omega
    have := hget i hlt
    rw [List.getElem?_eq_getElem hi] at this
    simp only [Option.some.injEq] at this
    rw [this]
    simpa using h i hlt

theorem leaf_payloads_length_le (arr : List BVHNode) :
    (leaf_payloads arr).length ≤ arr.length := by
  simp only [leaf_payloads, leaf_slots, List.length_map]
  exact List.length_filter_le _ _

/-- The value of `validate_flattened_bvh(node, len)` on an array whose payloads are indices
into the array: whether the payloads of the leaf slots are pairwise distinct and every
index below the number of leaf slots is among them. -/
theorem validate_flattened_bvh_eq (nodes : List BVHNode) (len : Nat) (hlen : len ≤ nodes.length)
    (hok : ∀ p ∈ leaf_payloads (nodes.take len), 0 ≤ p ∧ p < len) :
    validate_flattened_bvh nodes len =
      .ok (decide ((leaf_payloads (nodes.take len)).Nodup ∧
        ∀ i : Nat, i < (leaf_payloads (nodes.take len)).length →
          (i : Int) ∈ leaf_payloads (nodes.take len))) := by
  have hok2 : ∀ p ∈ leaf_payloads (nodes.take len),
      0 ≤ p ∧ p.toNat < (List.replicate len false).length := by
    intro p hp
    have := hok p hp
    rw [List.length_replicate]
    omega
  have hnd : ((leaf_payloads (nodes.take len)).map Int.toNat).Nodup ↔
      (leaf_payloads (nodes.take len)).Nodup := by
    constructor
    · exact List.Nodup.of_map _
    · intro h
      refine List.Nodup.map_on ?_ h
      intro x hx y hy hxy
      have := (hok x hx).1
      have := (hok y hy).1
      omega
  have hfalse : ∀ p ∈ (leaf_payloads (nodes.take len)).map Int.toNat,
      (List.replicate len false)[p]? = some false := by
    intro p hp
    obtain ⟨q, hq, rfl⟩ := List.mem_map.mp hp
    have := hok q hq
    exact List.getElem?_replicate_of_lt (by omega)
  have hk : (leaf_payloads (nodes.take len)).length ≤ len := by
    have := leaf_payloads_length_le (nodes.take len)
    rw [List.length_take] at this
    omega
  simp only [validate_flattened_bvh]
  rw [flattened_leaf_loop_eq len nodes _ 0 hlen hok2]
  by_cases hdup : (leaf_payloads (nodes.take len)).Nodup
  · rw [if_pos ⟨hnd.mpr hdup, hfalse⟩]
    simp only [Nat.zero_add, Except.ok.injEq]
    rw [Bool.eq_iff_iff, take_mark_all _ _ _ hk, decide_eq_true_iff]
    constructor
    · intro h
      refine ⟨hdup, fun i hi => ?_⟩
      obtain ⟨q, hq, hqi⟩ := List.mem_map.mp (h i hi)
      have := (hok q hq).1
      have hqe : q = (i : Int) := by omega
      rwa [hqe] at hq
    · rintro ⟨-, h⟩ i hi
      exact List.mem_map.mpr ⟨(i : Int), h i hi, by simp⟩
  · rw [if_neg (fun h => hdup (hnd.mp h.1))]
    simp only [Except.ok.injEq]
    symm
    rw [decide_eq_false_iff_not]
    exact fun h => hdup h.1

/-- The value of `validate_flattened_bvh` depends on the payloads of the slots only. -/
theorem flattened_leaf_loop_congr :
    ∀ (n : Nat) (a b : List BVHNode) (check : List Bool) (num : Nat),
      a.map (·.primitive_offset) = b.map (·.primitive_offset) →
      flattened_leaf_loop n a check num = flattened_leaf_loop n b check num := by
  intro n
  induction n with
  | zero => intro a b check num _; rfl
  | succ n ih =>
    intro a b check num h
    match a, b, h with
    | [], [], _ => rfl
    | [], _ :: _, h => simp at h
    | _ :: _, [], h => simp at h
    | x :: a, y :: b, h =>
      simp only [List.map_cons, List.cons.injEq] at h
      simp only [flattened_leaf_loop, h.1]
      split_ifs
      · cases indexInt check y.primitive_offset with
        | error e => rfl
        | ok c =>
          cases c with
          | true => rfl
          | false => exact ih _ _ _ _ h.2
      · exact ih _ _ _ _ h.2

/-- C12. For every flattened array `node` of length `len` whose leaf slots (the slots with
`primitive_offset != -1`) all have their payload in `[0, len)`, `validate_flattened_bvh`
returns a value, and the value is `true` if and only if the payloads of the leaf slots are
pairwise distinct and are exactly the numbers `0, ..., num_leaves - 1`, where `num_leaves`
is the number of leaf slots; an array with the same payloads slot by slot gives the same
result, so the boxes and the `right_child_offset` values never influence it. -/
theorem validate_flattened_bvh_coverage (node : List BVHNode)
    (hok : ∀ n ∈ leaf_slots node,
      0 ≤ n.primitive_offset ∧ n.primitive_offset < node.length) :
    (∃ b, validate_flattened_bvh node node.length = .ok b) ∧
    (validate_flattened_bvh node node.length = .ok true ↔
      (leaf_payloads node).Nodup ∧
      ∀ p : Int, p ∈ leaf_payloads node ↔ 0 ≤ p ∧ p < (leaf_slots node).length) ∧
    (∀ other : List BVHNode,
      other.map (·.primitive_offset) = node.map (·.primitive_offset) →
      validate_flattened_bvh other other.length = validate_flattened_bvh node node.length) := by
  have hok2 : ∀ p ∈ leaf_payloads (node.take node.length), 0 ≤ p ∧ p < node.length := by
    intro p hp
    rw [List.take_length] at hp
    obtain ⟨n, hn, rfl⟩ := List.mem_map.mp hp
    exact hok n hn
  have heq := validate_flattened_bvh_eq node node.length (le_refl _) hok2
  rw [List.take_length] at heq
  have hlen : (leaf_payloads node).length = (leaf_slots node).length := by
    simp [leaf_payloads]
  refine ⟨⟨_, heq⟩, ?_, ?_⟩
  · rw [heq, Except.ok.injEq, decide_eq_true_iff, ← perm_identity_iff]
    constructor
    · intro hperm
      refine ⟨(List.Perm.nodup_iff hperm).mpr (identity_indices_nodup _), fun p => ?_⟩
      rw [List.Perm.mem_iff hperm, mem_identity_indices, hlen]
    · rintro ⟨hnd, hmem⟩
      rw [perm_identity_iff]
      refine ⟨hnd, fun i hi => ?_⟩
      rw [hmem]
      exact ⟨Int.ofNat_nonneg i, by rw [← hlen]; exact_mod_cast hi⟩
  · intro other hother
    have hl : other.length = node.length := by
      have := congrArg List.length hother
      simpa using this
    simp only [validate_flattened_bvh, hl]
    rw [flattened_leaf_loop_congr _ _ _ _ _ hother]

theorem validate_flattened_bvh_coverage_witness :
    (∀ n ∈ leaf_slots sample_scene_rebuilt.m_bvh_buffer,
      0 ≤ n.primitive_offset ∧ n.primitive_offset < sample_scene_rebuilt.m_bvh_buffer.length) ∧
    validate_flattened_bvh sample_scene_rebuilt.m_bvh_buffer
      sample_scene_rebuilt.m_bvh_buffer.length = .ok true ∧
    (∃ b, validate_flattened_bvh sample_scene_rebuilt.m_bvh_buffer
      sample_scene_rebuilt.m_bvh_buffer.length = .ok b) ∧
    (validate_flattened_bvh sample_scene_rebuilt.m_bvh_buffer
        sample_scene_rebuilt.m_bvh_buffer.length = .ok true ↔
      (leaf_payloads sample_scene_rebuilt.m_bvh_buffer).Nodup ∧
      ∀ p : Int, p ∈ leaf_payloads sample_scene_rebuilt.m_bvh_buffer ↔
        0 ≤ p ∧ p < (leaf_slots sample_scene_rebuilt.m_bvh_buffer).length) ∧
    (∀ other : List BVHNode,
      other.map (·.primitive_offset) =
        sample_scene_rebuilt.m_bvh_buffer.map (·.primitive_offset) →
      validate_flattened_bvh other other.length =
        validate_flattened_bvh sample_scene_rebuilt.m_bvh_buffer
          sample_scene_rebuilt.m_bvh_buffer.length) :=
  ⟨by decide!, by decide!,
   validate_flattened_bvh_coverage sample_scene_rebuilt.m_bvh_buffer (by decide!)⟩

theorem validated_shape_full (t : BVHTreeNode) : validated_shape t → full t := by
  induction t with
  | null => intro h; exact h
  | node d l r ihl ihr =>
    intro h
    simp only [validated_shape] at h
    simp only [full]
    rcases h with ⟨h1, h2⟩ | ⟨h1, h2, -, h4, h5⟩
    · exact Or.inl ⟨h1, h2⟩
    · exact Or.inr ⟨h1, h2, ihl h4, ihr h5⟩

theorem validated_shape_no_single_child (t : BVHTreeNode) :
    validated_shape t → ¬ has_single_child t := by
  induction t with
  | null => intro h; simp [validated_shape] at h
  | node d l r ihl ihr =>
    intro h
    simp only [validated_shape] at h
    simp only [has_single_child]
    rcases h with ⟨rfl, rfl⟩ | ⟨h1, h2, -, h4, h5⟩
    · simp [has_single_child]
    · have := ihl h4
      have := ihr h5
      tauto

theorem leaves_of_leaf (d : BVHNode) : leaves (.node d .null .null) = [d] := by
  simp [leaves, is_leaf]

theorem leaves_of_inner {d : BVHNode} {l r : BVHTreeNode} (h : is_leaf l r = false) :
    leaves (.node d l r) = leaves l ++ leaves r := by
  simp [leaves, h]

/-- What a run of the loop of `validate_bvh` to its end says about the trees on the stack:
their nodes with a child have two and carry no payload, the traversal stays below the
stack limit, the payloads of their leaves are indices of flags that were not set, no two
leaves have the same payload, every leaf passes the box test, and the flags at the end are
the flags at the start with those of the payloads set. -/
theorem validate_loop_some (pool : List GLtriangle) (data : List Primitive) :
    ∀ (fuel : Nat) (stack : List BVHTreeNode) (checks checks2 : List Bool),
      validate_loop pool data fuel stack checks = .ok (some checks2) →
      stack.length < kTreeStackLimit →
      (∀ t ∈ stack, validated_shape t) ∧ validate_fits stack ∧
      (∀ p ∈ leaf_offsets_all stack, 0 ≤ p ∧ checks[p.toNat]? = some false) ∧
      (leaf_offsets_all stack).Nodup ∧
      checks2 = mark checks ((leaf_offsets_all stack).map Int.toNat) ∧
      (∀ t ∈ stack, leaf_boxes_ok pool data t) := by
  intro fuel
  induction fuel with
  | zero => intro stack checks checks2 h; simp [validate_loop] at h
  | succ fuel ih =>
    intro stack checks checks2 h hlen
    match stack, h, hlen with
    | [], h, _ =>
      simp only [validate_loop, Except.ok.injEq, Option.some.injEq] at h
      subst h
      simp [validate_fits, leaf_offsets_all, mark]
    | .null :: rest, h, _ => simp [validate_loop] at h
    | .node d l r :: rest, h, hlen =>
      simp only [validate_loop] at h
      by_cases hleaf : is_leaf l r = true
      · obtain ⟨rfl, rfl⟩ := is_leaf_eq_true hleaf
        simp only [hleaf, if_true] at h
        split at h
        · cases h
        · cases h
        · rename_i hidx
          obtain ⟨h0, hget⟩ := indexInt_ok hidx
          split at h
          · cases h
          · rename_i bbox0 hbox
            have hcheck : bbox_check d.bbox bbox0 = true := by
              by_contra hc
              simp [hc] at h
            simp only [hcheck, not_true_eq_false, if_false] at h
            have hlen2 : rest.length < kTreeStackLimit := by
              simp only [List.length_cons] at hlen; omega
            obtain ⟨hshape, hfits, hoff, hnd, hmark, hboxes⟩ := ih _ _ _ h hlen2
            have hlt : d.primitive_offset.toNat < checks.length := by
              by_contra hcon
              rw [List.getElem?_eq_none (by omega)] at hget
              cases hget
            have hnot : d.primitive_offset ∉ leaf_offsets_all rest := by
              intro hmem
              have := (hoff _ hmem).2
              rw [List.getElem?_set] at this
              simp [hlt] at this
            refine ⟨?_, ?_, ?_, ?_, ?_, ?_⟩
            · intro t ht
              rcases List.mem_cons.mp ht with rfl | ht
              · simp [validated_shape]
              · exact hshape t ht
            · simp only [validate_fits, stack_need, hleaf, if_true]
              simp only [List.length_cons] at hlen
              exact ⟨hlen, hfits⟩
            · intro p hp
              simp only [leaf_offsets_all, leaf_offsets, leaves_of_leaf, List.map_cons,
                List.map_nil, List.singleton_append, List.mem_cons] at hp
              rcases hp with rfl | hp
              · exact ⟨h0, hget⟩
              · refine ⟨(hoff p hp).1, ?_⟩
                have hp0 := (hoff p hp).1
                have hne : d.primitive_offset.toNat ≠ p.toNat := by
                  intro hc
                  have : d.primitive_offset = p := by omega
                  rw [this] at hnot
                  exact hnot hp
                have := (hoff p hp).2
                rwa [List.getElem?_set_ne hne] at this
            · simp only [leaf_offsets_all, leaf_offsets, leaves_of_leaf, List.map_cons,
                List.map_nil, List.singleton_append, List.nodup_cons]
              exact ⟨hnot, hnd⟩
            · simp only [leaf_offsets_all, leaf_offsets, leaves_of_leaf, List.map_cons,
                List.map_nil, List.singleton_append, mark_cons]
              exact hmark
            · intro t ht
              rcases List.mem_cons.mp ht with rfl | ht
              · intro x hx
                rw [leaves_of_leaf, List.mem_singleton] at hx
                subst hx
                exact ⟨bbox0, hbox, by simpa using hcheck⟩
              · exact hboxes t ht
      · have hleaf2 : is_leaf l r = false := by simpa using hleaf
        simp only [hleaf2, Bool.false_eq_true, if_false] at h
        have hpo2 : d.primitive_offset = -1 := by
          by_contra hc
          simp [hc] at h
        simp only [hpo2, ne_eq, not_true_eq_false, if_false] at h
        have hl : l ≠ .null := by
          intro hc
          simp [hc] at h
        have hr : r ≠ .null := by
          intro hc
          simp [hc] at h
        simp only [hl, hr, or_self, if_false] at h
        have hstack2 : rest.length + 2 < kTreeStackLimit := by
          by_contra hc
          simp [hc] at h
        simp only [hstack2, not_true_eq_false, if_false] at h
        obtain ⟨hshape, hfits, hoff, hnd, hmark, hboxes⟩ :=
          ih _ _ _ h (by simp only [List.length_cons]; omega)
        simp only [validate_fits, List.length_cons] at hfits
        have hoffs : leaf_offsets_all (.node d l r :: rest) = leaf_offsets_all (l :: r :: rest) := by
          simp only [leaf_offsets_all, leaf_offsets, leaves_of_inner hleaf2, List.map_append,
            List.append_assoc]
        refine ⟨?_, ?_, ?_, ?_, ?_, ?_⟩
        · intro t ht
          rcases List.mem_cons.mp ht with rfl | ht
          · simp only [validated_shape]
            exact Or.inr ⟨hl, hr, hpo2, hshape l (by simp), hshape r (by simp)⟩
          · exact hshape t (by simp [ht])
        · simp only [validate_fits, stack_need, hleaf2, Bool.false_eq_true, if_false]
          refine ⟨?_, hfits.2.2⟩
          have h1 := hfits.1
          have h2 := hfits.2.1
          rcases max_cases (1 + stack_need l) (stack_need r) with ⟨e, -⟩ | ⟨e, -⟩ <;>
            rw [e] <;> omega
        · rw [hoffs]; exact hoff
        · rw [hoffs]; exact hnd
        · rw [hoffs]; exact hmark
        · intro t ht
          rcases List.mem_cons.mp ht with rfl | ht
          · intro x hx
            rw [leaves_of_inner hleaf2, List.mem_append] at hx
            rcases hx with hx | hx
            · exact hboxes l (by simp) x hx
            · exact hboxes r (by simp) x hx
          · exact hboxes t (by simp [ht])

/-- With `count = 1` the assertion of `get_bbox` holds, so a failure is a read outside a
slice. -/
theorem get_bbox_one_error {pool : List GLtriangle} {prims : List Primitive} {e : Err}
    (h : get_bbox pool prims 1 = .error e) : e = .outOfBounds := by
  rcases get_bbox_error h with rfl | rfl
  · simp only [get_bbox] at h
    rw [if_neg (by simp)] at h
    split at h
    · rename_i e2 he; cases h; exact index_error he
    · split at h
      · rename_i e2 he; cases h; exact indexInt_error he
      · exact bbox_primitives_error pool _ _ _ _ h
  · rfl

/-- What the value `true` of `validate_bvh` says about the tree. -/
theorem validate_bvh_true {pool : List GLtriangle} {data : List Primitive} {root : BVHTreeNode}
    (h : validate_bvh pool root data = .ok true) :
    validated_shape root ∧ stack_need root < kTreeStackLimit ∧
    List.Perm (leaf_offsets root) (identity_indices data.length) ∧
    leaf_boxes_ok pool data root := by
  simp only [validate_bvh] at h
  split at h
  · cases h
  · cases h
  · rename_i checks hloop
    simp only [Except.ok.injEq] at h
    obtain ⟨hshape, hfits, hoff, hnd, hmark, hboxes⟩ :=
      validate_loop_some pool data _ [root] _ _ hloop (by simp [kTreeStackLimit])
    simp only [leaf_offsets_all, List.append_nil] at hoff hnd hmark
    simp only [validate_fits, List.length_nil, Nat.zero_add, and_true] at hfits
    refine ⟨hshape root (by simp), hfits, ?_, hboxes root (by simp)⟩
    have hrange : ∀ p ∈ leaf_offsets root, 0 ≤ p ∧ p < data.length := by
      intro p hp
      obtain ⟨h0, hget⟩ := hoff p hp
      refine ⟨h0, ?_⟩
      by_contra hcon
      rw [List.getElem?_eq_none (by rw [List.length_replicate]; omega)] at hget
      cases hget
    have hcover : ∀ i : Nat, i < data.length → (i : Int) ∈ leaf_offsets root := by
      have htake : (mark (List.replicate data.length false)
            ((leaf_offsets root).map Int.toNat)).take data.length
          = mark (List.replicate data.length false) ((leaf_offsets root).map Int.toNat) := by
        rw [List.take_of_length_le]
        rw [mark_length, List.length_replicate]
      rw [hmark, ← htake, take_mark_all _ _ _ (le_refl _)] at h
      intro i hi
      obtain ⟨q, hq, hqi⟩ := List.mem_map.mp (h i hi)
      have := (hrange q hq).1
      have hqe : q = (i : Int) := by omega
      rwa [hqe] at hq
    rw [List.perm_ext_iff_of_nodup hnd (identity_indices_nodup _)]
    intro p
    rw [mem_identity_indices]
    constructor
    · exact hrange p
    · rintro ⟨h0, h1⟩
      have := hcover p.toNat (by omega)
      rwa [Int.toNat_of_nonneg h0] at this

/-- The loop of `validate_bvh` over trees other than `NULL` ends, and it ends with a value
or at the stack assertion or at an index outside an array: it never reads through a `NULL`
pointer. -/
theorem validate_loop_outcomes (pool : List GLtriangle) (data : List Primitive) :
    ∀ (fuel : Nat) (stack : List BVHTreeNode) (checks : List Bool),
      (∀ t ∈ stack, t ≠ .null) → size_sum stack < fuel →
      (∃ r, validate_loop pool data fuel stack checks = .ok r) ∨
      validate_loop pool data fuel stack checks = .error .stackAssert ∨
      validate_loop pool data fuel stack checks = .error .outOfBounds := by
  intro fuel
  induction fuel with
  | zero => intro stack checks _ h; omega
  | succ fuel ih =>
    intro stack checks hnn hfuel
    match stack, hnn, hfuel with
    | [], _, _ => exact Or.inl ⟨_, rfl⟩
    | .null :: rest, hnn, _ => exact absurd rfl (hnn .null (List.mem_cons_self _ _))
    | .node d l r :: rest, hnn, hfuel =>
      have hrest : ∀ t ∈ rest, t ≠ .null := fun t ht => hnn t (List.mem_cons_of_mem _ ht)
      simp only [size_sum, BVHTreeNode.size] at hfuel
      simp only [validate_loop]
      by_cases hleaf : is_leaf l r = true
      · simp only [hleaf, if_true]
        cases hidx : indexInt checks d.primitive_offset with
        | error e =>
          rw [indexInt_error hidx]
          exact Or.inr (Or.inr rfl)
        | ok c =>
          cases c with
          | true => exact Or.inl ⟨_, rfl⟩
          | false =>
            simp only
            cases hbox : get_bbox pool (data.drop d.primitive_offset.toNat) 1 with
            | error e =>
              rw [get_bbox_one_error hbox]
              exact Or.inr (Or.inr rfl)
            | ok b =>
              simp only
              split_ifs
              · exact ih _ _ hrest (by omega)
              · exact Or.inl ⟨_, rfl⟩
      · have hleaf2 : is_leaf l r = false := by simpa using hleaf
        simp only [hleaf2, Bool.false_eq_true, if_false]
        by_cases hpo : d.primitive_offset = -1
        · simp only [hpo, ne_eq, not_true_eq_false, if_false]
          by_cases hnull : l = .null ∨ r = .null
          · rw [if_pos hnull]; exact Or.inl ⟨_, rfl⟩
          · rw [if_neg hnull]
            by_cases hstack : rest.length + 2 < kTreeStackLimit
            · rw [if_neg (by simpa using hstack)]
              apply ih
              · intro t ht
                rcases List.mem_cons.mp ht with rfl | ht
                · exact fun hc => hnull (Or.inl hc)
                · rcases List.mem_cons.mp ht with rfl | ht
                  · exact fun hc => hnull (Or.inr hc)
                  · exact hrest t ht
              · simp only [size_sum]; omega
            · rw [if_pos (by simpa using hstack)]
              exact Or.inr (Or.inl rfl)
        · rw [if_pos (by simpa using hpo)]
          exact Or.inl ⟨_, rfl⟩

/-- The loop of `validate_bvh` ends with a value on any stack of trees other than `NULL`
whose leaves name readable primitives and whose traversal stays below the stack limit. -/
theorem validate_loop_returns (pool : List GLtriangle) (data : List Primitive) :
    ∀ (fuel : Nat) (stack : List BVHTreeNode) (checks : List Bool),
      (∀ t ∈ stack, t ≠ .null) → (∀ t ∈ stack, leaves_in_range pool data t) →
      checks.length = data.length → validate_fits stack → size_sum stack < fuel →
      ∃ r, validate_loop pool data fuel stack checks = .ok r := by
  intro fuel
  induction fuel with
  | zero => intro stack checks _ _ _ _ h; omega
  | succ fuel ih =>
    intro stack checks hnn hrange hlen hfits hfuel
    match stack, hnn, hrange, hfits, hfuel with
    | [], _, _, _, _ => exact ⟨_, rfl⟩
    | .null :: rest, hnn, _, _, _ => exact absurd rfl (hnn .null (List.mem_cons_self _ _))
    | .node d l r :: rest, hnn, hrange, hfits, hfuel =>
      have hrest : ∀ t ∈ rest, t ≠ .null := fun t ht => hnn t (List.mem_cons_of_mem _ ht)
      have hrest2 : ∀ t ∈ rest, leaves_in_range pool data t :=
        fun t ht => hrange t (List.mem_cons_of_mem _ ht)
      have hleaves := hrange (.node d l r) (List.mem_cons_self _ _)
      simp only [validate_fits] at hfits
      simp only [size_sum, BVHTreeNode.size] at hfuel
      simp only [validate_loop]
      by_cases hleaf : is_leaf l r = true
      · obtain ⟨rfl, rfl⟩ := is_leaf_eq_true hleaf
        simp only [hleaf, if_true]
        obtain ⟨h0, p, hp, hread⟩ := hleaves d (by simp [leaves, is_leaf])
        have hlt : d.primitive_offset.toNat < data.length := by
          by_contra hcon
          rw [List.getElem?_eq_none (by omega)] at hp
          cases hp
        obtain ⟨c, hc⟩ := @indexInt_in_range Bool checks _ h0 (by omega)
        rw [hc]
        cases c with
        | true => exact ⟨_, rfl⟩
        | false =>
          simp only
          have hdrop : data.drop d.primitive_offset.toNat
              = p :: data.drop (d.primitive_offset.toNat + 1) := by
            have h1 := List.drop_eq_getElem_cons hlt
            rw [List.getElem?_eq_getElem hlt] at hp
            cases hp
            exact h1
          obtain ⟨b, hb⟩ := get_bbox_single_ok hread (data.drop (d.primitive_offset.toNat + 1))
          rw [hdrop, hb]
          simp only
          split_ifs
          · exact ih _ _ hrest hrest2 (by rw [List.length_set]; exact hlen) hfits.2 (by omega)
          · exact ⟨_, rfl⟩
      · have hleaf2 : is_leaf l r = false := by simpa using hleaf
        simp only [hleaf2, Bool.false_eq_true, if_false]
        by_cases hpo : d.primitive_offset = -1
        · simp only [hpo, ne_eq, not_true_eq_false, if_false]
          by_cases hnull : l = .null ∨ r = .null
          · rw [if_pos hnull]; exact ⟨_, rfl⟩
          · rw [if_neg hnull]
            simp only [stack_need, hleaf2, Bool.false_eq_true, if_false] at hfits
            have h1 := stack_need_pos l
            have hml : 1 + stack_need l ≤ max (1 + stack_need l) (stack_need r) :=
              le_max_left _ _
            have hmr : stack_need r ≤ max (1 + stack_need l) (stack_need r) := le_max_right _ _
            have hmax := hfits.1
            rw [if_neg (by simp; omega)]
            apply ih _ _ _ _ hlen
            · simp only [validate_fits, List.length_cons]
              exact ⟨by omega, by omega, hfits.2⟩
            · simp only [size_sum]; omega
            · intro t ht
              rcases List.mem_cons.mp ht with rfl | ht
              · exact fun hc => hnull (Or.inl hc)
              · rcases List.mem_cons.mp ht with rfl | ht
                · exact fun hc => hnull (Or.inr hc)
                · exact hrest t ht
            · intro t ht
              rcases List.mem_cons.mp ht with rfl | ht
              · intro x hx
                apply hleaves x
                rw [leaves_of_inner hleaf2, List.mem_append]
                exact Or.inl hx
              · rcases List.mem_cons.mp ht with rfl | ht
                · intro x hx
                  apply hleaves x
                  rw [leaves_of_inner hleaf2, List.mem_append]
                  exact Or.inr hx
                · exact hrest2 t ht
        · rw [if_pos (by simpa using hpo)]
          exact ⟨_, rfl⟩

/-- The outcomes of `validate_bvh` on a tree with a node that has exactly one child. -/
theorem validate_bvh_single_child (pool : List GLtriangle) (data : List Primitive)
    (root : BVHTreeNode) (h : has_single_child root) :
    validate_bvh pool root data = .ok false ∨
    validate_bvh pool root data = .error .stackAssert ∨
    validate_bvh pool root data = .error .outOfBounds := by
  have hnn : root ≠ .null := by
    intro hc; rw [hc] at h; exact h
  have hnot : validate_bvh pool root data ≠ .ok true :=
    fun hc => validated_shape_no_single_child root (validate_bvh_true hc).1 h
  have hcases := validate_loop_outcomes pool data (root.size + 1) [root]
    (List.replicate data.length false)
    (by intro t ht; simp at ht; rw [ht]; exact hnn) (by simp [size_sum])
  simp only [validate_bvh] at hnot ⊢
  rcases hcases with ⟨r, hr⟩ | hr | hr
  · rw [hr] at hnot ⊢
    cases r with
    | none => exact Or.inl rfl
    | some c =>
      simp only at hnot ⊢
      left
      cases hall : c.all (fun c => c) with
      | false => rfl
      | true => rw [hall] at hnot; exact absurd rfl hnot
  · rw [hr]; exact Or.inr (Or.inl rfl)
  · rw [hr]; exact Or.inr (Or.inr rfl)

/-- C13 (as amended). `validate_bvh(root, data)` with `N = count(data)` returns `true` only
if (a) the payloads of the leaves are pairwise distinct and cover every index in `[0, N)` exactly once
(they are a rearrangement of `0, ..., N - 1`), (b) no node with a child carries a payload
and (c) every node with a child has two children other than `NULL` (b and c together are
`validated_shape`).  On a tree that contains a node with exactly one child the result is
never `true` and never a read through a `NULL` pointer: it is `false`, unless the run stops
before that at the stack assertion or at a payload that is no index of `data`; and it is
`false` whenever every payload names a readable primitive and the traversal stays below the
stack limit. -/
theorem validate_bvh_sound (pool : List GLtriangle) (data : List Primitive)
    (root : BVHTreeNode) :
    (validate_bvh pool root data = .ok true →
      (leaf_offsets root).Nodup ∧
      (∀ p : Int, p ∈ leaf_offsets root ↔ 0 ≤ p ∧ p < data.length) ∧
      List.Perm (leaf_offsets root) (identity_indices data.length) ∧
      validated_shape root ∧ ¬ has_single_child root) ∧
    (has_single_child root →
      (validate_bvh pool root data = .ok false ∨
        validate_bvh pool root data = .error .stackAssert ∨
        validate_bvh pool root data = .error .outOfBounds) ∧
      (leaves_in_range pool data root → stack_need root < kTreeStackLimit →
        validate_bvh pool root data = .ok false)) := by
  refine ⟨fun h => ?_, fun h => ⟨validate_bvh_single_child pool data root h, fun hr hn => ?_⟩⟩
  · obtain ⟨hshape, -, hperm, -⟩ := validate_bvh_true h
    refine ⟨(List.Perm.nodup_iff hperm).mpr (identity_indices_nodup _), fun p => ?_, hperm,
      hshape, validated_shape_no_single_child root hshape⟩
    rw [List.Perm.mem_iff hperm, mem_identity_indices]
  · have hnn : root ≠ .null := by
      intro hc; rw [hc] at h; exact h
    obtain ⟨r, hloop⟩ := validate_loop_returns pool data (root.size + 1) [root]
      (List.replicate data.length false)
      (by intro t ht; simp at ht; rw [ht]; exact hnn)
      (by intro t ht; simp at ht; rw [ht]; exact hr)
      (by simp)
      (by simp only [validate_fits, List.length_nil, Nat.zero_add, and_true]; exact hn)
      (by simp [size_sum])
    rcases validate_bvh_single_child pool data root h with h1 | h1 | h1
    · exact h1
    · simp only [validate_bvh, hloop] at h1
      cases r <;> cases h1
    · simp only [validate_bvh, hloop] at h1
      cases r <;> cases h1

theorem validate_bvh_sound_witness :
    (validate_bvh sample_pool sample_tree (sample_primitives.take 2) = .ok true ∧
      has_single_child lopsided_tree ∧
      leaves_in_range sample_pool (sample_primitives.take 2) lopsided_tree ∧
      stack_need lopsided_tree < kTreeStackLimit) ∧
    ((leaf_offsets sample_tree).Nodup ∧
      (∀ p : Int, p ∈ leaf_offsets sample_tree ↔
        0 ≤ p ∧ p < (sample_primitives.take 2).length) ∧
      List.Perm (leaf_offsets sample_tree)
        (identity_indices (sample_primitives.take 2).length) ∧
      validated_shape sample_tree ∧ ¬ has_single_child sample_tree) ∧
    validate_bvh sample_pool lopsided_tree (sample_primitives.take 2) = .ok false :=
  ⟨⟨by decide!, by decide, by decide!, by decide⟩,
   (validate_bvh_sound sample_pool (sample_primitives.take 2) sample_tree).1 (by decide!),
   ((validate_bvh_sound sample_pool (sample_primitives.take 2) lopsided_tree).2
     (by decide)).2 (by decide!) (by decide)⟩

/-- C13 as stated fails: a tree with a node that has exactly one child is not always
answered with `false`.  On `single_comb 15`, whose lowest node on a left spine of 16 nodes
has one child, `validate_bvh` stops at `ph_assert(stack_offset + 2 < kTreeStackLimit)`
before it comes to that node; on `stray_tree` it comes first to a leaf with the payload
`7` and reads `checks[7]` in an array of two flags.  Neither run returns `false`. -/
theorem validate_bvh_sound_counterexample :
    has_single_child (single_comb 15) ∧
    validate_bvh [] (single_comb 15) [] = .error .stackAssert ∧
    has_single_child stray_tree ∧
    validate_bvh sample_pool stray_tree (sample_primitives.take 2) = .error .outOfBounds := by
  refine ⟨by decide, by decide!, by decide, by decide!⟩

/-- A tree in which every node with a child has two and carries no payload, with `n`
leaves, has `2 n - 1` nodes. -/
theorem validated_shape_size (t : BVHTreeNode) :
    validated_shape t → t.size + 1 = 2 * (leaves t).length := by
  induction t with
  | null => intro h; simp [validated_shape] at h
  | node d l r ihl ihr =>
    intro h
    simp only [validated_shape] at h
    rcases h with ⟨rfl, rfl⟩ | ⟨hl, hr, -, hwl, hwr⟩
    · simp [leaves, is_leaf, BVHTreeNode.size]
    · have e1 := ihl hwl
      have e2 := ihr hwr
      simp only [leaves, is_leaf_false_of_left hl, Bool.false_eq_true, if_false,
        List.length_append, BVHTreeNode.size]
      omega

/-- The leaf slots of the flattening are the leaves of the tree when no node with a child
carries a payload and every leaf does. -/
theorem leaf_slots_flat_spec_validated (t : BVHTreeNode) :
    ∀ i, validated_shape t → (∀ d ∈ leaves t, d.primitive_offset ≠ -1) →
      leaf_slots (flat_spec i t) = leaves t := by
  induction t with
  | null => intro i h; simp [validated_shape] at h
  | node d l r ihl ihr =>
    intro i h hpay
    simp only [validated_shape] at h
    rcases h with ⟨rfl, rfl⟩ | ⟨h1, h2, h3, h4, h5⟩
    · have : d.primitive_offset ≠ -1 := hpay d (by simp [leaves, is_leaf])
      simp [leaf_slots, flat_spec, leaves, is_leaf, this]
    · have hleaf := @is_leaf_false_of_left l r h1
      rw [leaves_of_inner hleaf] at hpay
      have hl := ihl (i + 1) h4 (fun x hx => hpay x (List.mem_append_left _ hx))
      have hr := ihr (i + 1 + l.size) h5 (fun x hx => hpay x (List.mem_append_right _ hx))
      simp only [leaf_slots] at hl hr
      simp only [leaf_slots, flat_spec, leaves, hleaf, Bool.false_eq_true, if_false,
        List.filter_cons, h3, ne_eq, not_true_eq_false, decide_False, List.filter_append, hl, hr]

/-- The array validator accepts the flattening of a tree that the tree validator
accepts. -/
theorem validate_flat_spec {pool : List GLtriangle} {data : List Primitive}
    {root : BVHTreeNode} (h : validate_bvh pool root data = .ok true) :
    validate_flattened_bvh (flat_spec 0 root) root.size = .ok true := by
  obtain ⟨hshape, -, hperm, -⟩ := validate_bvh_true h
  have hfull := validated_shape_full root hshape
  have hlen := flat_spec_length root 0 hfull
  have hsz := validated_shape_size root hshape
  have hN : (leaves root).length = data.length := by
    have := hperm.length_eq
    simpa [leaf_offsets, identity_indices_length] using this
  have hpay : ∀ d ∈ leaves root, d.primitive_offset ≠ -1 := by
    intro d hd
    have hmem : d.primitive_offset ∈ leaf_offsets root := List.mem_map.mpr ⟨d, hd, rfl⟩
    rw [List.Perm.mem_iff hperm, mem_identity_indices] at hmem
    omega
  have hslots : leaf_payloads (flat_spec 0 root) = leaf_offsets root := by
    simp only [leaf_payloads, leaf_offsets, leaf_slots_flat_spec_validated root 0 hshape hpay]
  have htake : (flat_spec 0 root).take root.size = flat_spec 0 root := by
    rw [List.take_of_length_le (by rw [hlen])]
  have hlen2 : (leaf_offsets root).length = data.length := by
    simpa [leaf_offsets] using hN
  rw [validate_flattened_bvh_eq (flat_spec 0 root) root.size (by rw [hlen])]
  · rw [htake, hslots, Except.ok.injEq, decide_eq_true_iff, ← perm_identity_iff, hlen2]
    exact hperm
  · rw [htake, hslots]
    intro p hp
    rw [List.Perm.mem_iff hperm, mem_identity_indices] at hp
    refine ⟨hp.1, ?_⟩
    have := hp.2
    omega

/-- C11 (as amended). For every tree and primitive set for which `validate_bvh` returns
`true`, where the root of the tree has two children (the assertion of `flatten_bvh`) and
the tree has at most `2 ^ 31` nodes (its other assertion), `flatten_bvh` applied to the
tree returns an array and a length, and `validate_flattened_bvh` applied to them returns
`true`. -/
theorem flatten_bvh_of_validated (pool : List GLtriangle) (data : List Primitive)
    (root : BVHTreeNode) (h : validate_bvh pool root data = .ok true)
    (hroot : root_has_children root) (hsize : root.size ≤ 2 ^ 31) :
    ∃ (flatroot : List BVHNode) (len : Nat),
      flatten_bvh root = .ok (flatroot, len) ∧
      validate_flattened_bvh flatroot len = .ok true := by
  obtain ⟨hshape, hneed, -, -⟩ := validate_bvh_true h
  refine ⟨flat_spec 0 root, root.size, ?_, validate_flat_spec h⟩
  cases root with
  | null => exact absurd hroot (by simp [root_has_children])
  | node d l r =>
    simp only [root_has_children] at hroot
    exact flatten_bvh_ok hroot.1 hroot.2 (validated_shape_full _ hshape) (le_of_lt hneed) hsize

theorem flatten_bvh_of_validated_witness :
    (validate_bvh sample_pool sample_tree (sample_primitives.take 2) = .ok true ∧
      root_has_children sample_tree ∧ sample_tree.size ≤ 2 ^ 31) ∧
    ∃ (flatroot : List BVHNode) (len : Nat),
      flatten_bvh sample_tree = .ok (flatroot, len) ∧
      validate_flattened_bvh flatroot len = .ok true :=
  ⟨⟨by decide!, by decide, by decide⟩,
   flatten_bvh_of_validated sample_pool (sample_primitives.take 2) sample_tree (by decide!)
     (by decide) (by decide)⟩

/-- C11 as stated fails. The single leaf over the first sample primitive is a tree for
which `validate_bvh` returns `true`, and `flatten_bvh` stops on it at
`ph_assert(root->left && root->right)`: there is no array to validate. -/
theorem flatten_bvh_of_validated_counterexample :
    validate_bvh sample_pool sample_leaf (sample_primitives.take 1) = .ok true ∧
    flatten_bvh sample_leaf = .error .rootChildren ∧
    ¬ ∃ (flatroot : List BVHNode) (len : Nat),
      flatten_bvh sample_leaf = .ok (flatroot, len) ∧
      validate_flattened_bvh flatroot len = .ok true := by
  refine ⟨by decide!, by decide!, ?_⟩
  rintro ⟨flatroot, len, h, -⟩
  have h2 : flatten_bvh sample_leaf = .error .rootChildren := by decide!
  rw [h2] at h
  cases h

/-- C14 (a defect of the code, not of the claim): the test of `validate_bvh` is `bbox.xmin -
bbox0.xmin < epsilon` and so on, without the absolute value, so a bound that is too small by any
amount passes. On `loose_tree` the left leaf has the box `[-2, 0] x [0, 2] x [0, 5]`, the box
recomputed for its primitive is `[-1, 1] x [0, 2] x [0, 5]`, two bounds differ by `1`, and
`validate_bvh` returns `true`. -/
theorem validate_bvh_accepts_smaller_bounds :
    validate_bvh sample_pool loose_tree (sample_primitives.take 2) = .ok true ∧
    (leaves loose_tree)[0]? = some ⟨0, -1, ⟨-2, 0, 0, 2, 0, 5⟩⟩ ∧
    get_bbox sample_pool ((sample_primitives.take 2).drop 0) 1 = .ok ⟨-1, 1, 0, 2, 0, 5⟩ ∧
    bbox_check ⟨-2, 0, 0, 2, 0, 5⟩ ⟨-1, 1, 0, 2, 0, 5⟩ = true ∧
    ¬ bbox_within_epsilon ⟨-2, 0, 0, 2, 0, 5⟩ ⟨-1, 1, 0, 2, 0, 5⟩ ∧
    epsilon < fabs ((-2 : float) - (-1)) := by
  refine ⟨by decide!, by decide!, by decide!, by decide!, by decide!, by decide!⟩

/-- C15 (a defect of the code, not of the claim): both loops of `flatten_bvh` push
`fatnode->right` and `fatnode->left` of every node that is not a leaf without looking at them,
and read through the pointer they pop. On `lopsided_tree`, whose root has two children and whose
right child has a left child only, the first loop pops the missing child and reads
`fatnode->data` through `NULL`; no array is returned. -/
theorem flatten_bvh_reads_missing_child :
    root_has_children lopsided_tree ∧ has_single_child lopsided_tree ∧
    flatten_bvh lopsided_tree = .error .nullDeref ∧
    validate_bvh sample_pool lopsided_tree (sample_primitives.take 2) = .ok false := by
  refine ⟨by decide, by decide, by decide!, by decide!⟩

/-- C17 (a defect of the code, not of the claim): `flatten_bvh` pushes on
`stack[kTreeStackLimit]` without a test of `stack_offset`. The left-deep tree with 20 nodes on
its spine has a root with two children and needs 21 stack entries; `flatten_bvh` stores past the
end of the array on it (the outcome `stackOverflow`, which has no defined behaviour in the
source), where `validate_bvh` stops at its assertion `stack_offset + 2 < kTreeStackLimit`. -/
theorem flatten_bvh_writes_past_stack :
    root_has_children (left_comb 20) ∧ full (left_comb 20) ∧
    stack_need (left_comb 20) = 21 ∧
    flatten_bvh (left_comb 20) = .error .stackOverflow ∧
    validate_bvh [] (left_comb 20) [] = .error .stackAssert := by
  refine ⟨by decide, by decide, by decide, by decide!, by decide!⟩

/-- The loop of `validate_bvh` is the iteration of its rounds. -/
theorem validate_loop_round (pool : List GLtriangle) (data : List Primitive) (fuel : Nat)
    (stack : List BVHTreeNode) (checks : List Bool) :
    validate_loop pool data (fuel + 1) stack checks =
      match validate_round pool data stack checks with
      | .done outcome => outcome
      | .next stack2 checks2 => validate_loop pool data fuel stack2 checks2 := by
  match stack with
  | [] => rfl
  | .null :: rest => rfl
  | .node d l r :: rest =>
    simp only [validate_loop, validate_round]
    by_cases hleaf : is_leaf l r = true
    · simp only [hleaf, if_true]
      cases indexInt checks d.primitive_offset with
      | error e => rfl
      | ok c =>
        cases c with
        | true => rfl
        | false =>
          simp only
          cases get_bbox pool (data.drop d.primitive_offset.toNat) 1 with
          | error e => rfl
          | ok b =>
            simp only
            split_ifs <;> rfl
    · have hleaf2 : is_leaf l r = false := by simpa using hleaf
      simp only [hleaf2, Bool.false_eq_true, if_false]
      split_ifs <;> rfl

theorem validate_loop_rounds (pool : List GLtriangle) (data : List Primitive) :
    ∀ (fuel : Nat) (stack : List BVHTreeNode) (checks : List Bool),
      validate_loop pool data fuel stack checks =
        match validate_rounds pool data fuel stack checks with
        | .done outcome => outcome
        | .next _ _ => .error .fuel := by
  intro fuel
  induction fuel with
  | zero => intro stack checks; simp [validate_loop, validate_rounds]
  | succ fuel ih =>
    intro stack checks
    rw [validate_loop_round]
    simp only [validate_rounds]
    cases validate_round pool data stack checks with
    | done outcome => rfl
    | next s c => exact ih s c

/-- A round of the loop of `validate_bvh` keeps the stack below its limit. -/
theorem validate_round_length {pool : List GLtriangle} {data : List Primitive}
    {stack stack2 : List BVHTreeNode} {checks checks2 : List Bool}
    (h : validate_round pool data stack checks = .next stack2 checks2)
    (hlen : stack.length < kTreeStackLimit) : stack2.length < kTreeStackLimit := by
  match stack, h, hlen with
  | [], h, _ => simp [validate_round] at h
  | .null :: rest, h, _ => simp [validate_round] at h
  | .node d l r :: rest, h, hlen =>
    simp only [validate_round] at h
    simp only [List.length_cons] at hlen
    by_cases hleaf : is_leaf l r = true
    · simp only [hleaf, if_true] at h
      split at h
      · cases h
      · cases h
      · split at h
        · cases h
        · split_ifs at h
          simp only [Round.next.injEq] at h
          rw [← h.1]
          omega
    · have hleaf2 : is_leaf l r = false := by simpa using hleaf
      simp only [hleaf2, Bool.false_eq_true, if_false] at h
      split_ifs at h with h1 h2 h3
      simp only [Round.next.injEq] at h
      rw [← h.1]
      simp only [List.length_cons]
      omega

theorem validate_rounds_length (pool : List GLtriangle) (data : List Primitive) :
    ∀ (n : Nat) (stack stack2 : List BVHTreeNode) (checks checks2 : List Bool),
      validate_rounds pool data n stack checks = .next stack2 checks2 →
      stack.length < kTreeStackLimit → stack2.length < kTreeStackLimit := by
  intro n
  induction n with
  | zero =>
    intro stack stack2 checks checks2 h hlen
    simp only [validate_rounds, Round.next.injEq] at h
    rw [← h.1]; exact hlen
  | succ n ih =>
    intro stack stack2 checks checks2 h hlen
    simp only [validate_rounds] at h
    split at h
    · cases h
    · rename_i s c hround
      exact ih s stack2 c checks2 h (validate_round_length hround hlen)

/-- The loop of `validate_bvh` stops at the stack assertion when the trees on its stack
pass every other test and their traversal does not stay below the stack limit. -/
theorem validate_loop_assert (pool : List GLtriangle) (data : List Primitive) :
    ∀ (fuel : Nat) (stack : List BVHTreeNode) (checks : List Bool),
      size_sum stack < fuel → stack.length < kTreeStackLimit →
      (∀ t ∈ stack, validated_shape t) → (∀ t ∈ stack, leaf_boxes_ok pool data t) →
      (∀ p ∈ leaf_offsets_all stack, 0 ≤ p ∧ checks[p.toNat]? = some false) →
      (leaf_offsets_all stack).Nodup → ¬ validate_fits stack →
      validate_loop pool data fuel stack checks = .error .stackAssert := by
  intro fuel
  induction fuel with
  | zero => intro stack checks h; omega
  | succ fuel ih =>
    intro stack checks hfuel hlen hshape hboxes hoff hnd hfits
    match stack, hfuel, hlen, hshape, hboxes, hoff, hnd, hfits with
    | [], _, _, _, _, _, _, hfits => exact absurd trivial hfits
    | .null :: rest, _, _, hshape, _, _, _, _ =>
      exact absurd (hshape .null (List.mem_cons_self _ _)) (by simp [validated_shape])
    | .node d l r :: rest, hfuel, hlen, hshape, hboxes, hoff, hnd, hfits =>
      have hshape2 : ∀ t ∈ rest, validated_shape t :=
        fun t ht => hshape t (List.mem_cons_of_mem _ ht)
      have hboxes2 : ∀ t ∈ rest, leaf_boxes_ok pool data t :=
        fun t ht => hboxes t (List.mem_cons_of_mem _ ht)
      have hnode := hshape (.node d l r) (List.mem_cons_self _ _)
      have hbox := hboxes (.node d l r) (List.mem_cons_self _ _)
      simp only [validated_shape] at hnode
      simp only [size_sum, BVHTreeNode.size] at hfuel
      simp only [List.length_cons] at hlen
      simp only [validate_loop]
      rcases hnode with ⟨rfl, rfl⟩ | ⟨hl, hr, hpo, hwl, hwr⟩
      · have hleaf : is_leaf .null .null = true := by simp [is_leaf]
        simp only [leaf_offsets_all, leaf_offsets, leaves_of_leaf, List.map_cons,
          List.map_nil, List.singleton_append, List.mem_cons, forall_eq_or_imp,
          List.nodup_cons] at hoff hnd
        obtain ⟨⟨h0, hget⟩, hoff2⟩ := hoff
        have hidx : indexInt checks d.primitive_offset = .ok false := by
          simp only [indexInt, index, not_lt.mpr h0, if_false, hget]
        obtain ⟨b, hb, hcheck⟩ := hbox d (by simp [leaves_of_leaf])
        simp only [hleaf, if_true, hidx, hb, hcheck, not_true_eq_false, if_false]
        apply ih _ _ (by omega) (by omega) hshape2 hboxes2 _ hnd.2
        · intro hrest
          apply hfits
          simp only [validate_fits, stack_need, hleaf, if_true]
          exact ⟨hlen, hrest⟩
        · intro p hp
          refine ⟨(hoff2 p hp).1, ?_⟩
          have hp0 := (hoff2 p hp).1
          have hne : d.primitive_offset.toNat ≠ p.toNat := by
            intro hc
            have : d.primitive_offset = p := by omega
            rw [this] at hnd
            exact hnd.1 hp
          rw [List.getElem?_set_ne hne]
          exact (hoff2 p hp).2
      · have hleaf : is_leaf l r = false := is_leaf_false_of_left hl
        have hoffs : leaf_offsets_all (.node d l r :: rest) = leaf_offsets_all (l :: r :: rest) := by
          simp only [leaf_offsets_all, leaf_offsets, leaves_of_inner hleaf, List.map_append,
            List.append_assoc]
        simp only [hleaf, Bool.false_eq_true, if_false, hpo, ne_eq, not_true_eq_false]
        rw [if_neg (by simp [hl, hr])]
        by_cases hstack : rest.length + 2 < kTreeStackLimit
        · rw [if_neg (by simpa using hstack)]
          apply ih
          · simp only [size_sum]; omega
          · simp only [List.length_cons]; omega
          · intro t ht
            rcases List.mem_cons.mp ht with rfl | ht
            · exact hwl
            · rcases List.mem_cons.mp ht with rfl | ht
              · exact hwr
              · exact hshape2 t ht
          · intro t ht
            rcases List.mem_cons.mp ht with rfl | ht
            · intro x hx
              exact hbox x (by rw [leaves_of_inner hleaf]; exact List.mem_append_left _ hx)
            · rcases List.mem_cons.mp ht with rfl | ht
              · intro x hx
                exact hbox x (by rw [leaves_of_inner hleaf]; exact List.mem_append_right _ hx)
              · exact hboxes2 t ht
          · rw [← hoffs]; exact hoff
          · rw [← hoffs]; exact hnd
          · intro hpush
            apply hfits
            simp only [validate_fits, List.length_cons] at hpush
            simp only [validate_fits, stack_need, hleaf, Bool.false_eq_true, if_false]
            refine ⟨?_, hpush.2.2⟩
            have h1 := hpush.1
            have h2 := hpush.2.1
            rcases max_cases (1 + stack_need l) (stack_need r) with ⟨e, -⟩ | ⟨e, -⟩ <;>
              rw [e] <;> omega
        · rw [if_pos (by simpa using hstack)]

/-- The outcomes of `validate_bvh` on a tree other than `NULL`. -/
theorem validate_bvh_outcomes (pool : List GLtriangle) (data : List Primitive)
    {root : BVHTreeNode} (hnn : root ≠ .null) :
    (∃ b, validate_bvh pool root data = .ok b) ∨
    validate_bvh pool root data = .error .stackAssert ∨
    validate_bvh pool root data = .error .outOfBounds := by
  have hcases := validate_loop_outcomes pool data (root.size + 1) [root]
    (List.replicate data.length false)
    (by intro t ht; simp at ht; rw [ht]; exact hnn) (by simp [size_sum])
  simp only [validate_bvh]
  rcases hcases with ⟨r, hr⟩ | hr | hr
  · rw [hr]
    cases r with
    | none => exact Or.inl ⟨_, rfl⟩
    | some c => exact Or.inl ⟨_, rfl⟩
  · rw [hr]; exact Or.inr (Or.inl rfl)
  · rw [hr]; exact Or.inr (Or.inr rfl)

/-- C16. `validate_bvh` never holds more than `kTreeStackLimit` (16) entries on its DFS
stack, for any input tree: after any number of rounds of its loop the stack has fewer than
`kTreeStackLimit` entries, and the loop is the iteration of these rounds.  A tree whose
traversal needs `kTreeStackLimit` entries or more is never accepted and nothing is stored
past the stack: the outcome is `false`, the assertion `stack_offset + 2 < kTreeStackLimit`
before the push, or an index outside `checks`; and it is the assertion whenever the tree
passes every other test (its nodes with a child have two and no payload, its leaves have
distinct payloads in `[0, N)` and pass the box test). -/
theorem validate_bvh_stack_bound (pool : List GLtriangle) (data : List Primitive)
    (root : BVHTreeNode) :
    (∀ (n : Nat) (stack : List BVHTreeNode) (checks : List Bool),
      validate_rounds pool data n [root] (List.replicate data.length false)
        = .next stack checks → stack.length < kTreeStackLimit) ∧
    (∀ (fuel : Nat) (stack : List BVHTreeNode) (checks : List Bool),
      validate_loop pool data fuel stack checks =
        match validate_rounds pool data fuel stack checks with
        | .done outcome => outcome
        | .next _ _ => .error .fuel) ∧
    (root ≠ .null → kTreeStackLimit ≤ stack_need root →
      validate_bvh pool root data = .ok false ∨
      validate_bvh pool root data = .error .stackAssert ∨
      validate_bvh pool root data = .error .outOfBounds) ∧
    (kTreeStackLimit ≤ stack_need root → validated_shape root →
      leaf_boxes_ok pool data root → (leaf_offsets root).Nodup →
      (∀ p ∈ leaf_offsets root, 0 ≤ p ∧ p < data.length) →
      validate_bvh pool root data = .error .stackAssert) := by
  refine ⟨?_, validate_loop_rounds pool data, ?_, ?_⟩
  · intro n stack checks h
    exact validate_rounds_length pool data n [root] stack _ checks h
      (by simp [kTreeStackLimit])
  · intro hnn hneed
    have hnot : validate_bvh pool root data ≠ .ok true := by
      intro hc
      have := (validate_bvh_true hc).2.1
      omega
    rcases validate_bvh_outcomes pool data hnn with ⟨b, hb⟩ | h | h
    · cases b with
      | false => exact Or.inl hb
      | true => exact absurd hb hnot
    · exact Or.inr (Or.inl h)
    · exact Or.inr (Or.inr h)
  · intro hneed hshape hboxes hnd hrange
    have h := validate_loop_assert pool data (root.size + 1) [root]
      (List.replicate data.length false) (by simp [size_sum]) (by simp [kTreeStackLimit])
      (by intro t ht; simp at ht; rw [ht]; exact hshape)
      (by intro t ht; simp at ht; rw [ht]; exact hboxes)
      (by
        intro p hp
        simp only [leaf_offsets_all, List.append_nil] at hp
        obtain ⟨h0, h1⟩ := hrange p hp
        exact ⟨h0, List.getElem?_replicate_of_lt (by omega)⟩)
      (by simpa [leaf_offsets_all] using hnd)
      (by
        simp only [validate_fits, List.length_nil, Nat.zero_add, and_true]
        omega)
    simp only [validate_bvh, h]

theorem validate_bvh_stack_bound_witness :
    (validate_rounds sample_pool (sample_primitives.take 2) 1 [sample_tree]
        (List.replicate (sample_primitives.take 2).length false)
        = .next [.node ⟨0, -1, ⟨-1, 1, 0, 2, 0, 5⟩⟩ .null .null,
            .node ⟨1, -1, ⟨9, 11, 0, 2, 0, 5⟩⟩ .null .null] [false, false] ∧
      left_comb 15 ≠ .null ∧ kTreeStackLimit ≤ stack_need (left_comb 15) ∧
      validated_shape (left_comb 15) ∧
      leaf_boxes_ok origin_pool (origin_primitives 16) (left_comb 15) ∧
      (leaf_offsets (left_comb 15)).Nodup ∧
      (∀ p ∈ leaf_offsets (left_comb 15), 0 ≤ p ∧ p < (origin_primitives 16).length)) ∧
    ([BVHTreeNode.node ⟨0, -1, ⟨-1, 1, 0, 2, 0, 5⟩⟩ .null .null,
        BVHTreeNode.node ⟨1, -1, ⟨9, 11, 0, 2, 0, 5⟩⟩ .null .null].length
      < kTreeStackLimit) ∧
    (validate_bvh origin_pool (left_comb 15) (origin_primitives 16) = .ok false ∨
      validate_bvh origin_pool (left_comb 15) (origin_primitives 16) = .error .stackAssert ∨
      validate_bvh origin_pool (left_comb 15) (origin_primitives 16) = .error .outOfBounds) ∧
    validate_bvh origin_pool (left_comb 15) (origin_primitives 16) = .error .stackAssert ∧
    validate_bvh origin_pool (left_comb 14) (origin_primitives 15) = .ok true :=
  ⟨⟨by decide!, by decide, by decide, by decide, by decide!, by decide, by decide⟩,
   (validate_bvh_stack_bound sample_pool (sample_primitives.take 2) sample_tree).1 1
     [.node ⟨0, -1, ⟨-1, 1, 0, 2, 0, 5⟩⟩ .null .null,
       .node ⟨1, -1, ⟨9, 11, 0, 2, 0, 5⟩⟩ .null .null] [false, false] (by decide!),
   (validate_bvh_stack_bound origin_pool (origin_primitives 16) (left_comb 15)).2.2.1
     (by decide) (by decide),
   (validate_bvh_stack_bound origin_pool (origin_primitives 16) (left_comb 15)).2.2.2
     (by decide) (by decide) (by decide!) (by decide) (by decide),
   by decide!⟩

/-- The function `update_structure` returns the scene of a run that ended without a
failure, and the failure of a run that ended with one. -/
theorem update_structure_eq_run (fuel : Nat) (s : Scene) :
    update_structure fuel s =
      match update_structure_run fuel s with
      | (s2, none) => .ok s2
      | (_, some e) => .error e := by
  by_cases hc : s.m_primitives.length < PH_MAX_int64
  swap
  · simp only [update_structure, update_structure_run, hc, not_false_eq_true, if_true]
  · simp only [update_structure, update_structure_run, upload_bvh, hc, not_true_eq_false,
      if_false]
    cases build_bvh s.m_triangle_pool fuel s.m_primitives
      (identity_indices s.m_primitives.length) with
    | error e => rfl
    | ok root =>
      simp only
      cases validate_bvh s.m_triangle_pool root s.m_primitives with
      | error e => rfl
      | ok b =>
        simp only
        cases flatten_bvh root with
        | error e => rfl
        | ok r =>
          obtain ⟨flatroot, len⟩ := r
          simp only
          cases validate_flattened_bvh flatroot len with
          | error e => rfl
          | ok b2 => rfl

/-- C18. `update_structure` is atomic with respect to failures of the build: whenever
`build_bvh` fails, the run of `update_structure` ends with a failure at a point where the
scene is the one the call started with, no statement having written a buffer object, so
the BVH buffer holds what it held before the call; the function returns no new scene.
This is so when the primitive pool is empty (the assertion `count(primitives) != 0`) and
when the centroids admit no split (the assertion `v > 0`). -/
theorem update_structure_build_failure (fuel : Nat) (s : Scene) :
    (∀ e, build_bvh s.m_triangle_pool fuel s.m_primitives
        (identity_indices s.m_primitives.length) = .error e →
      (∃ e2, update_structure_run fuel s = (s, some e2)) ∧
      (s.m_primitives.length < PH_MAX_int64 → update_structure_run fuel s = (s, some e)) ∧
      (∀ s2, update_structure fuel s ≠ .ok s2) ∧
      (update_structure_run fuel s).1.m_bvh_buffer = s.m_bvh_buffer) ∧
    (s.m_primitives = [] →
      build_bvh s.m_triangle_pool (fuel + 1) s.m_primitives
        (identity_indices s.m_primitives.length) = .error .emptyInput ∧
      update_structure_run (fuel + 1) s = (s, some .emptyInput) ∧
      (update_structure_run (fuel + 1) s).1.m_bvh_buffer = s.m_bvh_buffer) := by
  constructor
  · intro e h
    have hrun : update_structure_run fuel s = (s, some e) ∨
        update_structure_run fuel s = (s, some .poolCount) := by
      by_cases hc : s.m_primitives.length < PH_MAX_int64
      · exact Or.inl (by
          simp only [update_structure_run, h, hc, not_true_eq_false, if_false])
      · exact Or.inr (by
          simp only [update_structure_run, hc, not_false_eq_true, if_true])
    refine ⟨?_, ?_, ?_, ?_⟩
    · rcases hrun with h1 | h1 <;> exact ⟨_, h1⟩
    · intro hcount
      simp only [update_structure_run, h, hcount, not_true_eq_false, if_false]
    · intro s2 hc
      rw [update_structure_eq_run] at hc
      rcases hrun with h1 | h1 <;> rw [h1] at hc <;> cases hc
    · rcases hrun with h1 | h1 <;> rw [h1]
  · intro hempty
    have hb : build_bvh s.m_triangle_pool (fuel + 1) s.m_primitives
        (identity_indices s.m_primitives.length) = .error .emptyInput := by
      simp [build_bvh, hempty]
    have hu : update_structure_run (fuel + 1) s = (s, some .emptyInput) := by
      have hcount : s.m_primitives.length < PH_MAX_int64 := by
        rw [hempty]; decide
      simp only [update_structure_run, hb, hcount, not_true_eq_false, if_false]
    refine ⟨hb, hu, ?_⟩
    rw [hu]

theorem update_structure_build_failure_witness :
    (build_bvh coincident_scene_rebuilt.m_triangle_pool 2 coincident_scene_rebuilt.m_primitives
        (identity_indices coincident_scene_rebuilt.m_primitives.length) = .error .degenerate ∧
      coincident_scene_rebuilt.m_primitives.length < PH_MAX_int64 ∧
      emptied_scene.m_primitives = [] ∧
      coincident_scene_rebuilt.m_bvh_buffer ≠ [] ∧ emptied_scene.m_bvh_buffer ≠ []) ∧
    update_structure_run 2 coincident_scene_rebuilt
      = (coincident_scene_rebuilt, some .degenerate) ∧
    (update_structure_run 2 coincident_scene_rebuilt).1.m_bvh_buffer
      = coincident_scene_rebuilt.m_bvh_buffer ∧
    update_structure_run 1 emptied_scene = (emptied_scene, some .emptyInput) ∧
    (update_structure_run 1 emptied_scene).1.m_bvh_buffer = emptied_scene.m_bvh_buffer :=
  ⟨⟨by decide!, by decide, by decide, by decide, by decide⟩,
   ((update_structure_build_failure 2 coincident_scene_rebuilt).1 .degenerate
     (by decide!)).2.1 (by decide),
   ((update_structure_build_failure 2 coincident_scene_rebuilt).1 .degenerate
     (by decide!)).2.2.2,
   ((update_structure_build_failure 0 emptied_scene).2 (by decide)).2.1,
   ((update_structure_build_failure 0 emptied_scene).2 (by decide)).2.2⟩

/-- C19 (a defect of the code, not of the claim): `update_structure` calls both validators as
statements and does not look at what they return. The function is its test of the pool size, the
call of `build_bvh` and `update_structure_after_build`; and for `doubled_tree`, on which
`validate_bvh` returns `false` (a payload occurs twice) and on whose flattening
`validate_flattened_bvh` returns `false` as well, the statements after the build upload the new
array all the same.  On the scene `infinite_scene`, whose first primitive is a point at
`x = +inf`, `build_bvh` returns `infinite_tree`, `validate_bvh` returns `false` for it (the
difference `inf - inf` of the leaf test is NaN), and `update_structure` runs to its end and
uploads the array of the tree. -/
theorem update_structure_ignores_validators :
    (∀ (fuel : Nat) (s : Scene), update_structure fuel s =
      if ¬ (s.m_primitives.length < PH_MAX_int64) then .error .poolCount
      else
        match build_bvh s.m_triangle_pool fuel s.m_primitives
          (identity_indices s.m_primitives.length) with
        | .error e => .error e
        | .ok root => update_structure_after_build s root) ∧
    validate_bvh (sample_scene 2).m_triangle_pool doubled_tree (sample_scene 2).m_primitives
      = .ok false ∧
    flatten_bvh doubled_tree = .ok (doubled_array, 3) ∧
    validate_flattened_bvh doubled_array 3 = .ok false ∧
    update_structure_after_build (sample_scene 2) doubled_tree
      = .ok { sample_scene 2 with m_bvh_buffer := doubled_array } ∧
    build_bvh infinite_scene.m_triangle_pool 2 infinite_scene.m_primitives
      (identity_indices infinite_scene.m_primitives.length) = .ok infinite_tree ∧
    validate_bvh infinite_scene.m_triangle_pool infinite_tree infinite_scene.m_primitives
      = .ok false ∧
    update_structure 2 infinite_scene
      = .ok { infinite_scene with m_bvh_buffer := infinite_array } ∧
    update_structure_run 2 infinite_scene
      = ({ infinite_scene with m_bvh_buffer := infinite_array }, none) := by
  refine ⟨fun fuel s => rfl, by decide!, by decide!, by decide!, by decide!, by decide!,
    by decide!, by decide!, by decide!⟩

/-- C20 (as amended). For every pool with exactly one primitive, whose triangles the
triangle pool contains, `build_bvh` with indices `[0]` returns a tree that is a single
leaf: no children, `primitive_offset = 0`, `right_child_offset = -1` and the box of the
primitive.  `flatten_bvh` stops on that tree at `ph_assert(root->left && root->right)`:
there is no array of length 1. -/
theorem build_bvh_single_primitive (pool : List GLtriangle) (p : Primitive) (fuel : Nat)
    (h : p.readable pool) :
    ∃ bbox, get_bbox pool [p] 1 = .ok bbox ∧
      build_bvh pool (fuel + 1) [p] [0] = .ok (.node ⟨0, -1, bbox⟩ .null .null) ∧
      flatten_bvh (.node ⟨0, -1, bbox⟩ .null .null) = .error .rootChildren := by
  obtain ⟨bbox, hb⟩ := get_bbox_single_ok h []
  refine ⟨bbox, hb, ?_, ?_⟩
  · simp only [build_bvh, List.length_singleton, Nat.cast_one, hb, index]
    simp
  · simp [flatten_bvh]

theorem build_bvh_single_primitive_witness :
    Primitive.readable sample_pool ⟨0, 1, 0⟩ ∧
    ∃ bbox, get_bbox sample_pool [⟨0, 1, 0⟩] 1 = .ok bbox ∧
      build_bvh sample_pool (0 + 1) [⟨0, 1, 0⟩] [0] = .ok (.node ⟨0, -1, bbox⟩ .null .null) ∧
      flatten_bvh (.node ⟨0, -1, bbox⟩ .null .null) = .error .rootChildren :=
  ⟨by decide, build_bvh_single_primitive sample_pool ⟨0, 1, 0⟩ 0 (by decide)⟩

/-- C20 as stated fails: on the pool with the first sample primitive alone `build_bvh`
returns the single leaf `sample_leaf`, and `flatten_bvh` yields no array for it, of length
1 or any other: it stops at its assertion that the root has two children. -/
theorem build_bvh_single_primitive_counterexample :
    (sample_primitives.take 1).length = 1 ∧
    build_bvh sample_pool 1 (sample_primitives.take 1) [0] = .ok sample_leaf ∧
    flatten_bvh sample_leaf = .error .rootChildren ∧
    ¬ ∃ (arr : List BVHNode) (len : Nat), flatten_bvh sample_leaf = .ok (arr, len) := by
  refine ⟨by decide, by decide!, by decide!, ?_⟩
  rintro ⟨arr, len, h⟩
  have h2 : flatten_bvh sample_leaf = .error .rootChildren := by decide!
  rw [h2] at h
  cases h

/-- C24 (as amended). In the recursive case of `build_bvh` the variation of an axis is what
the loop accumulates in a `float`: starting from zero, the values
`fabs(centroid_i - centroid_(i+1))` of the consecutive entries of the current order are added
one by one, every difference and every sum rounded.  The split axis that is selected has a
variation greater than zero, no axis has a greater variation, and no axis before it in the
order X, Y, Z has a variation that is greater than or equal to its variation.  When no
variation is NaN, the variation of the selected axis is greater than or equal to that of
every axis, and among the axes of the same variation it is the one of the lowest index. -/
theorem split_selection_axis (pool : List GLtriangle) (primitives : List Primitive)
    (centroids : List GLvec3) (midpoint : GLvec3) (split : SplitPlane)
    (h : split_selection pool primitives = .ok (centroids, midpoint, split)) :
    fill_centroids pool primitives = .ok centroids ∧
    (∀ axis, component axis (fill_variation ⟨0, 0, 0⟩ centroids) =
      variation_sum (component axis) 0 centroids) ∧
    (0 : float) < variation_sum (component split) 0 centroids ∧
    (∀ axis, ¬ variation_sum (component split) 0 centroids <
      variation_sum (component axis) 0 centroids) ∧
    (∀ axis : SplitPlane, axis.index < split.index →
      ¬ variation_sum (component split) 0 centroids ≤
        variation_sum (component axis) 0 centroids) ∧
    ((∀ axis, variation_sum (component axis) 0 centroids ≠ .nan) →
      (∀ axis, variation_sum (component axis) 0 centroids ≤
        variation_sum (component split) 0 centroids) ∧
      (∀ axis : SplitPlane, variation_sum (component axis) 0 centroids =
          variation_sum (component split) 0 centroids → split.index ≤ axis.index)) := by
  obtain ⟨hcs, -, hsplit⟩ := split_selection_ok h
  obtain ⟨hpos, hmax, hfirst⟩ := choose_split_ok _ split hsplit
  simp only [component_fill_variation] at hpos hmax hfirst
  refine ⟨hcs, fun axis => component_fill_variation axis centroids, hpos, hmax, hfirst,
    fun hnum => ⟨fun axis => ?_, fun axis heq => ?_⟩⟩
  · exact float_le_of_not_lt (hnum axis) (hnum split) (hmax axis)
  · by_contra hlt
    apply hfirst axis (by omega)
    rw [heq]
    exact float_le_refl (hnum split)

theorem split_selection_axis_witness :
    split_selection tie_pool [⟨0, 1, 0⟩, ⟨1, 1, 0⟩]
      = .ok ([⟨0, 0, 0⟩, ⟨1, 1, 0⟩], ⟨1 / 2, 1 / 2, 0⟩, .X) ∧
    variation_sum (component .X) 0 [⟨0, 0, 0⟩, ⟨1, 1, 0⟩] = 1 ∧
    variation_sum (component .Y) 0 [⟨0, 0, 0⟩, ⟨1, 1, 0⟩] = 1 ∧
    fill_centroids tie_pool [⟨0, 1, 0⟩, ⟨1, 1, 0⟩] = .ok [⟨0, 0, 0⟩, ⟨1, 1, 0⟩] ∧
    (∀ axis, component axis (fill_variation ⟨0, 0, 0⟩ [⟨0, 0, 0⟩, ⟨1, 1, 0⟩]) =
      variation_sum (component axis) 0 [⟨0, 0, 0⟩, ⟨1, 1, 0⟩]) ∧
    (0 : float) < variation_sum (component SplitPlane.X) 0 [⟨0, 0, 0⟩, ⟨1, 1, 0⟩] ∧
    (∀ axis, ¬ variation_sum (component SplitPlane.X) 0 [⟨0, 0, 0⟩, ⟨1, 1, 0⟩] <
      variation_sum (component axis) 0 [⟨0, 0, 0⟩, ⟨1, 1, 0⟩]) ∧
    (∀ axis : SplitPlane, axis.index < SplitPlane.X.index →
      ¬ variation_sum (component SplitPlane.X) 0 [⟨0, 0, 0⟩, ⟨1, 1, 0⟩] ≤
        variation_sum (component axis) 0 [⟨0, 0, 0⟩, ⟨1, 1, 0⟩]) ∧
    ((∀ axis, variation_sum (component axis) 0 [⟨0, 0, 0⟩, ⟨1, 1, 0⟩] ≠ .nan) →
      (∀ axis, variation_sum (component axis) 0 [⟨0, 0, 0⟩, ⟨1, 1, 0⟩] ≤
        variation_sum (component SplitPlane.X) 0 [⟨0, 0, 0⟩, ⟨1, 1, 0⟩]) ∧
      (∀ axis : SplitPlane, variation_sum (component axis) 0 [⟨0, 0, 0⟩, ⟨1, 1, 0⟩] =
          variation_sum (component SplitPlane.X) 0 [⟨0, 0, 0⟩, ⟨1, 1, 0⟩] →
        SplitPlane.X.index ≤ axis.index)) :=
  ⟨by decide!, by decide!, by decide!,
   split_selection_axis tie_pool [⟨0, 1, 0⟩, ⟨1, 1, 0⟩] [⟨0, 0, 0⟩, ⟨1, 1, 0⟩]
     ⟨1 / 2, 1 / 2, 0⟩ .X (by decide!)⟩

/-- C24 as stated fails.  For the four point primitives of `rounded_pool` the sums of the
absolute differences of the consecutive centroids are `16777218` on `x` and on `y`, a
tie that the claim resolves for `x`.  The loop accumulates `16777216 + 1 + 1` on `x`,
where each sum is rounded back to `16777216`, and `1 + 1 + 16777216 = 16777218` on `y`:
its variation on `x` is not the sum, and it selects `y`. -/
theorem split_selection_axis_counterexample :
    split_selection rounded_pool four_primitives =
      .ok ([⟨16777216, 0, 0⟩, ⟨0, 1, 0⟩, ⟨1, 2, 0⟩, ⟨2, 16777218, 0⟩],
        ⟨8388609 / 2, 4194305, 0⟩, .Y) ∧
    exact_variation (component .X)
      [⟨16777216, 0, 0⟩, ⟨0, 1, 0⟩, ⟨1, 2, 0⟩, ⟨2, 16777218, 0⟩] = 16777218 ∧
    exact_variation (component .Y)
      [⟨16777216, 0, 0⟩, ⟨0, 1, 0⟩, ⟨1, 2, 0⟩, ⟨2, 16777218, 0⟩] = 16777218 ∧
    variation_sum (component .X) 0
      [⟨16777216, 0, 0⟩, ⟨0, 1, 0⟩, ⟨1, 2, 0⟩, ⟨2, 16777218, 0⟩] = 16777216 ∧
    variation_sum (component .Y) 0
      [⟨16777216, 0, 0⟩, ⟨0, 1, 0⟩, ⟨1, 2, 0⟩, ⟨2, 16777218, 0⟩] = 16777218 := by
  refine ⟨by decide!, by decide!, by decide!, by decide!, by decide!⟩

/-- C25 (as amended). In the recursive case of `build_bvh` the midpoint is, on every axis,
what the loop accumulates in a `float`: the centroids are added one by one to zero, every
sum rounded, and the sum is divided by the count converted to `float`.  The partition walks
over the entries (centroid, primitive, index) in their order: the left slice holds, in that
order, the primitives whose centroid is strictly below the midpoint on the split axis, the
right slice holds, in that order, those whose centroid is greater than or equal to it; no
primitive passes both tests, and each slice keeps the relative order; `new_indices_l` and
`new_indices_r` hold, entry by entry, the original indices of the primitives of the left
and the right slice.  When the midpoint is a number on the split axis, the right slice
holds all the primitives that the left slice does not, so every primitive is in exactly one
of the two; when it is NaN both slices are empty. -/
theorem partition_by_midpoint (pool : List GLtriangle) (primitives : List Primitive)
    (indices : List Int) (centroids : List GLvec3) (midpoint : GLvec3) (split : SplitPlane)
    (h : split_selection pool primitives = .ok (centroids, midpoint, split))
    (hidx : primitives.length ≤ indices.length) :
    (∀ axis, component axis midpoint =
      float_sum 0 (centroids.map (component axis)) / float.ofInt centroids.length) ∧
    (entries centroids primitives indices).map (·.1) = centroids ∧
    (entries centroids primitives indices).map (·.2.1) = primitives ∧
    (entries centroids primitives indices).map (·.2) = List.zip primitives indices ∧
    (∀ t, goes_left split midpoint t = true ↔
      component split t.1 < component split midpoint) ∧
    (∀ t, goes_right split midpoint t = true ↔
      component split midpoint ≤ component split t.1) ∧
    (∀ t, ¬ (goes_left split midpoint t = true ∧ goes_right split midpoint t = true)) ∧
    (partition split midpoint centroids primitives indices).slice_left =
      ((entries centroids primitives indices).filter (goes_left split midpoint)).map (·.2.1) ∧
    (partition split midpoint centroids primitives indices).slice_right =
      ((entries centroids primitives indices).filter (goes_right split midpoint)).map
        (·.2.1) ∧
    List.zip (partition split midpoint centroids primitives indices).slice_left
        (partition split midpoint centroids primitives indices).new_indices_l =
      ((entries centroids primitives indices).filter (goes_left split midpoint)).map (·.2) ∧
    List.zip (partition split midpoint centroids primitives indices).slice_right
        (partition split midpoint centroids primitives indices).new_indices_r =
      ((entries centroids primitives indices).filter (goes_right split midpoint)).map
        (·.2) ∧
    List.Sublist (partition split midpoint centroids primitives indices).slice_left
      primitives ∧
    List.Sublist (partition split midpoint centroids primitives indices).slice_right
      primitives ∧
    (component split midpoint ≠ .nan →
      (partition split midpoint centroids primitives indices).slice_right =
        ((entries centroids primitives indices).filter
          (fun t => !goes_left split midpoint t)).map (·.2.1) ∧
      List.Perm
        ((partition split midpoint centroids primitives indices).slice_left ++
          (partition split midpoint centroids primitives indices).slice_right) primitives) ∧
    (component split midpoint = .nan →
      (partition split midpoint centroids primitives indices).slice_left = [] ∧
      (partition split midpoint centroids primitives indices).slice_right = []) := by
  obtain ⟨hcs, hmid, -⟩ := split_selection_ok h
  have h1 := fill_centroids_length pool primitives centroids hcs
  obtain ⟨e1, e2, -, -⟩ := partition_spec split midpoint centroids primitives indices h1 hidx
  have hprim := @entries_map_primitive centroids primitives indices h1 hidx
  refine ⟨fun axis => ?_, entries_map_fst h1 hidx, hprim, entries_map_snd h1, fun t => ?_,
    fun t => ?_, fun t ht => ?_, e1, e2, partition_zip_left h1 hidx,
    partition_zip_right h1 hidx, ?_, ?_, fun hnum => ?_, fun hnan => ?_⟩
  · rw [hmid]; exact calc_midpoint_component axis centroids
  · simp [goes_left]
  · simp [goes_right]
  · have := goes_left_not_right ht.1
    rw [ht.2] at this
    cases this
  · rw [e1]
    conv_rhs => rw [← hprim]
    exact (List.filter_sublist _).map _
  · rw [e2]
    conv_rhs => rw [← hprim]
    exact (List.filter_sublist _).map _
  · subst hmid
    have hr := @partition_number split centroids primitives indices h1 hidx hnum
    refine ⟨by rw [e2, hr], ?_⟩
    rw [e1, e2, hr, ← List.map_append]
    conv_rhs => rw [← hprim]
    exact (List.filter_append_perm _ _).map _
  · exact partition_nan h1 hidx hnan

theorem partition_by_midpoint_witness :
    (split_selection sample_pool sample_primitives
        = .ok ([⟨0, 1, 5 / 2⟩, ⟨10, 1, 5 / 2⟩, ⟨4, 1, 5 / 2⟩], ⟨14 / 3, 1, 5 / 2⟩, .X) ∧
      sample_primitives.length ≤ ([0, 1, 2] : List Int).length) ∧
    (partition .X ⟨14 / 3, 1, 5 / 2⟩ [⟨0, 1, 5 / 2⟩, ⟨10, 1, 5 / 2⟩, ⟨4, 1, 5 / 2⟩]
      sample_primitives [0, 1, 2]).slice_left = [⟨0, 1, 0⟩, ⟨2, 1, 0⟩] ∧
    (partition .X ⟨14 / 3, 1, 5 / 2⟩ [⟨0, 1, 5 / 2⟩, ⟨10, 1, 5 / 2⟩, ⟨4, 1, 5 / 2⟩]
      sample_primitives [0, 1, 2]).slice_right = [⟨1, 1, 0⟩] ∧
    List.zip
      (partition .X ⟨14 / 3, 1, 5 / 2⟩ [⟨0, 1, 5 / 2⟩, ⟨10, 1, 5 / 2⟩, ⟨4, 1, 5 / 2⟩]
        sample_primitives [0, 1, 2]).slice_left
      (partition .X ⟨14 / 3, 1, 5 / 2⟩ [⟨0, 1, 5 / 2⟩, ⟨10, 1, 5 / 2⟩, ⟨4, 1, 5 / 2⟩]
        sample_primitives [0, 1, 2]).new_indices_l = [(⟨0, 1, 0⟩, 0), (⟨2, 1, 0⟩, 2)] ∧
    (component .X (⟨14 / 3, 1, 5 / 2⟩ : GLvec3) ≠ .nan →
      (partition .X ⟨14 / 3, 1, 5 / 2⟩ [⟨0, 1, 5 / 2⟩, ⟨10, 1, 5 / 2⟩, ⟨4, 1, 5 / 2⟩]
          sample_primitives [0, 1, 2]).slice_right =
        ((entries [⟨0, 1, 5 / 2⟩, ⟨10, 1, 5 / 2⟩, ⟨4, 1, 5 / 2⟩] sample_primitives
          [0, 1, 2]).filter (fun t => !goes_left .X ⟨14 / 3, 1, 5 / 2⟩ t)).map (·.2.1) ∧
      List.Perm
        ((partition .X ⟨14 / 3, 1, 5 / 2⟩ [⟨0, 1, 5 / 2⟩, ⟨10, 1, 5 / 2⟩, ⟨4, 1, 5 / 2⟩]
            sample_primitives [0, 1, 2]).slice_left ++
          (partition .X ⟨14 / 3, 1, 5 / 2⟩ [⟨0, 1, 5 / 2⟩, ⟨10, 1, 5 / 2⟩, ⟨4, 1, 5 / 2⟩]
            sample_primitives [0, 1, 2]).slice_right) sample_primitives) :=
  ⟨⟨by decide!, by decide⟩, by decide!, by decide!, by decide!,
   (partition_by_midpoint sample_pool sample_primitives [0, 1, 2]
     [⟨0, 1, 5 / 2⟩, ⟨10, 1, 5 / 2⟩, ⟨4, 1, 5 / 2⟩] ⟨14 / 3, 1, 5 / 2⟩ .X (by decide!)
     (by decide)).2.2.2.2.2.2.2.2.2.2.2.2.2.1⟩

/-- C25 as stated fails.  For the three point primitives at `x = 0.1f, 0.2f, 0.3f` the
midpoint that the loop computes on `x` is `0.2f`, while the arithmetic mean of the three
centroids is greater than `0.2f`: the second primitive, whose centroid is strictly less
than the mean, goes to the right slice.  For the two point primitives at `x = 3e38` and
`x = -3e38` the midpoint on the split axis is NaN and neither primitive is placed in a
slice. -/
theorem partition_by_midpoint_counterexample :
    split_selection tenths_pool three_primitives =
      .ok ([⟨tenth, 0, 0⟩, ⟨two_tenths, 0, 0⟩, ⟨three_tenths, 0, 0⟩],
        ⟨two_tenths, 0, 0⟩, .X) ∧
    two_tenths.value <
      exact_mean (component .X) [⟨tenth, 0, 0⟩, ⟨two_tenths, 0, 0⟩, ⟨three_tenths, 0, 0⟩] ∧
    (partition .X ⟨two_tenths, 0, 0⟩
      [⟨tenth, 0, 0⟩, ⟨two_tenths, 0, 0⟩, ⟨three_tenths, 0, 0⟩]
      three_primitives [0, 1, 2]).slice_left = [⟨0, 1, 0⟩] ∧
    (partition .X ⟨two_tenths, 0, 0⟩
      [⟨tenth, 0, 0⟩, ⟨two_tenths, 0, 0⟩, ⟨three_tenths, 0, 0⟩]
      three_primitives [0, 1, 2]).slice_right = [⟨1, 1, 0⟩, ⟨2, 1, 0⟩] ∧
    split_selection apart_pool two_primitives =
      .ok ([⟨.pinf, 0, 0⟩, ⟨.ninf, 0, 0⟩], ⟨.nan, 0, 0⟩, .X) ∧
    (partition .X ⟨.nan, 0, 0⟩ [⟨.pinf, 0, 0⟩, ⟨.ninf, 0, 0⟩]
      two_primitives [0, 1]).slice_left = [] ∧
    (partition .X ⟨.nan, 0, 0⟩ [⟨.pinf, 0, 0⟩, ⟨.ninf, 0, 0⟩]
      two_primitives [0, 1]).slice_right = [] := by
  refine ⟨by decide!, by decide!, by decide!, by decide!, apart_pool_build.2.1, by decide!,
    by decide!⟩

/-- C26 (a defect of the code, not of the claim): `build_bvh` neither tests the sizes of
the two slices nor the midpoint, which it computes in `float`.  The two point primitives at
`x = 16777216` and `x = 16777218` have distinct centroids; the rounded midpoint is the
smaller one, the right slice is the whole set, and the call recurses on the same two
primitives whatever the budget: it returns no tree and does not stop at the
degenerate-geometry assertion.  The three point primitives at `x = 3e38, -3e38, 3e38` have
centroids of which the first and the third coincide (both overflow to `+inf`); the
variation on `x` is `+inf`, the midpoint is NaN, and the call returns a tree, of one
node, instead of the degenerate-geometry failure. -/
theorem build_bvh_distinct_centroids :
    (2 ≤ two_primitives.length ∧ (∀ p ∈ two_primitives, p.valid close_pool)) ∧
    fill_centroids close_pool two_primitives =
      .ok [⟨16777216, 0, 0⟩, ⟨16777218, 0, 0⟩] ∧
    ([⟨16777216, 0, 0⟩, ⟨16777218, 0, 0⟩] : List GLvec3).Nodup ∧
    (∀ fuel : Nat, build_bvh close_pool fuel two_primitives [0, 1] = .error .fuel) ∧
    (∀ (fuel : Nat) (t : BVHTreeNode),
      build_bvh close_pool fuel two_primitives [0, 1] ≠ .ok t) ∧
    (2 ≤ three_primitives.length ∧ (∀ p ∈ three_primitives, p.valid echo_pool)) ∧
    fill_centroids echo_pool three_primitives =
      .ok [⟨.pinf, 0, 0⟩, ⟨.ninf, 0, 0⟩, ⟨.pinf, 0, 0⟩] ∧
    ¬ ([⟨.pinf, 0, 0⟩, ⟨.ninf, 0, 0⟩, ⟨.pinf, 0, 0⟩] : List GLvec3).Nodup ∧
    build_bvh echo_pool 1 three_primitives [0, 1, 2] = .ok hollow_tree := by
  refine ⟨⟨by decide, by decide⟩, by decide!, by decide!, close_pool_loops, ?_,
    ⟨by decide, by decide⟩, by decide!, by decide!, by decide!⟩
  intro fuel t h
  rw [close_pool_loops fuel] at h
  cases h

/-- The first loop of `flatten_bvh` is the iteration of its rounds. -/
theorem first_pass_eq_rounds :
    ∀ (fuel : Nat) (stack : List NodePtr) (slice : List BVHNode) (ptrs : List (List Bool)),
      flatten_first_pass fuel stack slice ptrs =
        match first_pass_rounds fuel stack slice ptrs with
        | .done outcome => outcome
        | .next _ _ _ => .error .fuel := by
  intro fuel
  induction fuel with
  | zero => intro stack slice ptrs; simp [flatten_first_pass, first_pass_rounds]
  | succ fuel ih =>
    intro stack slice ptrs
    match stack with
    | [] => rfl
    | (_, .null) :: _ => rfl
    | (path, .node d l r) :: rest =>
      simp only [flatten_first_pass, first_pass_rounds, first_pass_round]
      split_ifs
      · exact ih _ _ _
      · rfl
      · exact ih _ _ _

/-- The second loop of `flatten_bvh` is the iteration of its rounds. -/
theorem second_pass_eq_rounds (ptrs : List (List Bool)) :
    ∀ (fuel : Nat) (stack : List NodePtr) (i : Nat) (slice : List BVHNode),
      flatten_second_pass ptrs fuel stack i slice =
        match second_pass_rounds ptrs fuel stack i slice with
        | .done outcome => outcome
        | .next _ _ _ => .error .fuel := by
  intro fuel
  induction fuel with
  | zero => intro stack i slice; simp [flatten_second_pass, second_pass_rounds]
  | succ fuel ih =>
    intro stack i slice
    match stack with
    | [] => rfl
    | (_, .null) :: _ => rfl
    | (path, .node d l r) :: rest =>
      simp only [flatten_second_pass, second_pass_rounds, second_pass_round]
      split_ifs <;>
        first
        | exact ih _ _ _
        | rfl
        | (cases slice[i]? <;> first | rfl | exact ih _ _ _)

/-- A round of the loop of `validate_bvh` that is followed by another one has popped a
leaf, or a node with children when the stack had room for both. -/
theorem validate_round_next {pool : List GLtriangle} {data : List Primitive}
    {stack stack2 : List BVHTreeNode} {checks checks2 : List Bool}
    (h : validate_round pool data stack checks = .next stack2 checks2) :
    ∃ d l r rest, stack = .node d l r :: rest ∧
      ((is_leaf l r = true ∧ stack2 = rest) ∨
       (is_leaf l r = false ∧ rest.length + 2 < kTreeStackLimit ∧ stack2 = l :: r :: rest)) := by
  match stack, h with
  | [], h => simp [validate_round] at h
  | .null :: rest, h => simp [validate_round] at h
  | .node d l r :: rest, h =>
    refine ⟨d, l, r, rest, rfl, ?_⟩
    simp only [validate_round] at h
    by_cases hleaf : is_leaf l r = true
    · left
      refine ⟨hleaf, ?_⟩
      simp only [hleaf, if_true] at h
      split at h
      · cases h
      · cases h
      · split at h
        · cases h
        · split_ifs at h
          simp only [Round.next.injEq] at h
          exact h.1.symm
    · right
      have hleaf2 : is_leaf l r = false := by simpa using hleaf
      simp only [hleaf2, Bool.false_eq_true, if_false] at h
      split_ifs at h with h1 h2 h3
      simp only [Round.next.injEq] at h
      exact ⟨hleaf2, by omega, h.1.symm⟩

/-- The loop of `validate_bvh` runs to its end only on the empty stack. -/
theorem validate_round_done {pool : List GLtriangle} {data : List Primitive}
    {stack : List BVHTreeNode} {checks checks2 : List Bool}
    (h : validate_round pool data stack checks = .done (.ok (some checks2))) : stack = [] := by
  match stack, h with
  | [], _ => rfl
  | .null :: rest, h => simp [validate_round] at h
  | .node d l r :: rest, h =>
    exfalso
    simp only [validate_round] at h
    by_cases hleaf : is_leaf l r = true
    · simp only [hleaf, if_true] at h
      split at h
      · cases h
      · cases h
      · split at h
        · cases h
        · split_ifs at h
          cases h
    · have hleaf2 : is_leaf l r = false := by simpa using hleaf
      simp only [hleaf2, Bool.false_eq_true, if_false] at h
      split_ifs at h <;> cases h

/-- Round by round the first loop of `flatten_bvh` has on its stack the nodes that the
loop of `validate_bvh` has on its stack, as long as that loop goes on, and ends when it
ends. -/
theorem first_pass_follows (pool : List GLtriangle) (data : List Primitive) :
    ∀ (n : Nat) (stack : List BVHTreeNode) (checks : List Bool) (st : List NodePtr)
      (slice : List BVHNode) (ptrs : List (List Bool)), st.map (·.2) = stack →
      (∀ s c, validate_rounds pool data n stack checks = .next s c →
        ∃ st2 slice2 ptrs2, first_pass_rounds n st slice ptrs = .next st2 slice2 ptrs2 ∧
          st2.map (·.2) = s) ∧
      (∀ c, validate_rounds pool data n stack checks = .done (.ok (some c)) →
        ∃ res, first_pass_rounds n st slice ptrs = .done (.ok res)) := by
  intro n
  induction n with
  | zero =>
    intro stack checks st slice ptrs hst
    refine ⟨fun s c h => ?_, fun c h => ?_⟩
    · simp only [validate_rounds, Round.next.injEq] at h
      exact ⟨st, slice, ptrs, rfl, by rw [hst, h.1]⟩
    · simp [validate_rounds] at h
  | succ n ih =>
    intro stack checks st slice ptrs hst
    simp only [validate_rounds, first_pass_rounds]
    cases hround : validate_round pool data stack checks with
    | done outcome =>
      refine ⟨fun s c h => ?_, fun c h => ?_⟩
      · simp at h
      simp only [Round.done.injEq] at h
      rw [h] at hround
      have hempty := validate_round_done hround
      rw [hempty] at hst
      have : st = [] := by simpa using hst
      subst this
      exact ⟨_, rfl⟩
    | next s1 c1 =>
      simp only
      obtain ⟨d, l, r, rest, hstack, hcase⟩ := validate_round_next hround
      rw [hstack] at hst
      match st, hst with
      | (path, t) :: st1, hst =>
        simp only [List.map_cons, List.cons.injEq] at hst
        obtain ⟨ht, hrest⟩ := hst
        subst ht
        rcases hcase with ⟨hleaf, hs⟩ | ⟨hleaf, hroom, hs⟩
        · simp only [first_pass_round, hleaf, if_true]
          exact ih s1 c1 st1 _ _ (by rw [hrest, hs])
        · have hlen : st1.length = rest.length := by rw [← hrest, List.length_map]
          simp only [first_pass_round, hleaf, Bool.false_eq_true, if_false]
          rw [if_neg (by omega)]
          exact ih s1 c1 _ _ _ (by simp [hrest, hs])

/-- Round by round the second loop of `flatten_bvh` has on its stack the nodes that the
loop of `validate_bvh` has on its stack, unless it has stopped at one of the assertions on
`found_i`. -/
theorem second_pass_follows (pool : List GLtriangle) (data : List Primitive)
    (ptrs : List (List Bool)) :
    ∀ (n : Nat) (stack : List BVHTreeNode) (checks : List Bool) (st : List NodePtr)
      (i : Nat) (slice : List BVHNode), st.map (·.2) = stack →
      (∀ s c, validate_rounds pool data n stack checks = .next s c →
        (∃ st2 i2 slice2, second_pass_rounds ptrs n st i slice = .next st2 i2 slice2 ∧
          st2.map (·.2) = s) ∨
        (∃ e, second_pass_rounds ptrs n st i slice = .done (.error e) ∧ offset_failure e)) ∧
      (∀ c, validate_rounds pool data n stack checks = .done (.ok (some c)) →
        (∃ res, second_pass_rounds ptrs n st i slice = .done (.ok res)) ∨
        (∃ e, second_pass_rounds ptrs n st i slice = .done (.error e) ∧ offset_failure e)) := by
  intro n
  induction n with
  | zero =>
    intro stack checks st i slice hst
    refine ⟨fun s c h => ?_, fun c h => ?_⟩
    · simp only [validate_rounds, Round.next.injEq] at h
      exact Or.inl ⟨st, i, slice, rfl, by rw [hst, h.1]⟩
    · simp [validate_rounds] at h
  | succ n ih =>
    intro stack checks st i slice hst
    simp only [validate_rounds, second_pass_rounds]
    cases hround : validate_round pool data stack checks with
    | done outcome =>
      refine ⟨fun s c h => ?_, fun c h => ?_⟩
      · simp at h
      simp only [Round.done.injEq] at h
      rw [h] at hround
      have hempty := validate_round_done hround
      rw [hempty] at hst
      have : st = [] := by simpa using hst
      subst this
      exact Or.inl ⟨_, rfl⟩
    | next s1 c1 =>
      simp only
      obtain ⟨d, l, r, rest, hstack, hcase⟩ := validate_round_next hround
      rw [hstack] at hst
      match st, hst with
      | (path, t) :: st1, hst =>
        simp only [List.map_cons, List.cons.injEq] at hst
        obtain ⟨ht, hrest⟩ := hst
        subst ht
        rcases hcase with ⟨hleaf, hs⟩ | ⟨hleaf, hroom, hs⟩
        · simp only [second_pass_round, hleaf, if_true]
          exact ih s1 c1 st1 _ _ (by rw [hrest, hs])
        · have hlen : st1.length = rest.length := by rw [← hrest, List.length_map]
          simp only [second_pass_round, hleaf, Bool.false_eq_true, if_false]
          rw [if_neg (by omega)]
          by_cases hf0 : find ptrs (path ++ [true]) ≥ 0
          · by_cases hf1 : find ptrs (path ++ [true]) < 2 ^ 31
            · simp only [hf0, hf1, not_true_eq_false, if_false]
              cases hget : slice[i]? with
              | none =>
                simp only
                exact ⟨fun s c _ => Or.inr ⟨_, rfl, Or.inr (Or.inr rfl)⟩,
                  fun c _ => Or.inr ⟨_, rfl, Or.inr (Or.inr rfl)⟩⟩
              | some nd =>
                simp only
                exact ih s1 c1 _ _ _ (by simp [hrest, hs])
            · simp only [hf0, hf1, not_true_eq_false, not_false_eq_true, if_true, if_false]
              exact ⟨fun s c _ => Or.inr ⟨_, rfl, Or.inr (Or.inl rfl)⟩,
                fun c _ => Or.inr ⟨_, rfl, Or.inr (Or.inl rfl)⟩⟩
          · simp only [hf0, not_false_eq_true, if_true]
            exact ⟨fun s c _ => Or.inr ⟨_, rfl, Or.inl rfl⟩,
              fun c _ => Or.inr ⟨_, rfl, Or.inl rfl⟩⟩

/-- While the loop of `validate_bvh` has not run to its end, it goes on: a run that ends
with all flags set (`some`) is at every round in the loop or at its end. -/
theorem validate_rounds_good (pool : List GLtriangle) (data : List Primitive) :
    ∀ (fuel : Nat) (stack : List BVHTreeNode) (checks checks2 : List Bool),
      validate_loop pool data fuel stack checks = .ok (some checks2) →
      ∀ n, (∃ s c, validate_rounds pool data n stack checks = .next s c) ∨
        (∃ c, validate_rounds pool data n stack checks = .done (.ok (some c))) := by
  intro fuel
  induction fuel with
  | zero => intro stack checks checks2 h; simp [validate_loop] at h
  | succ fuel ih =>
    intro stack checks checks2 h n
    rw [validate_loop_round] at h
    cases n with
    | zero => exact Or.inl ⟨stack, checks, rfl⟩
    | succ m =>
      simp only [validate_rounds]
      cases hround : validate_round pool data stack checks with
      | done outcome =>
        rw [hround] at h
        simp only at h
        rw [h]
        exact Or.inr ⟨checks2, rfl⟩
      | next s c =>
        rw [hround] at h
        exact ih s c checks2 h m

theorem validate_bvh_loop {pool : List GLtriangle} {data : List Primitive}
    {root : BVHTreeNode} (h : validate_bvh pool root data = .ok true) :
    ∃ checks, validate_loop pool data (root.size + 1) [root]
      (List.replicate data.length false) = .ok (some checks) := by
  simp only [validate_bvh] at h
  split at h
  · cases h
  · cases h
  · rename_i checks hloop
    exact ⟨checks, hloop⟩

/-- After any number of rounds the first loop of `flatten_bvh`, run on a tree that
`validate_bvh` accepts, is in the loop with the stack of `validate_bvh` after as many
rounds, or has ended with the array. -/
theorem first_pass_profile {pool : List GLtriangle} {data : List Primitive}
    {root : BVHTreeNode} (h : validate_bvh pool root data = .ok true) (n : Nat) :
    (∃ st slice ptrs checks,
      first_pass_rounds n [([], root)] [] [] = .next st slice ptrs ∧
      validate_rounds pool data n [root] (List.replicate data.length false)
        = .next (st.map (·.2)) checks ∧
      st.length < kTreeStackLimit) ∨
    (∃ res, first_pass_rounds n [([], root)] [] [] = .done (.ok res)) := by
  obtain ⟨checks, hloop⟩ := validate_bvh_loop h
  obtain ⟨hnext, hdone⟩ := first_pass_follows pool data n [root]
    (List.replicate data.length false) [([], root)] [] [] rfl
  rcases validate_rounds_good pool data _ _ _ _ hloop n with ⟨s, c, hs⟩ | ⟨c, hc⟩
  · obtain ⟨st2, slice2, ptrs2, h1, h2⟩ := hnext s c hs
    have hlen := validate_rounds_length pool data n [root] s _ c hs (by simp [kTreeStackLimit])
    refine Or.inl ⟨st2, slice2, ptrs2, c, h1, by rw [h2]; exact hs, ?_⟩
    rw [← h2, List.length_map] at hlen
    exact hlen
  · exact Or.inr (hdone c hc)

/-- After any number of rounds the second loop of `flatten_bvh`, run on a tree that
`validate_bvh` accepts, is in the loop with the stack of `validate_bvh` after as many
rounds, or has ended with the array or at one of the assertions on `found_i`. -/
theorem second_pass_profile {pool : List GLtriangle} {data : List Primitive}
    {root : BVHTreeNode} (h : validate_bvh pool root data = .ok true)
    (ptrs : List (List Bool)) (slice0 : List BVHNode) (n : Nat) :
    (∃ st i slice checks,
      second_pass_rounds ptrs n [([], root)] 0 slice0 = .next st i slice ∧
      validate_rounds pool data n [root] (List.replicate data.length false)
        = .next (st.map (·.2)) checks ∧
      st.length < kTreeStackLimit) ∨
    (∃ res, second_pass_rounds ptrs n [([], root)] 0 slice0 = .done (.ok res)) ∨
    (∃ e, second_pass_rounds ptrs n [([], root)] 0 slice0 = .done (.error e) ∧
      offset_failure e) := by
  obtain ⟨checks, hloop⟩ := validate_bvh_loop h
  obtain ⟨hnext, hdone⟩ := second_pass_follows pool data ptrs n [root]
    (List.replicate data.length false) [([], root)] 0 slice0 rfl
  rcases validate_rounds_good pool data _ _ _ _ hloop n with ⟨s, c, hs⟩ | ⟨c, hc⟩
  · rcases hnext s c hs with ⟨st2, i2, slice2, h1, h2⟩ | herr
    · have hlen := validate_rounds_length pool data n [root] s _ c hs
        (by simp [kTreeStackLimit])
      refine Or.inl ⟨st2, i2, slice2, c, h1, by rw [h2]; exact hs, ?_⟩
      rw [← h2, List.length_map] at hlen
      exact hlen
    · exact Or.inr (Or.inr herr)
  · rcases hdone c hc with hok | herr
    · exact Or.inr (Or.inl hok)
    · exact Or.inr (Or.inr herr)

theorem validate_rounds_end {pool : List GLtriangle} {data : List Primitive} {fuel : Nat}
    {stack : List BVHTreeNode} {checks checks2 : List Bool}
    (h : validate_loop pool data fuel stack checks = .ok (some checks2)) :
    validate_rounds pool data fuel stack checks = .done (.ok (some checks2)) := by
  rw [validate_loop_rounds] at h
  cases hr : validate_rounds pool data fuel stack checks with
  | done outcome => rw [hr] at h; simp only at h; rw [h]
  | next s c => rw [hr] at h; cases h

/-- On a tree that `validate_bvh` accepts and whose root has two children, `flatten_bvh`
returns its array or stops at an assertion on `found_i`. -/
theorem flatten_bvh_outcomes {pool : List GLtriangle} {data : List Primitive}
    {root : BVHTreeNode} (h : validate_bvh pool root data = .ok true)
    (hroot : root_has_children root) :
    (∃ res, flatten_bvh root = .ok res) ∨
    (∃ e, flatten_bvh root = .error e ∧ offset_failure e) := by
  obtain ⟨checks, hloop⟩ := validate_bvh_loop h
  have hend := validate_rounds_end hloop
  match root, hroot, hloop, hend with
  | .null, hroot, _, _ => exact absurd hroot (by simp [root_has_children])
  | .node d l r, hroot, hloop, hend =>
    simp only [root_has_children] at hroot
    simp only [flatten_bvh]
    rw [if_neg (by simp [hroot.1, hroot.2]), first_pass_eq_rounds]
    obtain ⟨res, h1⟩ := (first_pass_follows pool data _ [.node d l r]
      (List.replicate data.length false) [([], .node d l r)] [] [] rfl).2 checks hend
    rw [h1]
    obtain ⟨slice, ptrs⟩ := res
    simp only
    rw [second_pass_eq_rounds]
    rcases (second_pass_follows pool data ptrs _ [.node d l r]
      (List.replicate data.length false) [([], .node d l r)] 0 slice rfl).2 checks hend with
      ⟨res2, h2⟩ | ⟨e, h2, he⟩
    · rw [h2]; exact Or.inl ⟨_, rfl⟩
    · rw [h2]; exact Or.inr ⟨e, rfl, he⟩

/-- C28. For every tree and primitive set for which `validate_bvh` returns `true` and
whose root has two children, both loops of `flatten_bvh` go through the nodes with the
stack that the loop of `validate_bvh` had: after any number of rounds each of them is in
its loop with the very nodes on its stack that `validate_bvh` had on its stack after as
many rounds, fewer than `kTreeStackLimit` of them, or it has ended (the second loop with
the array or at an assertion on `found_i`).  So `flatten_bvh` never stores past its stack
array and never reads through a `NULL` child; it returns the array when the tree has at
most `2 ^ 31` nodes. -/
theorem flatten_bvh_stack_profile (pool : List GLtriangle) (data : List Primitive)
    (root : BVHTreeNode) (h : validate_bvh pool root data = .ok true)
    (hroot : root_has_children root) :
    (∀ n, (∃ st slice ptrs checks,
        first_pass_rounds n [([], root)] [] [] = .next st slice ptrs ∧
        validate_rounds pool data n [root] (List.replicate data.length false)
          = .next (st.map (·.2)) checks ∧
        st.length < kTreeStackLimit) ∨
      (∃ res, first_pass_rounds n [([], root)] [] [] = .done (.ok res))) ∧
    (∀ ptrs slice0 n, (∃ st i slice checks,
        second_pass_rounds ptrs n [([], root)] 0 slice0 = .next st i slice ∧
        validate_rounds pool data n [root] (List.replicate data.length false)
          = .next (st.map (·.2)) checks ∧
        st.length < kTreeStackLimit) ∨
      (∃ res, second_pass_rounds ptrs n [([], root)] 0 slice0 = .done (.ok res)) ∨
      (∃ e, second_pass_rounds ptrs n [([], root)] 0 slice0 = .done (.error e) ∧
        offset_failure e)) ∧
    (∀ fuel stack slice ptrs, flatten_first_pass fuel stack slice ptrs =
      match first_pass_rounds fuel stack slice ptrs with
      | .done outcome => outcome
      | .next _ _ _ => .error .fuel) ∧
    (∀ ptrs fuel stack i slice, flatten_second_pass ptrs fuel stack i slice =
      match second_pass_rounds ptrs fuel stack i slice with
      | .done outcome => outcome
      | .next _ _ _ => .error .fuel) ∧
    ((∃ res, flatten_bvh root = .ok res) ∨
      (∃ e, flatten_bvh root = .error e ∧ offset_failure e)) ∧
    flatten_bvh root ≠ .error .stackOverflow ∧ flatten_bvh root ≠ .error .nullDeref ∧
    (root.size ≤ 2 ^ 31 → flatten_bvh root = .ok (flat_spec 0 root, root.size)) := by
  have hout := flatten_bvh_outcomes h hroot
  refine ⟨fun n => first_pass_profile h n,
    fun ptrs slice0 n => second_pass_profile h ptrs slice0 n,
    first_pass_eq_rounds, second_pass_eq_rounds, hout, ?_, ?_, ?_⟩
  · intro hc
    rcases hout with ⟨res, h1⟩ | ⟨e, h1, he⟩
    · rw [h1] at hc; cases hc
    · rw [h1] at hc
      simp only [Except.error.injEq] at hc
      rw [hc] at he
      rcases he with he | he | he <;> cases he
  · intro hc
    rcases hout with ⟨res, h1⟩ | ⟨e, h1, he⟩
    · rw [h1] at hc; cases hc
    · rw [h1] at hc
      simp only [Except.error.injEq] at hc
      rw [hc] at he
      rcases he with he | he | he <;> cases he
  · intro hsize
    obtain ⟨hshape, hneed, -, -⟩ := validate_bvh_true h
    cases root with
    | null => exact absurd hroot (by simp [root_has_children])
    | node d l r =>
      simp only [root_has_children] at hroot
      exact flatten_bvh_ok hroot.1 hroot.2 (validated_shape_full _ hshape) (le_of_lt hneed)
        hsize

theorem flatten_bvh_stack_profile_witness :
    (validate_bvh sample_pool sample_tree3 sample_primitives = .ok true ∧
      root_has_children sample_tree3 ∧ sample_tree3.size ≤ 2 ^ 31) ∧
    first_pass_rounds 2 [([], sample_tree3)] [] []
      = .next
        [([false, false], .node ⟨0, -1, ⟨-1, 1, 0, 2, 0, 5⟩⟩ .null .null),
         ([false, true], .node ⟨2, -1, ⟨4, 4, 0, 2, 0, 5⟩⟩ .null .null),
         ([true], .node ⟨1, -1, ⟨9, 11, 0, 2, 0, 5⟩⟩ .null .null)]
        [⟨-1, -1, ⟨-1, 11, 0, 2, 0, 5⟩⟩, ⟨-1, -1, ⟨-1, 4, 0, 2, 0, 5⟩⟩] [[], [false]] ∧
    validate_rounds sample_pool sample_primitives 2 [sample_tree3]
        (List.replicate sample_primitives.length false)
      = .next
        [.node ⟨0, -1, ⟨-1, 1, 0, 2, 0, 5⟩⟩ .null .null,
         .node ⟨2, -1, ⟨4, 4, 0, 2, 0, 5⟩⟩ .null .null,
         .node ⟨1, -1, ⟨9, 11, 0, 2, 0, 5⟩⟩ .null .null] [false, false, false] ∧
    flatten_bvh sample_tree3 ≠ .error .stackOverflow ∧
    flatten_bvh sample_tree3 ≠ .error .nullDeref ∧
    flatten_bvh sample_tree3 = .ok (flat_spec 0 sample_tree3, sample_tree3.size) :=
  ⟨⟨by decide!, by decide, by decide⟩, by decide!, by decide!,
   (flatten_bvh_stack_profile sample_pool sample_primitives sample_tree3 (by decide!)
     (by decide)).2.2.2.2.2.1,
   (flatten_bvh_stack_profile sample_pool sample_primitives sample_tree3 (by decide!)
     (by decide)).2.2.2.2.2.2.1,
   (flatten_bvh_stack_profile sample_pool sample_primitives sample_tree3 (by decide!)
     (by decide)).2.2.2.2.2.2.2 (by decide)⟩

theorem cube_triangles_length (normalize : GLvec3 → GLvec3) (cube : Cube)
    (flags : SubmitFlags) : (cube_triangles normalize cube flags).length = 12 := by
  simp [cube_triangles]

/-- The stores of `submit_primitive` replace, one by one, the triangles that follow the
first `index + k` ones. -/
theorem store_triangles_eq (A B : List GLtriangle) :
    ∀ (tris written old : List GLtriangle) (k : Nat),
      written.length = k → old.length = tris.length →
      store_triangles (A.length : Int) tris k (A ++ written ++ old ++ B) =
        .ok (A ++ written ++ tris ++ B) := by
  intro tris
  induction tris with
  | nil =>
    intro written old k _ hold
    have : old = [] := List.eq_nil_of_length_eq_zero (by simpa using hold)
    subst this
    simp [store_triangles]
  | cons tri tris ih =>
    intro written old k hk hold
    match old, hold with
    | o :: old, hold =>
      have hlen : (A ++ written).length = A.length + k := by simp [hk]
      have htoNat : ((A.length : Int) + (k : Int)).toNat = (A ++ written).length := by
        rw [hlen]; omega
      have hstore : store (A ++ written ++ o :: old ++ B) ((A.length : Int) + (k : Int)) tri =
          .ok (A ++ written ++ tri :: old ++ B) := by
        simp only [store]
        rw [if_neg]
        · rw [htoNat]
          have e1 : A ++ written ++ o :: old ++ B = (A ++ written) ++ o :: (old ++ B) := by simp
          have e2 : A ++ written ++ tri :: old ++ B = (A ++ written) ++ tri :: (old ++ B) := by
            simp
          rw [e1, e2, set_append_cons]
        · rw [htoNat]
          simp only [List.length_append, List.length_cons]
          omega
      simp only [store_triangles, hstore]
      have e3 : A ++ written ++ tri :: old ++ B = A ++ (written ++ [tri]) ++ old ++ B := by simp
      have e4 : A ++ written ++ tri :: tris ++ B = A ++ (written ++ [tri]) ++ tris ++ B := by
        simp
      rw [e3, e4]
      exact ih (written ++ [tri]) old (k + 1) (by simp [hk]) (by simpa using hold)

/-- The value of `submit_primitive` without the `Update` flag. -/
theorem submit_append_value (normalize : GLvec3 → GLvec3) (tri : GLtriangle)
    (s : Scene) (cube : Cube) (flags : SubmitFlags) (flag_params : Int)
    (hflags : flags.update = false)
    (hlen : (s.m_triangle_pool.length : Int) ≤ (PH_MAX_int64 : Int)) :
    submit_primitive normalize tri s cube flags flag_params =
      .ok ((s.m_primitives.length : Int),
        { cube with index := (s.m_triangle_pool.length : Int) },
        { s with
          m_triangle_pool := s.m_triangle_pool ++ cube_triangles normalize cube flags,
          m_primitives := s.m_primitives ++
            [⟨(s.m_triangle_pool.length : Int), 12, MaterialType_Lambert⟩] }) := by
  have h := store_triangles_eq s.m_triangle_pool [] (cube_triangles normalize cube flags) []
    (List.replicate 12 { tri with p0 := { tri.p0 with x := 0 } }) 0 rfl
    (by simp [cube_triangles_length])
  simp only [List.append_nil, Nat.cast_zero] at h
  simp only [submit_primitive, hflags, Bool.false_eq_true, if_false, h, hlen,
    not_true_eq_false]

/-- The value of `submit_primitive` with the `Update` flag, for a cube whose twelve
triangles are in the pool and an id of a primitive. -/
theorem submit_update_value (normalize : GLvec3 → GLvec3) (tri : GLtriangle)
    (s : Scene) (cube : Cube) (flags : SubmitFlags) (flag_params : Int)
    (hflags : flags.update = true) (h0 : 0 ≤ cube.index)
    (h12 : cube.index + 12 ≤ (s.m_triangle_pool.length : Int))
    (hlen : (s.m_triangle_pool.length : Int) ≤ (PH_MAX_int64 : Int))
    (hid0 : 0 ≤ flag_params) (hid1 : flag_params < (s.m_primitives.length : Int)) :
    submit_primitive normalize tri s cube flags flag_params =
      .ok (flag_params, cube,
        { s with
          m_triangle_pool := s.m_triangle_pool.take cube.index.toNat ++
            cube_triangles normalize cube flags ++
            s.m_triangle_pool.drop (cube.index.toNat + 12),
          m_primitives := s.m_primitives.set flag_params.toNat
            ⟨cube.index, 12, MaterialType_Lambert⟩ }) := by
  have hsplit : s.m_triangle_pool = s.m_triangle_pool.take cube.index.toNat ++ [] ++
      (s.m_triangle_pool.drop cube.index.toNat).take 12 ++
      s.m_triangle_pool.drop (cube.index.toNat + 12) := by
    rw [List.append_nil, List.append_assoc, ← List.drop_drop, List.take_append_drop,
      List.take_append_drop]
  have hA : ((s.m_triangle_pool.take cube.index.toNat).length : Int) = cube.index := by
    rw [List.length_take]
    omega
  have h := store_triangles_eq (s.m_triangle_pool.take cube.index.toNat)
    (s.m_triangle_pool.drop (cube.index.toNat + 12)) (cube_triangles normalize cube flags) []
    ((s.m_triangle_pool.drop cube.index.toNat).take 12) 0 rfl
    (by rw [List.length_take, List.length_drop, cube_triangles_length]; omega)
  rw [← hsplit, hA] at h
  simp only [Nat.cast_zero, List.append_nil] at h
  have hidx : cube.index ≤ (PH_MAX_int64 : Int) := by omega
  simp only [submit_primitive, hflags, if_true, h, hidx, not_true_eq_false, if_false,
    ge_iff_le, hid0, hid1, and_self]

/-- C22. For every cube submitted with `submit_primitive` without the `Update` flag (the
pool length being an `int64`, hence at most `PH_MAX_int64`), the call returns; the triangle
pool grows by exactly 12 triangles, the twelve of the cube, behind the triangles it held,
which are unchanged; the primitive pool grows by exactly one primitive, equal to
`{offset = triangle-pool length before the call, num_triangles = 12, material =
MaterialType_Lambert}`, behind the primitives it held; `cube->index` is set to that offset;
the returned id is the primitive-pool length before the call; the light pool and the
buffers are as before. -/
theorem submit_primitive_append (normalize : GLvec3 → GLvec3) (tri : GLtriangle)
    (s : Scene) (cube : Cube) (flags : SubmitFlags) (flag_params : Int)
    (hflags : flags.update = false)
    (hlen : (s.m_triangle_pool.length : Int) ≤ (PH_MAX_int64 : Int)) :
    ∃ (id : Int) (cube2 : Cube) (s2 : Scene),
      submit_primitive normalize tri s cube flags flag_params = .ok (id, cube2, s2) ∧
      s2.m_triangle_pool.length = s.m_triangle_pool.length + 12 ∧
      s2.m_triangle_pool.take s.m_triangle_pool.length = s.m_triangle_pool ∧
      s2.m_triangle_pool.drop s.m_triangle_pool.length =
        cube_triangles normalize cube flags ∧
      s2.m_primitives.length = s.m_primitives.length + 1 ∧
      s2.m_primitives = s.m_primitives ++
        [⟨(s.m_triangle_pool.length : Int), 12, MaterialType_Lambert⟩] ∧
      cube2 = { cube with index := (s.m_triangle_pool.length : Int) } ∧
      id = (s.m_primitives.length : Int) ∧
      s2.m_light_pool = s.m_light_pool ∧ s2.m_bvh_buffer = s.m_bvh_buffer ∧
      s2.m_triangle_buffer = s.m_triangle_buffer ∧ s2.m_light_buffer = s.m_light_buffer ∧
      s2.m_prim_buffer = s.m_prim_buffer := by
  refine ⟨_, _, _, submit_append_value normalize tri s cube flags flag_params hflags
    hlen, ?_, ?_, ?_, ?_, rfl, rfl, rfl, rfl, rfl, rfl, rfl, rfl⟩
  · simp [cube_triangles_length]
  · simp
  · simp
  · simp

theorem submit_primitive_append_witness :
    (SubmitFlags_None.update = false ∧
      (unit_scene.m_triangle_pool.length : Int) ≤ (PH_MAX_int64 : Int)) ∧
    submit_primitive no_normalize zero_triangle unit_scene moved_cube SubmitFlags_None 0 =
      .ok (1, { moved_cube with index := 12 },
        { unit_scene with
          m_triangle_pool := unit_scene.m_triangle_pool ++
            cube_triangles no_normalize moved_cube SubmitFlags_None,
          m_primitives := [⟨0, 12, MaterialType_Lambert⟩, ⟨12, 12, MaterialType_Lambert⟩] }) ∧
    ∃ (id : Int) (cube2 : Cube) (s2 : Scene),
      submit_primitive no_normalize zero_triangle unit_scene moved_cube SubmitFlags_None 0
        = .ok (id, cube2, s2) ∧
      s2.m_triangle_pool.length = unit_scene.m_triangle_pool.length + 12 ∧
      s2.m_triangle_pool.take unit_scene.m_triangle_pool.length
        = unit_scene.m_triangle_pool ∧
      s2.m_triangle_pool.drop unit_scene.m_triangle_pool.length =
        cube_triangles no_normalize moved_cube SubmitFlags_None ∧
      s2.m_primitives.length = unit_scene.m_primitives.length + 1 ∧
      s2.m_primitives = unit_scene.m_primitives ++
        [⟨(unit_scene.m_triangle_pool.length : Int), 12, MaterialType_Lambert⟩] ∧
      cube2 = { moved_cube with index := (unit_scene.m_triangle_pool.length : Int) } ∧
      id = (unit_scene.m_primitives.length : Int) ∧
      s2.m_light_pool = unit_scene.m_light_pool ∧
      s2.m_bvh_buffer = unit_scene.m_bvh_buffer ∧
      s2.m_triangle_buffer = unit_scene.m_triangle_buffer ∧
      s2.m_light_buffer = unit_scene.m_light_buffer ∧
      s2.m_prim_buffer = unit_scene.m_prim_buffer :=
  ⟨⟨by decide, by decide⟩, by decide!,
   submit_primitive_append no_normalize zero_triangle unit_scene moved_cube SubmitFlags_None 0
     (by decide) (by decide)⟩

/-- C23. For every call of `submit_primitive` with the `Update` flag, for a cube whose
twelve triangles `cube->index .. cube->index + 11` are in the pool, and an existing id
`flag_params` in `[0, primitive count)`: the call returns `flag_params`; the lengths of the
triangle pool and of the primitive pool are unchanged; the twelve triangles at
`cube->index .. cube->index + 11` are the twelve of the cube and every other triangle is
unchanged; the primitive at `flag_params` is `{cube->index, 12, MaterialType_Lambert}` and
every other primitive is unchanged; the cube, the light pool and the buffers are as
before.  With an id outside `[0, primitive count)` the call fails. -/
theorem submit_primitive_update (normalize : GLvec3 → GLvec3) (tri : GLtriangle)
    (s : Scene) (cube : Cube) (flags : SubmitFlags) (flag_params : Int)
    (hflags : flags.update = true) :
    (0 ≤ cube.index → cube.index + 12 ≤ (s.m_triangle_pool.length : Int) →
      (s.m_triangle_pool.length : Int) ≤ (PH_MAX_int64 : Int) →
      0 ≤ flag_params → flag_params < (s.m_primitives.length : Int) →
      ∃ s2 : Scene,
        submit_primitive normalize tri s cube flags flag_params = .ok (flag_params, cube, s2) ∧
        s2.m_triangle_pool.length = s.m_triangle_pool.length ∧
        s2.m_primitives.length = s.m_primitives.length ∧
        (∀ i : Nat, (i : Int) < cube.index ∨ cube.index + 12 ≤ (i : Int) →
          s2.m_triangle_pool[i]? = s.m_triangle_pool[i]?) ∧
        (∀ k : Nat, k < 12 → s2.m_triangle_pool[cube.index.toNat + k]? =
          (cube_triangles normalize cube flags)[k]?) ∧
        (∀ j : Nat, (j : Int) ≠ flag_params → s2.m_primitives[j]? = s.m_primitives[j]?) ∧
        s2.m_primitives[flag_params.toNat]? = some ⟨cube.index, 12, MaterialType_Lambert⟩ ∧
        s2.m_light_pool = s.m_light_pool ∧ s2.m_bvh_buffer = s.m_bvh_buffer ∧
        s2.m_triangle_buffer = s.m_triangle_buffer ∧
        s2.m_light_buffer = s.m_light_buffer ∧ s2.m_prim_buffer = s.m_prim_buffer) ∧
    (¬ (0 ≤ flag_params ∧ flag_params < (s.m_primitives.length : Int)) →
      ∃ e, submit_primitive normalize tri s cube flags flag_params = .error e) := by
  constructor
  · intro h0 h12 hlen hid0 hid1
    have hn : cube.index.toNat + 12 ≤ s.m_triangle_pool.length := by omega
    have htake : (s.m_triangle_pool.take cube.index.toNat).length = cube.index.toNat := by
      rw [List.length_take]; omega
    refine ⟨_, submit_update_value normalize tri s cube flags flag_params hflags h0 h12
      hlen hid0 hid1, ?_, ?_, ?_, ?_, ?_, ?_, rfl, rfl, rfl, rfl, rfl⟩
    · simp only [List.length_append, htake, cube_triangles_length, List.length_drop]
      omega
    · simp
    · intro i hi
      simp only [List.append_assoc]
      rcases hi with hi | hi
      · have hlt : i < cube.index.toNat := by omega
        rw [List.getElem?_append_left (by rw [htake]; exact hlt),
          List.getElem?_take_of_lt hlt]
      · have hge : cube.index.toNat + 12 ≤ i := by omega
        rw [List.getElem?_append_right (by rw [htake]; omega), htake,
          List.getElem?_append_right (by rw [cube_triangles_length]; omega),
          cube_triangles_length, List.getElem?_drop]
        congr 1
        omega
    · intro k hk
      simp only [List.append_assoc]
      rw [List.getElem?_append_right (by rw [htake]; omega), htake,
        List.getElem?_append_left (by rw [cube_triangles_length]; omega)]
      congr 1
      omega
    · intro j hj
      simp only
      rw [List.getElem?_set_ne]
      omega
    · simp only
      rw [List.getElem?_set_eq_of_lt]
      omega
  · intro hid
    simp only [submit_primitive, hflags, if_true]
    split
    · exact ⟨_, rfl⟩
    · split_ifs
      · exact ⟨_, rfl⟩
      · exact ⟨_, rfl⟩

theorem submit_primitive_update_witness :
    (SubmitFlags.update ⟨true, false⟩ = true ∧ 0 ≤ moved_cube.index ∧
      moved_cube.index + 12 ≤ (unit_scene.m_triangle_pool.length : Int) ∧
      (unit_scene.m_triangle_pool.length : Int) ≤ (PH_MAX_int64 : Int) ∧
      (0 : Int) ≤ 0 ∧ (0 : Int) < (unit_scene.m_primitives.length : Int) ∧
      ¬ (0 ≤ (1 : Int) ∧ (1 : Int) < (unit_scene.m_primitives.length : Int))) ∧
    submit_primitive no_normalize zero_triangle unit_scene moved_cube ⟨true, false⟩ 0 =
      .ok (0, moved_cube,
        { unit_scene with
          m_triangle_pool := cube_triangles no_normalize moved_cube ⟨true, false⟩ }) ∧
    submit_primitive no_normalize zero_triangle unit_scene moved_cube ⟨true, false⟩ 1 =
      .error .updateId ∧
    (∃ s2 : Scene,
      submit_primitive no_normalize zero_triangle unit_scene moved_cube ⟨true, false⟩ 0
        = .ok (0, moved_cube, s2) ∧
      s2.m_triangle_pool.length = unit_scene.m_triangle_pool.length) ∧
    ∃ e, submit_primitive no_normalize zero_triangle unit_scene moved_cube ⟨true, false⟩ 1
      = .error e :=
  ⟨⟨by decide, by decide, by decide, by decide, by decide, by decide, by decide⟩,
   by decide!, by decide!,
   (let ⟨s2, h1, h2, _⟩ :=
      (submit_primitive_update no_normalize zero_triangle unit_scene moved_cube ⟨true, false⟩ 0
        (by decide)).1 (by decide) (by decide) (by decide) (by decide) (by decide)
    ⟨s2, h1, h2⟩),
   (submit_primitive_update no_normalize zero_triangle unit_scene moved_cube ⟨true, false⟩ 1
     (by decide)).2 (by decide)⟩

theorem pow2_eq_zpow (k : Int) : pow2 k = (2 : ℚ) ^ k := by
  unfold pow2
  split_ifs with h
  · obtain ⟨n, rfl⟩ := Int.eq_ofNat_of_zero_le h
    simp
  · obtain ⟨n, hn⟩ := Int.exists_eq_neg_ofNat (le_of_lt (not_le.mp h))
    subst hn
    simp

theorem pow2_pos (k : Int) : 0 < pow2 k := by
  rw [pow2_eq_zpow]; positivity

theorem pow2_add (a b : Int) : pow2 (a + b) = pow2 a * pow2 b := by
  simp only [pow2_eq_zpow]
  exact zpow_add₀ (by norm_num) a b

theorem pow2_le_pow2 {a b : Int} (h : a ≤ b) : pow2 a ≤ pow2 b := by
  simp only [pow2_eq_zpow]
  exact zpow_le_zpow_right₀ (by norm_num) h

theorem pow2_lt_pow2_iff {a b : Int} : pow2 a < pow2 b ↔ a < b := by
  simp only [pow2_eq_zpow]
  exact zpow_lt_zpow_iff_right₀ (by norm_num)

theorem pow2_natCast (n : Nat) : pow2 (n : Int) = ((2 ^ n : Nat) : ℚ) := by
  simp [pow2]

/-- The halvings count the binary digits: `2 ^ L <= n < 2 ^ (L + 1)`. -/
theorem log2_steps_spec :
    ∀ (fuel n : Nat), n ≤ fuel → 0 < n →
      2 ^ log2_steps fuel n ≤ n ∧ n < 2 ^ (log2_steps fuel n + 1) := by
  intro fuel
  induction fuel with
  | zero => intro n h1 h2; omega
  | succ fuel ih =>
    intro n h1 h2
    simp only [log2_steps]
    split_ifs with h
    · have hdiv : n / 2 ≤ fuel := by omega
      have hpos : 0 < n / 2 := by omega
      obtain ⟨l1, l2⟩ := ih (n / 2) hdiv hpos
      constructor
      · rw [pow_succ]; omega
      · rw [pow_succ]; omega
    · simp; omega

theorem abs_eq_natAbs_div (q : ℚ) : |q| = (q.num.natAbs : ℚ) / (q.den : ℚ) := by
  conv_lhs => rw [← Rat.num_div_den q]
  rw [abs_div, Nat.abs_cast, Nat.cast_natAbs, Int.cast_abs]

/-- The binary exponent of a rational other than zero brackets it:
`2 ^ e <= |q| < 2 ^ (e + 1)`. -/
theorem exponent_spec (q : ℚ) (hq : q ≠ 0) :
    pow2 (exponent q) ≤ |q| ∧ |q| < pow2 (exponent q + 1) := by
  have hn : 0 < q.num.natAbs := Int.natAbs_pos.mpr (Rat.num_ne_zero.mpr hq)
  have hd : 0 < q.den := q.den_pos
  obtain ⟨n1, n2⟩ := log2_steps_spec q.num.natAbs q.num.natAbs (le_refl _) hn
  obtain ⟨d1, d2⟩ := log2_steps_spec q.den q.den (le_refl _) hd
  have n1q : ((2 : ℚ) ^ log2_steps q.num.natAbs q.num.natAbs) ≤ (q.num.natAbs : ℚ) := by
    exact_mod_cast n1
  have n2q : (q.num.natAbs : ℚ) < (2 : ℚ) ^ (log2_steps q.num.natAbs q.num.natAbs + 1) := by
    exact_mod_cast n2
  have d1q : ((2 : ℚ) ^ log2_steps q.den q.den) ≤ (q.den : ℚ) := by exact_mod_cast d1
  have d2q : (q.den : ℚ) < (2 : ℚ) ^ (log2_steps q.den q.den + 1) := by exact_mod_cast d2
  have hdq : (0 : ℚ) < (q.den : ℚ) := by exact_mod_cast hd
  have hnq : (0 : ℚ) < (q.num.natAbs : ℚ) := by exact_mod_cast hn
  have hA : (0 : ℚ) < (2 : ℚ) ^ log2_steps q.num.natAbs q.num.natAbs := by positivity
  have hB : (0 : ℚ) < (2 : ℚ) ^ log2_steps q.den q.den := by positivity
  have e0 : pow2 ((log2_steps q.num.natAbs q.num.natAbs : Int) - (log2_steps q.den q.den : Int))
      = (2 : ℚ) ^ log2_steps q.num.natAbs q.num.natAbs / (2 : ℚ) ^ log2_steps q.den q.den := by
    rw [pow2_eq_zpow, zpow_sub₀ (by norm_num), zpow_natCast, zpow_natCast]
  have habs := abs_eq_natAbs_div q
  rw [pow_succ] at n2q d2q
  unfold exponent
  simp only
  split_ifs with h
  · refine ⟨h, ?_⟩
    rw [pow2_add, e0, habs]
    have h1 : pow2 1 = 2 := by simp [pow2]
    rw [h1, div_mul_eq_mul_div, div_lt_div_iff₀ hdq hB]
    nlinarith
  · refine ⟨?_, ?_⟩
    · have h1 : pow2 (-1) = 1 / 2 := by simp [pow2]
      rw [sub_eq_add_neg, pow2_add, e0, h1, habs, div_mul_eq_mul_div,
        div_le_div_iff₀ hB hdq]
      nlinarith
    · rw [sub_add_cancel]
      exact not_le.mp h

theorem exponent_unique {q : ℚ} {e : Int} (h1 : pow2 e ≤ |q|) (h2 : |q| < pow2 (e + 1)) :
    exponent q = e := by
  have hq : q ≠ 0 := by
    intro hc
    rw [hc, abs_zero] at h1
    exact absurd (pow2_pos e) (not_lt.mpr h1)
  obtain ⟨s1, s2⟩ := exponent_spec q hq
  have a1 : e < exponent q + 1 := pow2_lt_pow2_iff.mp (lt_of_le_of_lt h1 s2)
  have a2 : exponent q < e + 1 := pow2_lt_pow2_iff.mp (lt_of_le_of_lt s1 h2)
  omega

theorem exponent_mono {x y : ℚ} (hx : x ≠ 0) (h : |x| ≤ |y|) : exponent x ≤ exponent y := by
  have hy : y ≠ 0 := by
    intro hc
    rw [hc, abs_zero] at h
    exact hx (abs_eq_zero.mp (le_antisymm h (abs_nonneg x)))
  obtain ⟨s1, -⟩ := exponent_spec x hx
  obtain ⟨-, t2⟩ := exponent_spec y hy
  have := pow2_lt_pow2_iff.mp (lt_of_le_of_lt (le_trans s1 h) t2)
  omega

theorem round_even_floor_le (x : ℚ) : ⌊x⌋ ≤ round_even x := by
  unfold round_even
  split_ifs <;> omega

theorem round_even_le_floor_succ (x : ℚ) : round_even x ≤ ⌊x⌋ + 1 := by
  unfold round_even
  split_ifs <;> omega

theorem round_even_intCast (n : Int) : round_even (n : ℚ) = n := by
  unfold round_even
  simp

theorem round_even_mono {x y : ℚ} (h : x ≤ y) : round_even x ≤ round_even y := by
  have hfl : ⌊x⌋ ≤ ⌊y⌋ := Int.floor_mono h
  rcases lt_or_eq_of_le hfl with hlt | heq
  · have h1 := round_even_le_floor_succ x
    have h2 := round_even_floor_le y
    omega
  · unfold round_even
    rw [← heq]
    split_ifs <;> first | omega | (exfalso; linarith)

theorem rounded_zero : rounded 0 = 0 := by
  simp [rounded, round_even]

theorem round32_eq_rounded (q : ℚ) :
    round32 q =
      if pow2 128 ≤ |rounded q| then (if 0 < q then .pinf else .ninf)
      else .fin (rounded q) := by
  by_cases hq : q = 0
  · subst hq
    have : ¬ pow2 128 ≤ |rounded 0| := by
      rw [rounded_zero, abs_zero]
      exact not_le.mpr (pow2_pos 128)
    rw [if_neg this, rounded_zero]
    simp [round32]
  · simp only [round32, hq, if_false, rounded, round_grid]

/-- A multiple of the spacing above a rational is above its rounding. -/
theorem rounded_le_of_le_grid {q : ℚ} (m : Int) (h : q ≤ (m : ℚ) * pow2 (round_grid q)) :
    rounded q ≤ (m : ℚ) * pow2 (round_grid q) := by
  have hp := pow2_pos (round_grid q)
  have h1 : q / pow2 (round_grid q) ≤ (m : ℚ) := by
    rw [div_le_iff₀ hp]; exact h
  have h2 := round_even_mono h1
  rw [round_even_intCast] at h2
  unfold rounded
  have h3 : (round_even (q / pow2 (round_grid q)) : ℚ) ≤ (m : ℚ) := by exact_mod_cast h2
  exact mul_le_mul_of_nonneg_right h3 (le_of_lt hp)

/-- A multiple of the spacing below a rational is below its rounding. -/
theorem grid_le_rounded {q : ℚ} (m : Int) (h : (m : ℚ) * pow2 (round_grid q) ≤ q) :
    (m : ℚ) * pow2 (round_grid q) ≤ rounded q := by
  have hp := pow2_pos (round_grid q)
  have h1 : (m : ℚ) ≤ q / pow2 (round_grid q) := by
    rw [le_div_iff₀ hp]; exact h
  have h2 := round_even_mono h1
  rw [round_even_intCast] at h2
  unfold rounded
  have h3 : (m : ℚ) ≤ (round_even (q / pow2 (round_grid q)) : ℚ) := by exact_mod_cast h2
  exact mul_le_mul_of_nonneg_right h3 (le_of_lt hp)

/-- A power of two at or above the spacing is a multiple of it. -/
theorem pow2_eq_grid {k a : Int} (h : k ≤ a) :
    pow2 a = (((2 ^ (a - k).toNat : Nat) : Int) : ℚ) * pow2 k := by
  have h1 : a = ((a - k).toNat : Int) + k := by
    rw [Int.toNat_of_nonneg (by omega)]; omega
  conv_lhs => rw [h1, pow2_add, pow2_natCast]
  push_cast
  ring

theorem rounded_nonneg {q : ℚ} (h : 0 ≤ q) : 0 ≤ rounded q := by
  have := @grid_le_rounded q 0 (by simpa using h)
  simpa using this

theorem rounded_nonpos {q : ℚ} (h : q ≤ 0) : rounded q ≤ 0 := by
  have := @rounded_le_of_le_grid q 0 (by simpa using h)
  simpa using this

theorem rounded_le_pow2 {q : ℚ} {b : Int} (hk : round_grid q ≤ b) (h : q ≤ pow2 b) :
    rounded q ≤ pow2 b := by
  rw [pow2_eq_grid hk] at h ⊢
  exact rounded_le_of_le_grid _ h

theorem pow2_le_rounded {q : ℚ} {a : Int} (hk : round_grid q ≤ a) (h : pow2 a ≤ q) :
    pow2 a ≤ rounded q := by
  rw [pow2_eq_grid hk] at h ⊢
  exact grid_le_rounded _ h

theorem rounded_le_neg_pow2 {q : ℚ} {a : Int} (hk : round_grid q ≤ a) (h : q ≤ -pow2 a) :
    rounded q ≤ -pow2 a := by
  rw [pow2_eq_grid hk] at h ⊢
  have := @rounded_le_of_le_grid q (-((2 ^ (a - round_grid q).toNat : Nat) : Int))
    (by push_cast at h ⊢; linarith)
  push_cast at this ⊢
  linarith

theorem neg_pow2_le_rounded {q : ℚ} {b : Int} (hk : round_grid q ≤ b) (h : -pow2 b ≤ q) :
    -pow2 b ≤ rounded q := by
  rw [pow2_eq_grid hk] at h ⊢
  have := @grid_le_rounded q (-((2 ^ (b - round_grid q).toNat : Nat) : Int))
    (by push_cast at h ⊢; linarith)
  push_cast at this ⊢
  linarith

theorem rounded_mono_same_grid {x y : ℚ} (hk : round_grid x = round_grid y) (h : x ≤ y) :
    rounded x ≤ rounded y := by
  unfold rounded
  rw [hk]
  have hp := pow2_pos (round_grid y)
  have h1 : x / pow2 (round_grid y) ≤ y / pow2 (round_grid y) :=
    div_le_div_of_nonneg_right h (le_of_lt hp)
  have h2 := round_even_mono h1
  have h3 : (round_even (x / pow2 (round_grid y)) : ℚ) ≤
      (round_even (y / pow2 (round_grid y)) : ℚ) := by exact_mod_cast h2
  exact mul_le_mul_of_nonneg_right h3 (le_of_lt hp)

theorem rounded_mono_pos {x y : ℚ} (hx : 0 < x) (h : x ≤ y) : rounded x ≤ rounded y := by
  have hy : 0 < y := lt_of_lt_of_le hx h
  have hxne : x ≠ 0 := ne_of_gt hx
  have hyne : y ≠ 0 := ne_of_gt hy
  have habs : |x| ≤ |y| := by rw [abs_of_pos hx, abs_of_pos hy]; exact h
  have hexp := exponent_mono hxne habs
  obtain ⟨-, x2⟩ := exponent_spec x hxne
  obtain ⟨y1, -⟩ := exponent_spec y hyne
  rw [abs_of_pos hx] at x2
  rw [abs_of_pos hy] at y1
  by_cases hk : round_grid x = round_grid y
  · exact rounded_mono_same_grid hk h
  · have hlt : max (exponent x) (-126) < max (exponent y) (-126) := by
      simp only [round_grid] at hk
      have : max (exponent x) (-126) ≤ max (exponent y) (-126) := max_le_max hexp (le_refl _)
      omega
    have hEy : max (exponent y) (-126) = exponent y := by omega
    have a1 : rounded x ≤ pow2 (max (exponent x) (-126) + 1) := by
      apply rounded_le_pow2
      · simp only [round_grid]; omega
      · exact le_trans (le_of_lt x2) (pow2_le_pow2 (by omega))
    have a2 : pow2 (exponent y) ≤ rounded y := by
      apply pow2_le_rounded
      · simp only [round_grid]; omega
      · exact y1
    exact le_trans a1 (le_trans (pow2_le_pow2 (by omega)) a2)

theorem rounded_mono_neg {x y : ℚ} (hy : y < 0) (h : x ≤ y) : rounded x ≤ rounded y := by
  have hx : x < 0 := lt_of_le_of_lt h hy
  have hxne : x ≠ 0 := ne_of_lt hx
  have hyne : y ≠ 0 := ne_of_lt hy
  have habs : |y| ≤ |x| := by rw [abs_of_neg hx, abs_of_neg hy]; linarith
  have hexp := exponent_mono hyne habs
  obtain ⟨x1, -⟩ := exponent_spec x hxne
  obtain ⟨-, y2⟩ := exponent_spec y hyne
  rw [abs_of_neg hx] at x1
  rw [abs_of_neg hy] at y2
  by_cases hk : round_grid x = round_grid y
  · exact rounded_mono_same_grid hk h
  · have hlt : max (exponent y) (-126) < max (exponent x) (-126) := by
      simp only [round_grid] at hk
      have : max (exponent y) (-126) ≤ max (exponent x) (-126) := max_le_max hexp (le_refl _)
      omega
    have hEx : max (exponent x) (-126) = exponent x := by omega
    have a1 : rounded x ≤ -pow2 (exponent x) := by
      apply rounded_le_neg_pow2
      · simp only [round_grid]; omega
      · linarith
    have a2 : -pow2 (max (exponent y) (-126) + 1) ≤ rounded y := by
      apply neg_pow2_le_rounded
      · simp only [round_grid]; omega
      · have := @pow2_le_pow2 (exponent y + 1) (max (exponent y) (-126) + 1) (by omega)
        linarith
    have a3 := @pow2_le_pow2 (max (exponent y) (-126) + 1) (exponent x) (by omega)
    linarith

/-- The rounding before the test for overflow is monotone. -/
theorem rounded_mono {x y : ℚ} (h : x ≤ y) : rounded x ≤ rounded y := by
  rcases lt_trichotomy 0 x with hx | hx | hx
  · exact rounded_mono_pos hx h
  · subst hx
    rw [rounded_zero]
    exact rounded_nonneg h
  · rcases lt_or_le y 0 with hy | hy
    · exact rounded_mono_neg hy h
    · exact le_trans (rounded_nonpos (le_of_lt hx)) (rounded_nonneg hy)

theorem round32_ne_nan (q : ℚ) : round32 q ≠ .nan := by
  rw [round32_eq_rounded]
  split_ifs <;> simp

/-- Rounding to `float` is monotone. -/
theorem round32_mono {x y : ℚ} (h : x ≤ y) : round32 x ≤ round32 y := by
  have hr := rounded_mono h
  have hp := pow2_pos 128
  rw [round32_eq_rounded, round32_eq_rounded]
  by_cases hy : pow2 128 ≤ |rounded y|
  · rw [if_pos hy]
    by_cases hy0 : 0 < y
    · rw [if_pos hy0]
      split_ifs <;> trivial
    · rw [if_neg hy0]
      have hyn : rounded y ≤ 0 := rounded_nonpos (not_lt.mp hy0)
      rw [abs_of_nonpos hyn] at hy
      have hxn : rounded x ≤ 0 := le_trans hr hyn
      have hx : pow2 128 ≤ |rounded x| := by
        rw [abs_of_nonpos hxn]; linarith
      have hx0 : ¬ 0 < x := by
        intro hc
        exact hy0 (lt_of_lt_of_le hc h)
      rw [if_pos hx, if_neg hx0]
      trivial
  · rw [if_neg hy]
    by_cases hx : pow2 128 ≤ |rounded x|
    · rw [if_pos hx]
      by_cases hx0 : 0 < x
      · exfalso
        have hxp : 0 ≤ rounded x := rounded_nonneg (le_of_lt hx0)
        rw [abs_of_nonneg hxp] at hx
        have hyp : 0 ≤ rounded y := le_trans hxp hr
        rw [abs_of_nonneg hyp] at hy
        linarith
      · rw [if_neg hx0]
        trivial
    · rw [if_neg hx]
      exact hr

theorem triangle_vertices_append (B : List GLtriangle) :
    ∀ (T A : List GLtriangle),
      triangle_vertices (A ++ T ++ B) (List.range' A.length T.length) = triangle_points T := by
  intro T
  induction T with
  | nil => intro A; simp [triangle_vertices, triangle_points]
  | cons t T ih =>
    intro A
    have hget : (A ++ t :: T ++ B).get? A.length = some t := by
      rw [List.get?_eq_getElem?]
      have e : A ++ t :: T ++ B = A ++ t :: (T ++ B) := by simp
      rw [e, getElem?_append_cons]
    have hrec := ih (A ++ [t])
    have e2 : A ++ [t] ++ T ++ B = A ++ t :: T ++ B := by simp
    rw [e2] at hrec
    simp only [List.length_append, List.length_singleton] at hrec
    simp only [List.length_cons, List.range'_succ, triangle_vertices, hget, triangle_points,
      hrec]

theorem float_sub_eq_add_neg (a b : float) : a - b = a + -b := rfl

/-- With a finite center and a half-size that is not negative, the lower corner is not
above the upper corner. -/
theorem float_sub_le_add {a b : float} (ha : a.is_finite) (hb : (0 : float) ≤ b) :
    a - b ≤ a + b := by
  cases a with
  | fin p =>
    cases b with
    | fin q =>
      rw [float_zero_def, float_fin_le_fin] at hb
      show round32 (p + -q) ≤ round32 (p + q)
      exact round32_mono (by linarith)
    | pinf => exact trivial
    | nan => exact absurd hb (float_not_le_nan _)
    | ninf => exact absurd hb (fun h => h)
  | nan => exact absurd ha (fun h => h)
  | pinf => exact absurd ha (fun h => h)
  | ninf => exact absurd ha (fun h => h)

theorem is_min_of_two {lo hi : float} (h : lo ≤ hi) (l : List float) (hmem : lo ∈ l)
    (hall : ∀ q ∈ l, q = lo ∨ q = hi) : is_min_of lo l := by
  refine ⟨hmem, fun q hq => ?_⟩
  rcases hall q hq with rfl | rfl
  · exact float_le_refl (float_ne_nan_of_le h).1
  · exact h

theorem is_max_of_two {lo hi : float} (h : lo ≤ hi) (l : List float) (hmem : hi ∈ l)
    (hall : ∀ q ∈ l, q = lo ∨ q = hi) : is_max_of hi l := by
  refine ⟨hmem, fun q hq => ?_⟩
  rcases hall q hq with rfl | rfl
  · exact h
  · exact float_le_refl (float_ne_nan_of_le h).2

/-- The corners of the triangles of a cube are its eight corners, `center` plus or minus
`sizes` on every axis; when the lower corner is not above the upper one on any axis, the
box `[center - sizes, center + sizes]` is their extent. -/
theorem cube_points_extent (normalize : GLvec3 → GLvec3) (cube : Cube) (flags : SubmitFlags)
    (hx : cube.center.x - cube.sizes.x ≤ cube.center.x + cube.sizes.x)
    (hy : cube.center.y - cube.sizes.y ≤ cube.center.y + cube.sizes.y)
    (hz : cube.center.z - cube.sizes.z ≤ cube.center.z + cube.sizes.z) :
    is_extent (cube_box cube) (triangle_points (cube_triangles normalize cube flags)) := by
  simp only [is_extent, cube_box, cube_triangles, triangle_points,
    glm_add, List.cons_append, List.nil_append, List.map_cons, List.map_nil]
  refine ⟨is_min_of_two hx _ ?_ ?_, is_max_of_two hx _ ?_ ?_, is_min_of_two hy _ ?_ ?_,
    is_max_of_two hy _ ?_ ?_, is_min_of_two hz _ ?_ ?_, is_max_of_two hz _ ?_ ?_⟩ <;>
    simp [float_sub_eq_add_neg]

theorem cube_points_number (normalize : GLvec3 → GLvec3) (cube : Cube) (flags : SubmitFlags)
    (hx : cube.center.x - cube.sizes.x ≤ cube.center.x + cube.sizes.x)
    (hy : cube.center.y - cube.sizes.y ≤ cube.center.y + cube.sizes.y)
    (hz : cube.center.z - cube.sizes.z ≤ cube.center.z + cube.sizes.z) :
    ∀ v ∈ triangle_points (cube_triangles normalize cube flags), v.is_number := by
  obtain ⟨x1, x2⟩ := float_ne_nan_of_le hx
  obtain ⟨y1, y2⟩ := float_ne_nan_of_le hy
  obtain ⟨z1, z2⟩ := float_ne_nan_of_le hz
  rw [float_sub_eq_add_neg] at x1 y1 z1
  simp only [cube_triangles, triangle_points, glm_add, List.cons_append, List.nil_append,
    List.forall_mem_cons, GLvec3.is_number]
  simp [x1, x2, y1, y2, z1, z2]

/-- The box that `get_bbox` computes for a primitive whose twelve triangles are those of a
cube whose lower corner is not above its upper corner. -/
theorem get_bbox_cube (A B : List GLtriangle) (normalize : GLvec3 → GLvec3) (cube : Cube)
    (flags : SubmitFlags) (material : Int) (rest : List Primitive)
    (hx : cube.center.x - cube.sizes.x ≤ cube.center.x + cube.sizes.x)
    (hy : cube.center.y - cube.sizes.y ≤ cube.center.y + cube.sizes.y)
    (hz : cube.center.z - cube.sizes.z ≤ cube.center.z + cube.sizes.z) :
    get_bbox (A ++ cube_triangles normalize cube flags ++ B)
      (⟨(A.length : Int), 12, material⟩ :: rest) 1 = .ok (cube_box cube) := by
  have hvalid : ∀ p ∈ (⟨(A.length : Int), 12, material⟩ :: rest).take (1 : Int).toNat,
      p.valid (A ++ cube_triangles normalize cube flags ++ B) := by
    intro p hp
    have : p = ⟨(A.length : Int), 12, material⟩ := by simpa using hp
    subst this
    simp only [Primitive.valid, List.length_append, cube_triangles_length]
    refine ⟨by omega, by omega, ?_⟩
    push_cast
    omega
  obtain ⟨b, hb, hext⟩ := get_bbox_ok _ (⟨(A.length : Int), 12, material⟩ :: rest) 1
    (by decide) (by simp) hvalid
  have hvs : vertices (A ++ cube_triangles normalize cube flags ++ B)
      ((⟨(A.length : Int), 12, material⟩ :: rest).take (1 : Int).toNat)
      = triangle_points (cube_triangles normalize cube flags) := by
    have h12 : (12 : Int).toNat = (cube_triangles normalize cube flags).length := by
      rw [cube_triangles_length]; rfl
    have h1 : (1 : Int).toNat = 1 := rfl
    simp only [h1, List.take_succ_cons, List.take_zero, vertices, List.append_nil,
      Int.toNat_ofNat, h12]
    exact triangle_vertices_append B _ A
  rw [hvs] at hext
  rw [hb, is_extent_unique (hext (cube_points_number normalize cube flags hx hy hz))
    (cube_points_extent normalize cube flags hx hy hz)]

theorem get_centroid_cube_box (cube : Cube)
    (hx : exact_axis cube.center.x cube.sizes.x) (hy : exact_axis cube.center.y cube.sizes.y)
    (hz : exact_axis cube.center.z cube.sizes.z) :
    get_centroid (cube_box cube) = cube.center := by
  have key : ∀ c s : float, exact_axis c s → (c + s + (c - s)) / 2 = c := by
    intro c s h
    cases c with
    | fin a =>
      cases s with
      | fin b =>
        obtain ⟨h1, h2, h3, h4⟩ := h
        have e1 : (float.fin a + float.fin b) = .fin (a + b) := h1
        have e2 : (float.fin a - float.fin b) = .fin (a - b) := by
          show round32 (a + -b) = .fin (a - b)
          rw [← sub_eq_add_neg]; exact h2
        have e3 : (float.fin (a + b) + float.fin (a - b)) = .fin (2 * a) := by
          show round32 (a + b + (a - b)) = .fin (2 * a)
          rw [show a + b + (a - b) = 2 * a by ring]; exact h3
        have e4 : (float.fin (2 * a) / (2 : float)) = .fin a := by
          show float.div (.fin (2 * a)) (.fin ((2 : Nat) : ℚ)) = _
          simp only [float.div]
          rw [if_neg (by norm_num), show 2 * a / ((2 : Nat) : ℚ) = a by push_cast; ring]
          exact h4
        rw [e1, e2, e3, e4]
      | nan => exact absurd h (fun h => h)
      | pinf => exact absurd h (fun h => h)
      | ninf => exact absurd h (fun h => h)
    | nan => exact absurd h (fun h => h)
    | pinf => exact absurd h (fun h => h)
    | ninf => exact absurd h (fun h => h)
  cases cube with
  | mk center sizes index =>
    cases center
    simp only [get_centroid, cube_box, GLvec3.mk.injEq]
    exact ⟨key _ _ hx, key _ _ hy, key _ _ hz⟩

theorem cube_corners_used (normalize : GLvec3 → GLvec3) (cube : Cube) (flags : SubmitFlags) :
    ∀ v ∈ cube_corners cube, v ∈ triangle_points (cube_triangles normalize cube flags) := by
  intro v hv
  simp only [cube_corners, List.mem_cons, List.not_mem_nil, or_false] at hv
  simp only [cube_triangles, triangle_points, List.cons_append, List.nil_append, List.mem_cons,
    List.not_mem_nil, or_false]
  rcases hv with rfl | rfl | rfl | rfl | rfl | rfl | rfl | rfl <;> simp

/-- C29 (as amended). For every cube with non-negative half-sizes and a center whose
coordinates are finite (no NaN, no infinity), submitted by `submit_primitive` (without the
`Update` flag, or with it for a cube whose triangles are in the pool and an existing id),
the twelve triangles written to the pool use all eight corners of the cube, `center` plus
or minus `sizes` on every axis, so `get_bbox` of the resulting primitive is exactly
`[center.x - sizes.x, center.x + sizes.x] x [center.y - sizes.y, center.y + sizes.y]
x [center.z - sizes.z, center.z + sizes.z]`, each bound being the rounded `float` sum or
difference; the corners of the triangles, and with them the box, are the same whatever the
`FlipNormals` flag.  `get_centroid` of that box is `((c + s) + (c - s)) / 2` in `float`
arithmetic on every axis; it is the center when none of these operations rounds. -/
theorem submit_primitive_cube_box (normalize : GLvec3 → GLvec3) (tri : GLtriangle)
    (s : Scene) (cube : Cube) (flags : SubmitFlags) (flag_params : Int)
    (hx : 0 ≤ cube.sizes.x) (hy : 0 ≤ cube.sizes.y) (hz : 0 ≤ cube.sizes.z)
    (hc : cube.center.is_finite)
    (hlen : (s.m_triangle_pool.length : Int) ≤ (PH_MAX_int64 : Int)) :
    (flags.update = false →
      ∃ (id : Int) (cube2 : Cube) (s2 : Scene),
        submit_primitive normalize tri s cube flags flag_params = .ok (id, cube2, s2) ∧
        s2.m_triangle_pool.drop s.m_triangle_pool.length
          = cube_triangles normalize cube flags ∧
        get_bbox s2.m_triangle_pool (s2.m_primitives.drop id.toNat) 1
          = .ok (cube_box cube)) ∧
    (flags.update = true → 0 ≤ cube.index →
      cube.index + 12 ≤ (s.m_triangle_pool.length : Int) →
      0 ≤ flag_params → flag_params < (s.m_primitives.length : Int) →
      ∃ (s2 : Scene),
        submit_primitive normalize tri s cube flags flag_params
          = .ok (flag_params, cube, s2) ∧
        get_bbox s2.m_triangle_pool (s2.m_primitives.drop flag_params.toNat) 1
          = .ok (cube_box cube)) ∧
    (∀ v ∈ cube_corners cube, v ∈ triangle_points (cube_triangles normalize cube flags)) ∧
    is_extent (cube_box cube) (triangle_points (cube_triangles normalize cube flags)) ∧
    get_centroid (cube_box cube) =
      ⟨(cube.center.x + cube.sizes.x + (cube.center.x - cube.sizes.x)) / 2,
       (cube.center.y + cube.sizes.y + (cube.center.y - cube.sizes.y)) / 2,
       (cube.center.z + cube.sizes.z + (cube.center.z - cube.sizes.z)) / 2⟩ ∧
    (exact_axis cube.center.x cube.sizes.x → exact_axis cube.center.y cube.sizes.y →
      exact_axis cube.center.z cube.sizes.z → get_centroid (cube_box cube) = cube.center) ∧
    (∀ flags2 : SubmitFlags, triangle_points (cube_triangles normalize cube flags2)
      = triangle_points (cube_triangles normalize cube flags)) := by
  have lx := float_sub_le_add hc.1 hx
  have ly := float_sub_le_add hc.2.1 hy
  have lz := float_sub_le_add hc.2.2 hz
  refine ⟨fun hflags => ?_, fun hflags h0 h12 hid0 hid1 => ?_,
    cube_corners_used normalize cube flags,
    cube_points_extent normalize cube flags lx ly lz, rfl,
    fun ex ey ez => get_centroid_cube_box cube ex ey ez,
    fun flags2 => by simp [cube_triangles, triangle_points]⟩
  · refine ⟨_, _, _, submit_append_value normalize tri s cube flags flag_params hflags
      hlen, by simp, ?_⟩
    simp only [Int.toNat_ofNat, List.drop_left]
    have := get_bbox_cube s.m_triangle_pool [] normalize cube flags MaterialType_Lambert []
      lx ly lz
    simpa using this
  · refine ⟨_, submit_update_value normalize tri s cube flags flag_params hflags h0 h12
      hlen hid0 hid1, ?_⟩
    simp only
    have hlt : flag_params.toNat < s.m_primitives.length := by omega
    have hdrop : (s.m_primitives.set flag_params.toNat
          ⟨cube.index, 12, MaterialType_Lambert⟩).drop flag_params.toNat
        = ⟨cube.index, 12, MaterialType_Lambert⟩ ::
          s.m_primitives.drop (flag_params.toNat + 1) := by
      rw [List.drop_eq_getElem_cons (by rw [List.length_set]; exact hlt)]
      simp [List.drop_set_of_lt]
    have hA : ((s.m_triangle_pool.take cube.index.toNat).length : Int) = cube.index := by
      rw [List.length_take]
      omega
    have := get_bbox_cube (s.m_triangle_pool.take cube.index.toNat)
      (s.m_triangle_pool.drop (cube.index.toNat + 12)) normalize cube flags
      MaterialType_Lambert (s.m_primitives.drop (flag_params.toNat + 1)) lx ly lz
    rw [hA] at this
    rw [hdrop]
    exact this

theorem submit_primitive_cube_box_witness :
    ((0 : float) ≤ moved_cube.sizes.x ∧ (0 : float) ≤ moved_cube.sizes.y ∧
      (0 : float) ≤ moved_cube.sizes.z ∧ moved_cube.center.is_finite ∧
      (unit_scene.m_triangle_pool.length : Int) ≤ (PH_MAX_int64 : Int) ∧
      SubmitFlags.update ⟨false, true⟩ = false ∧ SubmitFlags.update ⟨true, false⟩ = true ∧
      0 ≤ moved_cube.index ∧
      moved_cube.index + 12 ≤ (unit_scene.m_triangle_pool.length : Int) ∧
      (0 : Int) ≤ 0 ∧ (0 : Int) < (unit_scene.m_primitives.length : Int) ∧
      exact_axis moved_cube.center.x moved_cube.sizes.x ∧
      exact_axis moved_cube.center.y moved_cube.sizes.y ∧
      exact_axis moved_cube.center.z moved_cube.sizes.z) ∧
    cube_box moved_cube = ⟨5 / 2, 7 / 2, -1 / 2, 1 / 2, -1 / 2, 1 / 2⟩ ∧
    (∃ (id : Int) (cube2 : Cube) (s2 : Scene),
      submit_primitive no_normalize zero_triangle unit_scene moved_cube ⟨false, true⟩ 0
        = .ok (id, cube2, s2) ∧
      s2.m_triangle_pool.drop unit_scene.m_triangle_pool.length
        = cube_triangles no_normalize moved_cube ⟨false, true⟩ ∧
      get_bbox s2.m_triangle_pool (s2.m_primitives.drop id.toNat) 1
        = .ok (cube_box moved_cube)) ∧
    (∃ (s2 : Scene),
      submit_primitive no_normalize zero_triangle unit_scene moved_cube ⟨true, false⟩ 0
        = .ok (0, moved_cube, s2) ∧
      get_bbox s2.m_triangle_pool (s2.m_primitives.drop (0 : Int).toNat) 1
        = .ok (cube_box moved_cube)) ∧
    get_centroid (cube_box moved_cube) = moved_cube.center :=
  ⟨⟨by decide!, by decide!, by decide!, by decide!, by decide, by decide, by decide,
     by decide, by decide, by decide, by decide, by decide!, by decide!, by decide!⟩,
   by decide!,
   (submit_primitive_cube_box no_normalize zero_triangle unit_scene moved_cube ⟨false, true⟩ 0
     (by decide!) (by decide!) (by decide!) (by decide!) (by decide)).1 (by decide),
   (submit_primitive_cube_box no_normalize zero_triangle unit_scene moved_cube ⟨true, false⟩ 0
     (by decide!) (by decide!) (by decide!) (by decide!) (by decide)).2.1 (by decide)
     (by decide) (by decide) (by decide) (by decide),
   (submit_primitive_cube_box no_normalize zero_triangle unit_scene moved_cube ⟨true, false⟩ 0
     (by decide!) (by decide!) (by decide!) (by decide!) (by decide)).2.2.2.2.2.1
     (by decide!) (by decide!) (by decide!)⟩

/-- C29 as stated fails.  For the cube around `(0.1f, 0, 0)` with half-sizes `1/2` the
bounds on `x` that `get_bbox` returns are the rounded difference and sum `0.1f - 0.5f` and
`0.1f + 0.5f`, and `get_centroid` of the box is the float next above `0.1f`, not the
center. -/
theorem submit_primitive_cube_box_counterexample :
    ((0 : float) ≤ tenth_cube.sizes.x ∧ (0 : float) ≤ tenth_cube.sizes.y ∧
      (0 : float) ≤ tenth_cube.sizes.z) ∧
    (∃ (cube2 : Cube) (s2 : Scene),
      submit_primitive no_normalize zero_triangle empty_scene tenth_cube SubmitFlags_None 0
        = .ok (0, cube2, s2) ∧
      get_bbox s2.m_triangle_pool s2.m_primitives 1 = .ok (cube_box tenth_cube)) ∧
    tenth = .fin (13421773 / 134217728) ∧
    get_centroid (cube_box tenth_cube) = ⟨.fin (6710887 / 67108864), 0, 0⟩ ∧
    get_centroid (cube_box tenth_cube) ≠ tenth_cube.center := by
  refine ⟨⟨by decide!, by decide!, by decide!⟩, ?_, by decide!, by decide!, by decide!⟩
  have h := (submit_primitive_cube_box no_normalize zero_triangle empty_scene tenth_cube
    SubmitFlags_None 0 (by decide!) (by decide!) (by decide!) (by decide!) (by decide)).1 rfl
  obtain ⟨id, cube2, s2, h1, -, h3⟩ := h
  have hv := submit_append_value no_normalize zero_triangle empty_scene tenth_cube
    SubmitFlags_None 0 rfl (by decide)
  rw [hv] at h1
  simp only [Except.ok.injEq, Prod.mk.injEq] at h1
  obtain ⟨rfl, rfl, rfl⟩ := h1
  exact ⟨_, _, hv, by simpa using h3⟩

/-- C30 (a defect of the code, not of the claim): `submit_primitive(AABB*)` computes the
third half-size of the cube as `bbox->zmax - center.y`, with the `y` of the center where
its `z` belongs.  For the box `[0, 1] x [0, 1] x [0, 2]` the center is `(1/2, 1/2, 1)`, the
half-sizes are `(1/2, 1/2, 3/2)`, and the box that `get_bbox` recomputes for the primitive
that was appended is `[0, 1] x [0, 1] x [-1/2, 5/2]`: the bounds on `z` are not those of
the box that was submitted. -/
theorem submit_primitive_aabb_z_bounds :
    (tall_box.xmin ≤ tall_box.xmax ∧ tall_box.ymin ≤ tall_box.ymax ∧
      tall_box.zmin ≤ tall_box.zmax) ∧
    (∃ s2 : Scene,
      submit_primitive_aabb no_normalize zero_triangle empty_scene tall_box = .ok (0, s2) ∧
      s2.m_primitives = [⟨0, 12, MaterialType_Lambert⟩] ∧
      get_bbox s2.m_triangle_pool s2.m_primitives 1 = .ok ⟨0, 1, 0, 1, -1 / 2, 5 / 2⟩) ∧
    (⟨0, 1, 0, 1, -1 / 2, 5 / 2⟩ : AABB) ≠ tall_box := by
  refine ⟨by decide!, ⟨{ empty_scene with
      m_triangle_pool := cube_triangles no_normalize ⟨⟨1 / 2, 1 / 2, 1⟩, ⟨1 / 2, 1 / 2, 3 / 2⟩, -1⟩
        SubmitFlags_None,
      m_primitives := [⟨0, 12, MaterialType_Lambert⟩] }, by decide!, rfl, by decide!⟩,
    by decide!⟩

end ph.scene
